import Mathlib

/-!
# LAR: the LU-format library maintainer (`os-related/lar.c`)

A shallow embedding of `lar.c`: the archive functions (sector copy, directory
handling, compaction), the unsqueezer (`USQ`: Huffman decoding with run-length
unwrap) and the uncruncher (`UNCRUNCH`: adaptive LZW decoding), with the
properties proved of them.

Conventions of the embedding

* A byte is a `Nat` (the value `getc` returns, 0..255).  A `char` buffer is a
  `List Nat`.
* An input stream is the list of bytes from its current position to end of
  file; an output stream is the list of bytes written so far; a file opened
  for update is the list of all its bytes.
* `int` and `unsigned int` are unbounded (`Nat`): the definitions are exact as
  long as the counted quantities fit the platform's `int`.
* `error (...)` and `cant (...)` end the process (`exit (1)`); a function that
  can reach them returns `Option`, `none` being that exit.  `none` also stands
  for a step whose effect the source does not determine (`putname` reading
  past the end of its string, a shift by a negative count).
* `ldir i` with `i` at or above `MAXFILES` is the memory behind the table
  `ldir[MAXFILES]`.  `getdir` can store entries there; in the program that
  memory belongs to other objects, whose content is then not determined by
  the source.  Here such entries are kept apart from the other globals, so
  that the definitions describe the program exactly for `nslots <= MAXFILES`,
  and beyond that only up to the stores behind the table.
* In the unsqueezer the `int` values that can be negative (tree links, symbols,
  `repct`, `value`) are `Int`.  In the uncruncher the `short` and `int`
  variables hold non-negative values and are `Nat`; `xlatbl` and `cksum` are
  kept as 16-bit patterns.  The bit buffer `getbuf` of the code reader is the
  bit pattern of a `long` whose width is a parameter.
* A loop of the decoders that the program can run without end takes a bound
  as its first argument, and the result `none` stands for a run that uses the
  bound up; the theorems on such a loop show that it returns.
-/

namespace Lar

/-! ## Constants -/

/-- Source: `#define ACTIVE 00`. -/
def ACTIVE : Nat := 0x00

/-- Source: `#define UNUSED 0xff`. -/
def UNUSED : Nat := 0xff

/-- Source: `#define DELETED 0xfe`. -/
def DELETED : Nat := 0xfe

/-- Source: `#define CTRLZ 0x1a`. -/
def CTRLZ : Nat := 0x1a

/-- Source: `#define MAXFILES 256`. -/
def MAXFILES : Nat := 256

/-- Source: `#define SECTOR 128`. -/
def SECTOR : Nat := 128

/-- Source: `#define DSIZE ( sizeof(struct ludir) )`; the structure is
1 + 8 + 3 + 2 + 2 + 16 bytes of `char` members, hence 32 bytes. -/
def DSIZE : Nat := 32

/-- Source: `#define SLOTS_SEC (SECTOR/DSIZE)`. -/
def SLOTS_SEC : Nat := SECTOR / DSIZE

/-- The test `isascii (c)` of `<ctype.h>`: the value fits seven bits. -/
def isascii (c : Nat) : Bool := decide (c < 0x80)

/-! ## Sector copy: `fcopy` and `acopy` -/

/-- The `while` loop of `fcopy`.  `ifd` is the unread input, `ofd` the bytes
written so far, `total` the sector counter.  One iteration is
`n = fread (sectorbuf, 1, SECTOR, ifd)`; the loop ends when `n == 0`;
otherwise positions `n .. SECTOR-1` of the buffer are set to `CTRLZ` when
`n != SECTOR`, the whole buffer is written and `total` is incremented.
The first argument bounds the number of iterations; `fcopy` passes the input
length, which the loop never exceeds because every iteration consumes at least
one byte. -/
def fcopyLoop : Nat → List Nat → List Nat → Nat → List Nat × Nat
  | 0, _, ofd, total => (ofd, total)
  | fuel + 1, ifd, ofd, total =>
    let n := min SECTOR ifd.length
    if n = 0 then (ofd, total)
    else
      let sectorbuf :=
        if n ≠ SECTOR then ifd.take n ++ List.replicate (SECTOR - n) CTRLZ
        else ifd.take SECTOR
      fcopyLoop fuel (ifd.drop n) (ofd ++ sectorbuf) (total + 1)

/-- Source: `fcopy (ifd, ofd)`.  Copies the input to the output in whole
sectors and returns the output stream and the number of sectors written. -/
def fcopy (ifd ofd : List Nat) : List Nat × Nat :=
  fcopyLoop ifd.length ifd ofd 0

/-- The `for (i=0; i<SECTOR; i++)` loop of `acopy`, with `i` counting the
iterations still to run and `nsecs` the (already decremented) sector counter.
Returns the unread input, the `textfile` flag and the output; `none` is the
exit through `error ("Premature EOF\n")`. -/
def acopySector (nsecs : Nat) :
    Nat → List Nat → Bool → List Nat → Option (List Nat × Bool × List Nat)
  | 0, fdi, textfile, fdo => some (fdi, textfile, fdo)
  | _ + 1, [], _, _ => none
  | i + 1, c :: fdi, textfile, fdo =>
    let textfile := if isascii c = false then false else textfile
    if nsecs ≠ 0 ∨ textfile = false ∨ c ≠ CTRLZ then
      acopySector nsecs i fdi textfile (fdo ++ [c])
    else
      acopySector nsecs i fdi textfile fdo

/-- The `while ( nsecs-- != 0)` loop of `acopy`: the body runs with the
counter already decremented. -/
def acopyLoop : Nat → List Nat → Bool → List Nat → Option (List Nat)
  | 0, _, _, fdo => some fdo
  | nsecs + 1, fdi, textfile, fdo =>
    match acopySector nsecs SECTOR fdi textfile fdo with
    | none => none
    | some (fdi1, textfile1, fdo1) => acopyLoop nsecs fdi1 textfile1 fdo1

/-- Source: `acopy (fdi, fdo, nsecs)`.  `fdi` is the input from the position
the caller seeked to; the result is what was written to `fdo`. -/
def acopy (fdi : List Nat) (nsecs : Nat) : Option (List Nat) :=
  acopyLoop nsecs fdi true []

/-! ## Words and directory entries -/

/-- Source: `typedef struct { unsigned char lobyte; unsigned char hibyte; } word;` -/
structure word where
  lobyte : Nat
  hibyte : Nat
  deriving DecidableEq, Repr

/-- Source: `int wtoi(word w) { return ((w.hibyte<<8) + w.lobyte); }`. -/
def wtoi (w : word) : Nat := (w.hibyte <<< 8) + w.lobyte

/-- Source: `void itow(word dst,int src) { dst.hibyte = (src & 0xff00) >> 8;
dst.lobyte = src & 0xff; }`.  The parameter `dst` is a structure passed by
value, so both assignments go to the function's own copy and the function
returns nothing.  The value defined here is that local copy at the end of the
body; a call `itow (x, n);` leaves the caller's `x` as it was, which is how the
callers below are written. -/
def itow (dst : word) (src : Nat) : word :=
  let dst1 : word := { dst with hibyte := (src &&& 0xff00) >>> 8 }
  { dst1 with lobyte := src &&& 0xff }

/-- Source: `struct ludir` (status, name, extension, offset, length, pad). -/
structure ludir where
  l_stat : Nat
  l_name : List Nat
  l_ext : List Nat
  l_off : word
  l_len : word
  l_fill : List Nat
  deriving DecidableEq, Repr

/-- The `DSIZE` bytes of an entry as `fwrite ((char *) ldir, DSIZE, ...)`
stores them: the members in declaration order, without padding. -/
def ludir.toBytes (e : ludir) : List Nat :=
  [e.l_stat] ++ e.l_name ++ e.l_ext ++
    [e.l_off.lobyte, e.l_off.hibyte, e.l_len.lobyte, e.l_len.hibyte] ++ e.l_fill

/-- The entry that `fread ((char *) & ldir[i], DSIZE, ...)` stores from
`DSIZE` bytes of the file. -/
def ludir.ofBytes (b : List Nat) : ludir :=
  { l_stat := b.getD 0 0
    l_name := (b.drop 1).take 8
    l_ext := (b.drop 9).take 3
    l_off := { lobyte := b.getD 12 0, hibyte := b.getD 13 0 }
    l_len := { lobyte := b.getD 14 0, hibyte := b.getD 15 0 }
    l_fill := (b.drop 16).take 16 }

/-- An object of static storage before any assignment: all bytes zero. -/
def zeroEntry : ludir :=
  { l_stat := 0
    l_name := List.replicate 8 0
    l_ext := List.replicate 3 0
    l_off := { lobyte := 0, hibyte := 0 }
    l_len := { lobyte := 0, hibyte := 0 }
    l_fill := List.replicate 16 0 }

/-- Messages the program prints (to `stderr` or `stdout`). -/
inductive Msg where
  | notInLibrary (name : List Nat)
  | notUpdated
  | deletedFile (name : List Nat)
  | cantFindToAdd (name : List Nat)
  | libraryFull (name : List Nat)
  | nameTruncated (name : List Nat)
  | adding (name : List Nat)
  | prompt
  | atLeastOne
  | tooManySlots
  | oldLibrarySlots (n : Nat)
  | copying (name ext : List Nat)
  | notEnoughRoom
  deriving DecidableEq, Repr

/-- The global variables of the archive part (`ldir`, `nslots`, `errcnt`,
`fname`, `ftouched`; `nfiles` is the length of `fname`) and the two output
streams.  `ldir i` is the memory at `&ldir[i]`; the array itself has the
indices below `MAXFILES`, and an index from `MAXFILES` on is memory behind the
array, which the program shares with other objects.  The state describes the
program only as long as nothing is stored there. -/
structure State where
  ldir : Nat → ludir
  nslots : Nat
  errcnt : Nat
  fname : List (List Nat)
  ftouched : Nat → Bool
  stderr : List Msg
  stdout : List Msg

/-- Assignment to one array element. -/
def setAt {α : Type} (a : Nat → α) (i : Nat) (v : α) : Nat → α :=
  fun j => if j = i then v else a j

/-! ## Names -/

/-- A `char` buffer read as a C string: the bytes before the first NUL. -/
def cstr (s : List Nat) : List Nat := s.takeWhile (fun c => decide (c ≠ 0))

/-- Source: `#define equal(s1, s2) ( strcmp(s1,s2) == 0 )`. -/
def equal (s1 s2 : List Nat) : Bool := decide (cstr s1 = cstr s2)

/-- The expression `isupper (c) ? tolower (c) : c` in the C locale. -/
def lowerOf (c : Nat) : Nat := if 0x41 ≤ c ∧ c ≤ 0x5a then c + 0x20 else c

/-- The expression `islower (c) ? toupper (c) : c` in the C locale. -/
def upperOf (c : Nat) : Nat := if 0x61 ≤ c ∧ c ≤ 0x7a then c - 0x20 else c

/-- One of the two copy loops of `getfname`: it stops at a space or after the
`k` bytes of the field.  `TOUPPER` is the compile-time switch of that name. -/
def getfnameField (TOUPPER : Bool) : Nat → List Nat → List Nat
  | 0, _ => []
  | _ + 1, [] => []
  | k + 1, c :: dp =>
    if c = 0x20 then []
    else (if TOUPPER then upperOf c else lowerOf c) :: getfnameField TOUPPER k dp

/-- Source: `getfname (nm, ex)`: the name, a dot, the extension; the contents
of `namebuf` before the closing NUL. -/
def getfname (TOUPPER : Bool) (nm ex : List Nat) : List Nat :=
  getfnameField TOUPPER 8 nm ++ [0x2e] ++ getfnameField TOUPPER 3 ex

/-- The `for` loop of `putname`.  The first argument is the string from `p1`
on (without its closing NUL), `p2` is the offset `p2 - cpmname`, `cpm` the
11 bytes of name and extension.  The result carries the final `p2` and
whether the "name truncated" branch was taken.  A dot that ends the string
makes the loop store the NUL at offset 8 and step `p1` past the closing NUL,
so that it goes on with the bytes behind the string; what these are the
source does not say, and the result for such a name is `none` (not an exit of
the process). -/
def putnameLoop : List Nat → Nat → List Nat → Option (List Nat × Nat × Bool)
  | [], p2, cpm => some (cpm, p2, false)
  | c :: p1, p2, cpm =>
    if c = 0x2e then
      match p1 with
      | [] => none
      | _ :: _ => putnameLoop p1 8 cpm
    else if p2 < 11 then putnameLoop p1 (p2 + 1) (cpm.set p2 (upperOf c))
    else some (cpm, p2, true)

/-- Source: `putname (cpmname, unixname)`; `cpmname` points at `l_name`, and
the offsets 8..10 are the bytes of `l_ext` that follow it in the structure. -/
def putname (cpmname unixname : List Nat) : Option (List Nat × Bool) :=
  match putnameLoop unixname 0 cpmname with
  | none => none
  | some (cpm, p2, truncated) =>
    some (cpm.take p2 ++ List.replicate (11 - p2) 0x20, truncated)

/-! ## Reading and writing the directory -/

/-- The complete items that `fread (ptr, size, count, f)` reads from the
unread input `f`; its return value is their number. -/
def fread (size : Nat) : Nat → List Nat → List (List Nat)
  | 0, _ => []
  | count + 1, f =>
    if f.length < size then [] else f.take size :: fread size count (f.drop size)

/-- Storing the entries read by `fread` at `&ldir[k]`. -/
def storeEntries (ldir : Nat → ludir) (k : Nat) (items : List (List Nat)) : Nat → ludir :=
  fun i => if k ≤ i ∧ i < k + items.length then ludir.ofBytes (items.getD (i - k) []) else ldir i

/-- Source: `getdir (f)`.  `none` is the exit through `error`.  With a header
length of 0 the count `nslots-1` is -1, which `fread` takes as the largest
`size_t`; it cannot read that many entries, so the comparison fails.  The
source does not compare `nslots` with `MAXFILES`: with a header length above
64 the second `fread` stores entries from `ldir[256]` on, behind the table.
The result then records these stores and `nslots`, and it is the state of the
program only up to what else lies in that memory. -/
def getdir (f : List Nat) (g : State) : Option State :=
  let r0 := fread DSIZE 1 f
  if r0.length ≠ 1 then none
  else
    let ldir := storeEntries g.ldir 0 r0
    let nslots := wtoi (ldir 0).l_len * SLOTS_SEC
    if nslots = 0 then none
    else
      let r1 := fread DSIZE (nslots - 1) (f.drop DSIZE)
      if r1.length ≠ nslots - 1 then none
      else some { g with ldir := storeEntries ldir 1 r1, nslots := nslots }

/-- The bytes `fwrite ((char *) ldir, DSIZE, nslots, f)` writes. -/
def dirBytes (g : State) : List Nat :=
  ((List.range g.nslots).map (fun i => (g.ldir i).toBytes)).flatten

/-- Source: `putdir (f)`: the directory is written over the start of the
file. -/
def putdir (f : List Nat) (g : State) : List Nat :=
  dirBytes g ++ f.drop (dirBytes g).length

/-! ## Command-line names -/

/-- The state of the globals when `main` starts: static storage is zero. -/
def initState : State :=
  { ldir := fun _ => zeroEntry
    nslots := 0
    errcnt := 0
    fname := []
    ftouched := fun _ => false
    stderr := []
    stdout := [] }

/-- The duplicate test of `filenames`: some `fname[i]` equals a later
`fname[j]`. -/
def hasDuplicate : List (List Nat) → Bool
  | [] => false
  | s :: rest => rest.any (fun t => equal s t) || hasDuplicate rest

/-- Source: `filenames (ac, av)`, with `names` the arguments `av[3..]`.
`none` is the exit through `error` ("Too many file names." is reached when
the loop index gets to `MAXFILES`; "duplicate file name" on a repeated
name). -/
def filenames (names : List (List Nat)) (g : State) : Option State :=
  if MAXFILES < names.length then none
  else if hasDuplicate names then none
  else
    some { g with
      errcnt := 0
      fname := names
      ftouched := fun i => if i < names.length then false else g.ftouched i }

/-- The search loop of `filarg`: the first index `i` with
`equal (name, fname[i])`. -/
def filargFind (name : List Nat) : List (List Nat) → Nat → Option Nat
  | [], _ => none
  | s :: rest, i => if equal name s then some i else filargFind name rest (i + 1)

/-- Source: `filarg (name)`. -/
def filarg (name : List Nat) (g : State) : Bool × State :=
  if g.fname.length ≤ 0 then (true, g)
  else
    match filargFind name g.fname 0 with
    | some i => (true, { g with ftouched := setAt g.ftouched i true })
    | none => (false, g)

/-- The loop of `not_found` from index `i` over the names still to visit. -/
def not_foundLoop : List (List Nat) → Nat → State → State
  | [], _, g => g
  | s :: rest, i, g =>
    if g.ftouched i = false then
      not_foundLoop rest (i + 1)
        { g with stderr := g.stderr ++ [Msg.notInLibrary s], errcnt := g.errcnt + 1 }
    else not_foundLoop rest (i + 1) g

/-- Source: `not_found ()`. -/
def not_found (g : State) : State := not_foundLoop g.fname 0 g

/-! ## Creating a directory -/

/-- The entry `blankentry` of `initdir` after its three assignments.  The
object is static, so offset, length and pad are zero; the NUL that each
`strcpy` stores after the spaces lands on the next member and is either
overwritten by the following `strcpy` or leaves `l_off.lobyte` zero. -/
def blankentry : ludir :=
  { l_stat := UNUSED
    l_name := List.replicate 8 0x20
    l_ext := List.replicate 3 0x20
    l_off := { lobyte := 0, hibyte := 0 }
    l_len := { lobyte := 0, hibyte := 0 }
    l_fill := List.replicate 16 0 }

/-- The prompt loop of `initdir`.  `lines` holds the value `atoi (line)` of
every line `fgets` can still read; the result is the accepted number, the
unread lines and the output so far.  `none` is the exit through
`error ("Eof when reading input")`. -/
def initdirPrompt : List Int → List Msg → Option (Nat × List Int × List Msg)
  | [], _ => none
  | n :: lines, out =>
    if n < 1 then initdirPrompt lines (out ++ [Msg.prompt, Msg.atLeastOne])
    else if n > (MAXFILES : Int) then initdirPrompt lines (out ++ [Msg.prompt, Msg.tooManySlots])
    else some (n.toNat, lines, out ++ [Msg.prompt])

/-- Source: `initdir (f)`.  Returns the file written by `putdir`, the new
state and the unread input lines.  The call `itow (ldir[0].l_len, numsecs)`
passes the length word by value, so `ldir[0].l_len` keeps the value it got
from `blankentry`. -/
def initdir (lines : List Int) (f : List Nat) (g : State) :
    Option (List Nat × State × List Int) :=
  match initdirPrompt lines g.stdout with
  | none => none
  | some (n, lines1, out) =>
    let numsecs := n / SLOTS_SEC
    let nslots := numsecs * SLOTS_SEC
    let ldir1 : Nat → ludir := fun i => if i < nslots then blankentry else g.ldir i
    let ldir2 := setAt ldir1 0 { ldir1 0 with l_stat := ACTIVE }
    let _unused := itow (ldir2 0).l_len numsecs
    let g1 := { g with ldir := ldir2, nslots := nslots, stdout := out }
    some (putdir f g1, g1, lines1)

/-! ## Adding a file -/

/-- The slot search of `addfil`: the loop runs `i` upwards and stops at an
entry whose name equals `name` or whose status is not `ACTIVE`; the first
argument counts the slots left, and the result is the value of `i` after the
loop (`nslots` when the loop ran to its end). -/
def addfilFind (TOUPPER : Bool) (ldir : Nat → ludir) (name : List Nat) : Nat → Nat → Nat
  | 0, i => i
  | k + 1, i =>
    if equal (getfname TOUPPER (ldir i).l_name (ldir i).l_ext) name then i
    else if (ldir i).l_stat ≠ ACTIVE then i
    else addfilFind TOUPPER ldir name k (i + 1)

/-- Source: `addfil (name, lfd)`.  `ifd` is the content of the file `name`
(`none` when `fopen` fails), `lfd` the library file.  Both `itow` calls pass
the destination word by value and leave the entry unchanged. -/
def addfil (TOUPPER verbose : Bool) (name : List Nat) (ifd : Option (List Nat))
    (lfd : List Nat) (g : State) : Option (List Nat × State) :=
  match ifd with
  | none =>
    some (lfd, { g with stderr := g.stderr ++ [Msg.cantFindToAdd name], errcnt := g.errcnt + 1 })
  | some ifd =>
    let g1 := if verbose then { g with stderr := g.stderr ++ [Msg.adding name] } else g
    let i := addfilFind TOUPPER g1.ldir name g1.nslots 0
    if i ≥ g1.nslots then
      some (lfd,
        { g1 with stderr := g1.stderr ++ [Msg.libraryFull name], errcnt := g1.errcnt + 1 })
    else
      let e1 : ludir := { g1.ldir i with l_stat := ACTIVE }
      match putname (e1.l_name ++ e1.l_ext) name with
      | none => none
      | some (cpm, truncated) =>
        let e2 : ludir := { e1 with l_name := cpm.take 8, l_ext := cpm.drop 8 }
        let g2 :=
          if truncated then { g1 with stderr := g1.stderr ++ [Msg.nameTruncated name] } else g1
        let secoffs := lfd.length / 128
        let _unused1 := itow e2.l_off secoffs
        let copied := fcopy ifd lfd
        let numsecs := copied.2
        let _unused2 := itow e2.l_len numsecs
        some (copied.1, { g2 with ldir := setAt g2.ldir i e2 })

/-! ## Deleting -/

/-- The loop `for (i = 0; i < nslots; i++)` of `del_entry`; the first
argument counts the slots left. -/
def del_entryLoop (TOUPPER verbose : Bool) : Nat → Nat → State → State
  | 0, _, g => g
  | k + 1, i, g =>
    let unixnm := getfname TOUPPER (g.ldir i).l_name (g.ldir i).l_ext
    let r := filarg unixnm g
    if r.1 = false then del_entryLoop TOUPPER verbose k (i + 1) r.2
    else
      let g1 := { r.2 with ldir := setAt r.2.ldir i { r.2.ldir i with l_stat := DELETED } }
      let g2 := if verbose then { g1 with stdout := g1.stdout ++ [Msg.deletedFile unixnm] } else g1
      del_entryLoop TOUPPER verbose k (i + 1) g2

/-- Source: `del_entry (lname)`, with `f` the content of the library file.
The result is the library file afterwards and the final state; `none` is an
exit through `error`. -/
def del_entry (TOUPPER verbose : Bool) (f : List Nat) (g : State) : Option (List Nat × State) :=
  if g.fname.length ≤ 0 then none
  else
    match getdir f g with
    | none => none
    | some g1 =>
      let g2 := del_entryLoop TOUPPER verbose g1.nslots 0 g1
      let g3 := not_found g2
      if g3.errcnt > 0 then some (f, { g3 with stderr := g3.stderr ++ [Msg.notUpdated] })
      else some (putdir f g3, g3)

/-! ## Reorganizing -/

/-- The copy loop of `copyentry`: `numsecs` sectors are read from `of` and
appended to `nf`; a short read is the exit through `error ("read error")`. -/
def copySectors : Nat → List Nat → List Nat → Option (List Nat)
  | 0, _, nf => some nf
  | numsecs + 1, of, nf =>
    if (of.take SECTOR).length ≠ SECTOR then none
    else copySectors numsecs (of.drop SECTOR) (nf ++ of.take SECTOR)

/-- Source: `copyentry (old, of, new, nf)`.  `of` is the whole old library,
`nf` the new one; the result is the new entry and the new library.  Both
`itow` calls pass the destination word by value and leave `new` unchanged. -/
def copyentry (old : ludir) (of : List Nat) (new : ludir) (nf : List Nat) :
    Option (ludir × List Nat) :=
  let new1 : ludir :=
    { new with l_stat := ACTIVE, l_name := old.l_name.take 8, l_ext := old.l_ext.take 3 }
  let of1 := of.drop (wtoi old.l_off * SECTOR)
  let secoffs := nf.length / SECTOR
  let _unused1 := itow new1.l_off secoffs
  let numsecs := wtoi old.l_len
  let _unused2 := itow new1.l_len numsecs
  match copySectors numsecs of1 nf with
  | none => none
  | some nf1 => some (new1, nf1)

/-- The loop `for (i = j = 1; i < oldsize; i++)` of `reorg`; the first
argument counts the old slots left.  The `break` after "Not enough room"
ends the loop. -/
def reorgLoop (verbose : Bool) (odir : Nat → ludir) (olib : List Nat) :
    Nat → Nat → Nat → List Nat → State → Option (List Nat × State)
  | 0, _, _, nlib, g => some (nlib, g)
  | k + 1, i, j, nlib, g =>
    if (odir i).l_stat = ACTIVE then
      let g1 :=
        if verbose then
          { g with stderr := g.stderr ++ [Msg.copying (odir i).l_name (odir i).l_ext] }
        else g
      match copyentry (odir i) olib (g1.ldir j) nlib with
      | none => none
      | some (e, nlib1) =>
        let g2 := { g1 with ldir := setAt g1.ldir j e }
        if j + 1 ≥ g2.nslots then
          some (nlib1, { g2 with errcnt := g2.errcnt + 1, stderr := g2.stderr ++ [Msg.notEnoughRoom] })
        else reorgLoop verbose odir olib k (i + 1) (j + 1) nlib1 g2
    else reorgLoop verbose odir olib k (i + 1) j nlib g

/-- Source: `reorg (name)`, with `olib` the content of the library and
`lines` the input for the prompt of `initdir`.  The result is the content of
the library file afterwards (the new library after the `rename`, the old one
when the temporary file is removed) and the final state. -/
def reorg (verbose : Bool) (lines : List Int) (olib : List Nat) (g : State) :
    Option (List Nat × State) :=
  match getdir olib g with
  | none => none
  | some g1 =>
    let oldsize := g1.nslots
    let g2 := { g1 with stdout := g1.stdout ++ [Msg.oldLibrarySlots oldsize] }
    let odir := g2.ldir
    match initdir lines [] g2 with
    | none => none
    | some (nlib, g3, _) =>
      let g4 := { g3 with errcnt := 0 }
      match reorgLoop verbose odir olib (oldsize - 1) 1 1 nlib g4 with
      | none => none
      | some (nlib1, g5) =>
        let nlib2 := putdir nlib1 g5
        if g5.errcnt = 0 then some (nlib2, g5)
        else some (olib, { g5 with stderr := g5.stderr ++ [Msg.notUpdated] })

/-! ## Specification-side descriptions used in the statements -/

/-- Number of `CTRLZ` bytes that complete `len` bytes to whole sectors. -/
def padLen (len : Nat) : Nat := (SECTOR - len % SECTOR) % SECTOR

/-- What the inner loop of `acopy` writes for the final sector (`nsecs == 0`)
when it starts with the given `textfile` flag: a byte is dropped exactly when
it is `CTRLZ` and the flag is still set after looking at it. -/
def finalSectorOut : Bool → List Nat → List Nat
  | _, [] => []
  | textfile, c :: cs =>
    let textfile1 := textfile && isascii c
    if textfile1 = false ∨ c ≠ CTRLZ then c :: finalSectorOut textfile1 cs
    else finalSectorOut textfile1 cs

/-! ## Example inputs -/

/-- An entry with the given status, name, extension, offset and length. -/
def mkEntry (stat : Nat) (name ext : List Nat) (off len : Nat) : ludir :=
  { l_stat := stat
    l_name := name
    l_ext := ext
    l_off := { lobyte := off % 256, hibyte := off / 256 }
    l_len := { lobyte := len % 256, hibyte := len / 256 }
    l_fill := List.replicate 16 0 }

/-- A header entry (blank name) of a directory of `len` sectors. -/
def headerEntry (len : Nat) : ludir :=
  mkEntry ACTIVE (List.replicate 8 0x20) (List.replicate 3 0x20) 0 len

/-- The name field `A` padded with spaces. -/
def nameA : List Nat := [0x41, 0x20, 0x20, 0x20, 0x20, 0x20, 0x20, 0x20]

/-- The name field `B` padded with spaces. -/
def nameB : List Nat := [0x42, 0x20, 0x20, 0x20, 0x20, 0x20, 0x20, 0x20]

/-- The name field `C` padded with spaces. -/
def nameC : List Nat := [0x43, 0x20, 0x20, 0x20, 0x20, 0x20, 0x20, 0x20]

/-- The extension field `TXT`. -/
def extTXT : List Nat := [0x54, 0x58, 0x54]

/-- The string `a.txt`. -/
def a_txt : List Nat := [0x61, 0x2e, 0x74, 0x78, 0x74]

/-- The string `x.y`. -/
def x_y : List Nat := [0x78, 0x2e, 0x79]

/-- The string `.` (a lone dot). -/
def dotName : List Nat := [0x2e]

/-- One sector of text: `A`, CTRL-Z, `B`, then CTRL-Z up to the sector end. -/
def innerCtrlZSector : List Nat := [0x41, 0x1a, 0x42] ++ List.replicate 125 0x1a

/-- A library of four slots (one directory sector) and one data sector: the
header, the file `A.TXT` in slot 1, slots 2 and 3 unused. -/
def libOneFile : List Nat :=
  (headerEntry 1).toBytes ++ (mkEntry ACTIVE nameA extTXT 1 1).toBytes ++
    blankentry.toBytes ++ blankentry.toBytes ++ List.replicate 128 0x31

/-- A library of four slots and two data sectors: the header, a deleted
`B.TXT` in slot 1, the active `A.TXT` in slot 2, slot 3 unused. -/
def libDeletedFirst : List Nat :=
  (headerEntry 1).toBytes ++ (mkEntry DELETED nameB extTXT 1 1).toBytes ++
    (mkEntry ACTIVE nameA extTXT 2 1).toBytes ++ blankentry.toBytes ++
    List.replicate 128 0x32 ++ List.replicate 128 0x31

/-- A completely full library of four slots: the header and the active files
`A.TXT`, `B.TXT`, `C.TXT`, one sector each. -/
def libFull : List Nat :=
  (headerEntry 1).toBytes ++ (mkEntry ACTIVE nameA extTXT 1 1).toBytes ++
    (mkEntry ACTIVE nameB extTXT 2 1).toBytes ++ (mkEntry ACTIVE nameC extTXT 3 1).toBytes ++
    List.replicate 128 0x31 ++ List.replicate 128 0x32 ++ List.replicate 128 0x33

/-- A file whose header announces 65 directory sectors (260 slots), followed
by 259 further entries of `0xff` bytes. -/
def libOversized : List Nat := (headerEntry 65).toBytes ++ List.replicate (259 * 32) 0xff

/-- The globals after `filenames` for the single argument `x.y`. -/
def argsXY : State := (filenames [x_y] initState).getD initState

/-- The globals after `filenames` for the single argument `.`. -/
def argsDot : State := (filenames [dotName] initState).getD initState

/-- The globals after `getdir` on `libOneFile` with the argument `x.y`. -/
def loadedOneFileXY : State := (getdir libOneFile argsXY).getD argsXY

/-- The globals after `getdir` on `libOneFile` without arguments. -/
def loadedOneFile : State := (getdir libOneFile initState).getD initState

/-- The globals after `getdir` on `libDeletedFirst` without arguments. -/
def loadedDeletedFirst : State := (getdir libDeletedFirst initState).getD initState

/-- The output the statement "only the trailing run of CTRL-Z of the final
sector is removed" describes for a content of `n` sectors. -/
def trailingCtrlZRemoved (n : Nat) (content : List Nat) : List Nat :=
  content.take (SECTOR * (n - 1)) ++
    ((content.drop (SECTOR * (n - 1))).take SECTOR).rdropWhile (fun c => decide (c = CTRLZ))

/-! ## Unsqueezing: Huffman decoding and run-length unwrap (`USQ`) -/

/-- Source: `#define SPEOF 256`. -/
def SPEOF : Int := 256

/-- Source: `#define NUMVALS 257`. -/
def NUMVALS : Int := 257

/-- Source: `#define ERROR -1`. -/
def ERROR : Int := -1

/-- The macro `EOF` of `<stdio.h>`.  Its value is -1 on the systems the program
is built for, and `getuhuff` relies on it when it tests `getc (ib) == ERROR`
to find the end of the input. -/
def EOF : Int := -1

/-- Source: `#define DLE 0x90`. -/
def DLE : Int := 0x90

/-- Source: `#define RECOGNIZE 0xFF76`. -/
def RECOGNIZE : Int := 0xFF76

/-- Source: `#define LARGE 30000`. -/
def LARGE : Int := 30000

/-- The globals of the unsqueezer (`dnode`, `bpos`, `curin`, `repct`, `value`,
`crc`) and the unread input `ib`.  `dnode i` is the pair `children[0]`,
`children[1]` of the memory at `&dnode[i]`; the array itself has the indices
below `NUMVALS - 1`.  `crc` is an `unsigned int` of `uintBits` bits and is kept
reduced modulo `2 ^ uintBits` by the code that adds to it. -/
structure Usq where
  dnode : Nat → Int × Int
  bpos : Nat
  curin : Int
  repct : Int
  value : Int
  crc : Nat
  ib : List Nat

/-- Source: `getx16 (iob)`: `temp = getc (iob); return temp | (getc (iob) << 8);`.
At the end of the input `getc` returns -1: with no byte left the result is -1,
with one byte `lo` left it is `lo | (-1 << 8)`, which is `lo - 256`. -/
def getx16 : List Nat → Int × List Nat
  | [] => (-1, [])
  | [lo] => ((lo : Int) - 256, [])
  | lo :: hi :: iob => ((lo : Int) + 256 * (hi : Int), iob)

/-- Source: `getw16 (iob)`: as `getx16`, then
`if (temp & 0x8000) temp |= (~0) << 15;`, which turns a value with bit 15 set
into the negative number with the same low 16 bits and leaves a negative value
as it is. -/
def getw16 : List Nat → Int × List Nat
  | [] => (-1, [])
  | [lo] => ((lo : Int) - 256, [])
  | lo :: hi :: iob =>
    let temp : Int := (lo : Int) + 256 * (hi : Int)
    (if temp ≥ 0x8000 then temp - 65536 else temp, iob)

/-- Source: `init_cr ()`. -/
def init_cr (s : Usq) : Usq := { s with repct := 0 }

/-- Source: `init_huff ()`. -/
def init_huff (s : Usq) : Usq := { s with bpos := 99 }

/-- The element `children[b]` of a node, for `b` the bit `1 & curin`. -/
def childOf (n : Int × Int) (b : Int) : Int := if b = 0 then n.1 else n.2

/-- The last two statements of `getuhuff`: `i = -(i + 1);` and
`i = (i == SPEOF) ? EOF : i;`. -/
def leafValue (i : Int) : Int :=
  let v := -(i + 1)
  if v = SPEOF then EOF else v

/-- The do-loop of `getuhuff` with the node index `i`.  One pass increments
`bpos`; above 7 it reads a byte (`return ERROR` when `getc` gives -1) and sets
`bpos = 0`, otherwise it shifts `curin` right by one; it then follows the
child selected by the low bit of `curin` and ends at a negative link.  The
first argument bounds the number of passes; `getuhuff` passes the number of
input bits plus 8, which the loop cannot exceed since every pass uses a new
bit. -/
def getuhuffLoop : Nat → Nat → Usq → Int × Usq
  | 0, _, s => (ERROR, s)
  | fuel + 1, i, s =>
    if s.bpos + 1 > 7 then
      match s.ib with
      | [] => (ERROR, { s with bpos := s.bpos + 1, curin := EOF })
      | c :: ib =>
        let i1 := childOf (s.dnode i) ((c : Int) % 2)
        let s1 : Usq := { s with bpos := 0, curin := (c : Int), ib := ib }
        if i1 ≥ 0 then getuhuffLoop fuel i1.toNat s1 else (leafValue i1, s1)
    else
      let curin := s.curin / 2
      let i1 := childOf (s.dnode i) (curin % 2)
      let s1 : Usq := { s with bpos := s.bpos + 1, curin := curin }
      if i1 ≥ 0 then getuhuffLoop fuel i1.toNat s1 else (leafValue i1, s1)

/-- Source: `getuhuff (ib)`. -/
def getuhuff (s : Usq) : Int × Usq :=
  getuhuffLoop (8 * s.ib.length + 8) 0 s

/-- Source: `getcr (ib)`. -/
def getcr (s : Usq) : Int × Usq :=
  if s.repct > 0 then (s.value, { s with repct := s.repct - 1 })
  else
    let r := getuhuff s
    if r.1 ≠ DLE then
      let s1 : Usq := { r.2 with value := r.1 }
      if s1.value = EOF then (s1.value, { s1 with repct := LARGE }) else (s1.value, s1)
    else
      let r2 := getuhuff r.2
      let s2 : Usq := { r2.2 with repct := r2.1 }
      if s2.repct = 0 then (DLE, s2) else (s2.value, { s2 with repct := s2.repct - 2 })

/-- Results of `k` successive calls of `getcr`. -/
def getcrN : Nat → Usq → List Int × Usq
  | 0, s => ([], s)
  | k + 1, s =>
    let r := getcr s
    let rest := getcrN k r.2
    (r.1 :: rest.1, rest.2)

/-- Messages of `unsqueeze`. -/
inductive UsqMsg where
  | cantOpen
  | arrow (name : List Nat)
  | invalidTreeSize
  | cantCreate (name : List Nat)
  | unsqueezing
  | checksumError (name : List Nat)
  | done
  deriving DecidableEq, Repr

/-- What a call of `unsqueeze` leaves behind: the globals, the messages
printed, and the output file created (name and content), if any. -/
structure UsqResult where
  st : Usq
  stdout : List UsqMsg
  outfile : Option (List Nat × List Nat)

/-- The loop `do { *p = getc (inbuff); } while (*p++ != '\0');` that reads the
original file name into `outfile[128]`.  `room` counts the bytes of `outfile`
still free.  `none` stands for the two ways the loop leaves the buffer: the
input ends before a NUL (`getc` then returns -1 for ever) or the name does not
fit. -/
def readName : Nat → List Nat → List Nat → Option (List Nat × List Nat)
  | 0, _, _ => none
  | _ + 1, [], _ => none
  | room + 1, c :: ib, name =>
    if c = 0 then some (name, ib) else readName room ib (name ++ [c])

/-- The loop `for (i = 0; i < numnodes; ++i)` that reads the decoding tree;
the first argument counts the nodes left. -/
def readTree : Nat → Nat → (Nat → Int × Int) → List Nat → (Nat → Int × Int) × List Nat
  | 0, _, dnode, ib => (dnode, ib)
  | k + 1, i, dnode, ib =>
    let c0 := getw16 ib
    let c1 := getw16 c0.2
    readTree k (i + 1) (setAt dnode i (c0.1, c1.1)) c1.2

/-- The loop `while ((c = getcr (inbuff)) != EOF)` of `unsqueeze`:
`crc += c;` and the byte `c` goes to the output (through `obuf`).  The first
argument bounds the number of passes (see `unsqueeze`); `none` means the
bound was used up. -/
def unsqueezeLoop (uintBits : Nat) : Nat → Usq → List Nat → Option (Usq × List Nat)
  | 0, _, _ => none
  | fuel + 1, s, out =>
    let r := getcr s
    if r.1 = EOF then some (r.2, out)
    else
      let s1 : Usq := { r.2 with crc := ((r.2.crc : Int) + r.1).toNat % 2 ^ uintBits }
      unsqueezeLoop uintBits fuel s1 (out ++ [(r.1 % 256).toNat])

/-- Source: `unsqueeze (infile)`, for `dispcnt == 0` (the program never
assigns `dispcnt`, so the preview branch is not reached).  `inbuff` is the
content of `infile` (`none` when it cannot be opened), `uintBits` the width
of `unsigned int`.  Creating the output file is taken to succeed.  The test
before the final message is `(filecrc && 0xFFFF) != (crc && 0xFFFF)` with the
logical operator `&&`: each side is 1 when the checksum is non-zero and 0
otherwise.  `none`: the name loop leaves its buffer, or the bound of the
decoding loop is used up.  The bound is 32768 passes for every input bit: a
pass either uses a bit or counts `repct` down, and `repct` is below 32768. -/
def unsqueeze (uintBits : Nat) (inbuff : Option (List Nat)) (s : Usq) : Option UsqResult :=
  match inbuff with
  | none => some { st := s, stdout := [UsqMsg.cantOpen], outfile := none }
  | some ib0 =>
    let s1 := init_huff (init_cr { s with crc := 0, ib := ib0 })
    let sig := getx16 s1.ib
    if sig.1 ≠ RECOGNIZE then some { st := { s1 with ib := sig.2 }, stdout := [], outfile := none }
    else
      let fc := getw16 sig.2
      let filecrc : Nat := (fc.1 % 2 ^ uintBits).toNat
      match readName 128 fc.2 [] with
      | none => none
      | some (outfile, ib1) =>
        let nn := getw16 ib1
        let numnodes := nn.1
        if numnodes < 0 ∨ numnodes ≥ NUMVALS then
          some { st := { s1 with ib := nn.2 }
                 stdout := [UsqMsg.arrow outfile, UsqMsg.invalidTreeSize]
                 outfile := none }
        else
          let dnode0 := setAt s1.dnode 0 (-(SPEOF + 1), -(SPEOF + 1))
          let tree := readTree numnodes.toNat 0 dnode0 nn.2
          let s2 := { s1 with dnode := tree.1, ib := tree.2 }
          match unsqueezeLoop uintBits ((8 * s2.ib.length + 9) * 32768) s2 [] with
          | none => none
          | some (s3, out) =>
            let verdict :=
              if (decide (filecrc ≠ 0)) ≠ (decide (s3.crc ≠ 0)) then UsqMsg.checksumError outfile
              else UsqMsg.done
            some { st := s3
                   stdout := [UsqMsg.arrow outfile, UsqMsg.unsqueezing, verdict]
                   outfile := some (outfile, out) }

/-- The globals of the unsqueezer when the program starts: static storage is
zero. -/
def usqInit : Usq :=
  { dnode := fun _ => (0, 0), bpos := 0, curin := 0, repct := 0, value := 0, crc := 0, ib := [] }

/-! ## Specification-side descriptions and example inputs of the unsqueezer -/

/-- The next `k` bits of `curin` as the else-branch of `getuhuff` takes them:
each is the low bit after one more shift to the right. -/
def curinBits : Nat → Int → List Int
  | 0, _ => []
  | k + 1, c => ((c / 2) % 2) :: curinBits k (c / 2)

/-- The eight bits of an input byte in the order `getuhuff` uses them, least
significant bit first. -/
def byteBits (c : Nat) : List Int := ((c : Int) % 2) :: curinBits 7 (c : Int)

/-- The bits `getuhuff` has not used yet: the rest of the current byte, then
the unread input. -/
def pendingBits (s : Usq) : List Int :=
  curinBits (7 - s.bpos) s.curin ++ (s.ib.map byteBits).flatten

/-- The reference walk of the tree over a list of bits from node `i`: the
value of the leaf reached and the bits left, or `none` when the bits run out
before a leaf is reached. -/
def treeWalk (dnode : Nat → Int × Int) : List Int → Nat → Option (Int × List Int)
  | [], _ => none
  | b :: bits, i =>
    let l := childOf (dnode i) b
    if l ≥ 0 then treeWalk dnode bits l.toNat else some (leafValue l, bits)

/-- A decoding tree with the leaves `A` (0x41), `DLE` (0x90), `n` and `SPEOF`,
reached by the bit strings 0, 10, 110 and 111. -/
def rleTree (n : Int) : Nat → Int × Int :=
  setAt (setAt (setAt (fun _ => (0, 0)) 0 (-(0x41 + 1), 1)) 1 (-(0x90 + 1), 2)) 2
    (-(n + 1), -(SPEOF + 1))

/-- The unsqueezer before its first symbol, with the tree `rleTree n` and the
payload `0xda, 0x01`, whose bits spell the symbols `A`, `DLE`, `n`, `SPEOF`. -/
def rleState (n : Int) : Usq :=
  init_huff (init_cr { usqInit with dnode := rleTree n, ib := [0xda, 0x01] })

/-- A decoding tree whose root has the leaf `SPEOF` on bit 0 and a link back to
the root on bit 1. -/
def eofOrLoopTree : Nat → Int × Int := setAt (fun _ => (0, 0)) 0 (-(SPEOF + 1), 0)

/-- The unsqueezer before its first symbol with the tree `eofOrLoopTree` and
the given payload. -/
def eofOrLoopState (payload : List Nat) : Usq :=
  init_huff (init_cr { usqInit with dnode := eofOrLoopTree, ib := payload })

/-- A squeezed file: signature, checksum word 1, name `a`, one tree node with
the leaves `A` (bit 0) and `SPEOF` (bit 1), and the payload byte `0x02` that
spells `A`, `SPEOF`. -/
def sqFileOneByte : List Nat :=
  [0x76, 0xff, 0x01, 0x00, 0x61, 0x00, 0x01, 0x00, 0xbe, 0xff, 0xff, 0xfe, 0x02]

/-! ## Uncrunching: adaptive LZW (`UNCRUNCH`) -/

/-- Source: `#define TABLE_SIZE 4096`. -/
def TABLE_SIZE : Nat := 4096

/-- Source: `#define XLATBL_SIZE 5003`. -/
def XLATBL_SIZE : Nat := 5003

/-- Source: `#define NOPRED 0x6fff`. -/
def NOPRED : Nat := 0x6fff

/-- Source: `#define EMPTY 0x8000`. -/
def EMPTY : Nat := 0x8000

/-- Source: `#define REFERENCED 0x2000`. -/
def REFERENCED : Nat := 0x2000

/-- Source: `#define IMPRED 0x7fff`. -/
def IMPRED : Nat := 0x7fff

/-- Source: `#define EOFCOD 0x100`. -/
def EOFCOD : Nat := 0x100

/-- Source: `#define RSTCOD 0x101`. -/
def RSTCOD : Nat := 0x101

/-- Source: `#define NULCOD 0x102`. -/
def NULCOD : Nat := 0x102

/-- Source: `#define SPRCOD 0x103`. -/
def SPRCOD : Nat := 0x103

/-- Source: `#define REPEAT_CHARACTER 0x90`. -/
def REPEAT_CHARACTER : Nat := 0x90

/-- Source: `struct entry { short predecessor; unsigned char suffix; }`.  The
predecessor holds a table index, `NOPRED` or `IMPRED`, possibly with the bit
`REFERENCED`; all of these are non-negative `short` values. -/
structure entry where
  predecessor : Nat
  suffix : Nat
  deriving DecidableEq, Repr

/-- The globals of the uncruncher, the static `savec` of `send`, the local
`pred` of `uncrunch`, and the two files.  `lzw_table i` and `xlatbl i` are the
memory at `&lzw_table[i]` and `&xlatbl[i]`; the arrays themselves have the
indices below `TABLE_SIZE` and `XLATBL_SIZE`.  A slot of `xlatbl` and the
checksum `cksum` are `short`; they are kept as their 16-bit patterns, so
`EMPTY` is `0x8000` and `cksum` is reduced modulo 65536. -/
structure Lzw where
  lzw_table : Nat → entry
  xlatbl : Nat → Nat
  codlen : Nat
  trgmsk : Nat
  fulflg : Nat
  entry : Nat
  getbuf : Nat
  getbit : Int
  entflg : Nat
  repeat_flag : Nat
  finchar : Nat
  lastpr : Nat
  cksum : Nat
  savec : Nat
  pred : Nat
  infd : List Nat
  outfd : List Nat

/-- Source: `hash (pred, suff, disploc)`: the index of the returned pointer in
`xlatbl` and the value stored in `*disploc`. -/
def hash (pred suff : Nat) : Nat × Int :=
  let hashval := ((((pred >>> 4) &&& 0xff) ^^^ suff) ||| ((pred &&& 0xf) <<< 8)) + 1
  (hashval, (hashval : Int) - (XLATBL_SIZE : Int))

/-- The step along the secondary hash chain in `figure` and `entfil`:
`p += disp; if (p < xlatbl || p > xlatbl + XLATBL_SIZE) p += XLATBL_SIZE;`,
with `p` as an index into `xlatbl`. -/
def probeNext (p disp : Int) : Int :=
  let p1 := p + disp
  if p1 < 0 ∨ p1 > (XLATBL_SIZE : Int) then p1 + (XLATBL_SIZE : Int) else p1

/-- The `while` loop of `figure`: follow the chain from `p` to a slot that
holds `EMPTY`.  The first argument bounds the number of slots looked at; the
chain returns to its start after `XLATBL_SIZE` steps, so a search that has not
found an empty slot by then never ends, which is `none`. -/
def figureLoop (xlatbl : Nat → Nat) (disp : Int) : Nat → Int → Option Int
  | 0, _ => none
  | fuel + 1, p =>
    if (xlatbl p.toNat &&& 0xffff) ≠ EMPTY then figureLoop xlatbl disp fuel (probeNext p disp)
    else some p

/-- Source: `figure (pred, suff)`. -/
def figure (s : Lzw) (pred suff : Nat) : Option Lzw :=
  let h := hash pred suff
  match figureLoop s.xlatbl h.2 XLATBL_SIZE (h.1 : Int) with
  | none => none
  | some p => some { s with xlatbl := setAt s.xlatbl p.toNat s.entry }

/-- Source: `enterx (pred, suff)`. -/
def enterx (s : Lzw) (pred suff : Nat) : Option Lzw :=
  let ep := s.entry
  match figure s pred suff with
  | none => none
  | some s1 =>
    let s2 : Lzw :=
      { s1 with
        lzw_table := setAt s1.lzw_table ep { predecessor := pred, suffix := suff % 256 }
        entry := s1.entry + 1 }
    if s2.entry ≥ s2.trgmsk then
      if s2.codlen < 12 then
        some { s2 with codlen := s2.codlen + 1, trgmsk := (s2.trgmsk <<< 1) ||| 1 }
      else some { s2 with fulflg := s2.fulflg + 1 }
    else some s2

/-- The loop `for (i=0;i<0x100;i++) enterx (NOPRED,i);` of `initb2`; the
first argument counts the calls left. -/
def initb2Atomic : Nat → Nat → Lzw → Option Lzw
  | 0, _, s => some s
  | k + 1, i, s =>
    match enterx s NOPRED i with
    | none => none
    | some s1 => initb2Atomic k (i + 1) s1

/-- The loop `for (i=0;i<4;i++) enterx (IMPRED,0);` of `initb2`. -/
def initb2Reserved : Nat → Lzw → Option Lzw
  | 0, s => some s
  | k + 1, s =>
    match enterx s IMPRED 0 with
    | none => none
    | some s1 => initb2Reserved k s1

/-- Source: `initb2 ()`. -/
def initb2 (s : Lzw) : Option Lzw :=
  (initb2Atomic 0x100 0
    { s with xlatbl := fun i => if i < XLATBL_SIZE then EMPTY else s.xlatbl i }).bind
    (initb2Reserved 4)

/-- Source: `intram ()`. -/
def intram (s : Lzw) : Lzw :=
  { s with
    trgmsk := 0x1ff
    codlen := 9
    fulflg := 0
    entry := 0
    getbit := 0
    entflg := 1
    repeat_flag := 0
    cksum := 0 }

/-- Source: `send (c)`.  The parameter is an `unsigned char`, so the argument
is taken modulo 256. -/
def send (s : Lzw) (c0 : Nat) : Lzw :=
  let c := c0 % 256
  if s.repeat_flag ≠ 0 then
    let s1 : Lzw := { s with repeat_flag := 0 }
    if c ≠ 0 then
      { s1 with
        cksum := (s1.cksum + (s1.savec &&& 0xff) * (c - 1)) % 65536
        outfd := s1.outfd ++ List.replicate (c - 1) s1.savec }
    else
      { s1 with
        outfd := s1.outfd ++ [REPEAT_CHARACTER]
        cksum := (s1.cksum + REPEAT_CHARACTER) % 65536 }
  else if c = REPEAT_CHARACTER then { s with repeat_flag := s.repeat_flag + 1 }
  else { s with savec := c, outfd := s.outfd ++ [c], cksum := (s.cksum + (c &&& 0xff)) % 65536 }

/-- Successive calls of `send` with the bytes of a list, first byte first. -/
def sendList : List Nat → Lzw → Lzw
  | [], s => s
  | c :: cs, s => sendList cs (send s c)

/-- The first `while` loop of `decode`: from the entry with index `ep` back
along the predecessors to an atomic entry, pushing the suffix bytes.  The
stack is a list with its top at the head; `room` counts the free bytes of
`stack[TABLE_SIZE]`, and a push without room is `none`. -/
def decodeWalk (tbl : Nat → entry) : Nat → Nat → List Nat → Option (Nat × List Nat)
  | 0, ep, stack => if ep > 255 then none else some (ep, stack)
  | room + 1, ep, stack =>
    if ep > 255 then
      decodeWalk tbl room ((tbl ep).predecessor &&& 0xfff) ((tbl ep).suffix :: stack)
    else some (ep, stack)

/-- Source: `decode (code)`; the value returned is `entflg` of the new
state. -/
def decode (s : Lzw) (code : Nat) : Option Lzw :=
  let ep := code
  let r1 := if code ≥ s.entry then enterx { s with entflg := 1 } s.lastpr s.finchar else some s
  match r1 with
  | none => none
  | some s1 =>
    let s2 : Lzw :=
      { s1 with
        lzw_table := setAt s1.lzw_table ep
          { s1.lzw_table ep with predecessor := (s1.lzw_table ep).predecessor ||| REFERENCED } }
    match decodeWalk s2.lzw_table TABLE_SIZE ep [] with
    | none => none
    | some (ep1, stack) =>
      let fc := (s2.lzw_table ep1).suffix &&& 0xff
      some (sendList stack (send { s2 with finchar := fc } fc))

/-- The `while` loop of `entfil`; the first argument bounds the number of
slots looked at, as in `figureLoop`. -/
def entfilLoop (s : Lzw) (pred suff : Nat) (disp : Int) : Nat → Int → Option Lzw
  | 0, _ => none
  | fuel + 1, p =>
    if s.xlatbl p.toNat ≠ EMPTY then
      let ep := s.xlatbl p.toNat
      if (s.lzw_table ep).predecessor &&& REFERENCED = 0 then
        some { s with lzw_table := setAt s.lzw_table ep { predecessor := pred, suffix := suff % 256 } }
      else entfilLoop s pred suff disp fuel (probeNext p disp)
    else some s

/-- Source: `entfil (pred, suff)`. -/
def entfil (s : Lzw) (pred suff : Nat) : Option Lzw :=
  let h := hash pred suff
  entfilLoop s pred suff h.2 XLATBL_SIZE (h.1 : Int)

/-- The body of the main loop `for (;;)` of `uncrunch` once `getcode ()` has
returned `code`, for a code other than `EOFCOD` (which leaves the loop). -/
def uncrunchCode (s : Lzw) (code : Nat) : Option Lzw :=
  let s0 : Lzw := { s with lastpr := s.pred, pred := code }
  if code = RSTCOD then
    initb2 { s0 with entry := 0, fulflg := 0, codlen := 9, trgmsk := 0x1ff, pred := NOPRED, entflg := 1 }
  else if s0.fulflg ≠ 2 then
    match decode s0 code with
    | none => none
    | some s1 =>
      if s1.entflg = 0 then enterx s1 s1.lastpr s1.finchar else some { s1 with entflg := 0 }
  else
    match decode s0 code with
    | none => none
    | some s1 => entfil s1 s1.lastpr s1.finchar

/-- The main loop of `uncrunch` over the codes `getcode ()` returns, up to
the first `EOFCOD` or the end of the list. -/
def uncrunchCodes : List Nat → Lzw → Option Lzw
  | [], s => some s
  | code :: codes, s =>
    if code = EOFCOD then some { s with lastpr := s.pred, pred := code }
    else
      match uncrunchCode s code with
      | none => none
      | some s1 => uncrunchCodes codes s1

/-- The part of `uncrunch` before the main loop that sets the decoder up:
`intram ()`, the output file just opened, `initb2 ()` and `pred=NOPRED`. -/
def uncrunchSetup (s : Lzw) : Option Lzw :=
  initb2 { intram s with outfd := [], pred := NOPRED }

/-- The globals of the uncruncher when the program starts: static storage is
zero. -/
def lzwInit : Lzw :=
  { lzw_table := fun _ => { predecessor := 0, suffix := 0 }
    xlatbl := fun _ => 0
    codlen := 0, trgmsk := 0, fulflg := 0, entry := 0, getbuf := 0, getbit := 0
    entflg := 0, repeat_flag := 0, finchar := 0, lastpr := 0, cksum := 0, savec := 0
    pred := 0, infd := [], outfd := [] }

/-! ## Specification-side descriptions of the uncruncher -/

/-- The table index stored in the predecessor field of entry `i`, without the
mark `REFERENCED`, as `decode` takes it: `(ep->predecessor)&0xfff`. -/
def predOf (tbl : Nat → entry) (i : Nat) : Nat := (tbl i).predecessor &&& 0xfff

/-- Entry `i` carries the mark `REFERENCED`. -/
def referenced (tbl : Nat → entry) (i : Nat) : Prop := (tbl i).predecessor &&& REFERENCED ≠ 0

/-- The string of a code: `[c]` for an atomic code `c < 256`, and the string of
the predecessor followed by the suffix otherwise.  The first argument bounds
the length of the predecessor chain; `none` means the chain is longer. -/
def lzwString (tbl : Nat → entry) : Nat → Nat → Option (List Nat)
  | 0, c => if c < 256 then some [c] else none
  | fuel + 1, c =>
    if c < 256 then some [c]
    else (lzwString tbl fuel (predOf tbl c)).map (fun str => str ++ [(tbl c).suffix])

/-- The predecessor chain of a code: `Chain tbl e l a` says that the walk from
entry `e` passes the non-atomic entries `l` (starting with `e` itself) and
ends at the atomic entry `a`. -/
inductive Chain (tbl : Nat → entry) : Nat → List Nat → Nat → Prop where
  | atomic (a : Nat) (h : a ≤ 255) : Chain tbl a [] a
  | step (e : Nat) (l : List Nat) (a : Nat) (h : e > 255) (c : Chain tbl (predOf tbl e) l a) :
      Chain tbl e (e :: l) a

/-- The indices of the table entries the walk of `decode` reads, starting at
`ep`: every entry whose suffix and predecessor the first loop takes, and the
final entry whose suffix becomes `finchar`. -/
def walkReads (tbl : Nat → entry) : Nat → Nat → List Nat
  | 0, ep => [ep]
  | room + 1, ep => if ep > 255 then ep :: walkReads tbl room (predOf tbl ep) else [ep]

/-- The table entries a call `decode (code)` reads, together with the value
`entry` has while it reads them (after the `enterx` of the exceptional
case). -/
def decodeReads (s : Lzw) (code : Nat) : Option (List Nat × Nat) :=
  let r1 := if code ≥ s.entry then enterx { s with entflg := 1 } s.lastpr s.finchar else some s
  match r1 with
  | none => none
  | some s1 =>
    let tbl := setAt s1.lzw_table code
      { s1.lzw_table code with predecessor := (s1.lzw_table code).predecessor ||| REFERENCED }
    some (walkReads tbl TABLE_SIZE code, s1.entry)

/-- The relation between code width, code mask, full flag and next free
entry. -/
def WidthInv (s : Lzw) : Prop :=
  s.trgmsk = 2 ^ s.codlen - 1 ∧ 9 ≤ s.codlen ∧ s.codlen ≤ 12 ∧
    260 ≤ s.entry ∧ s.entry ≤ 4096 ∧
    (s.entry < 511 → s.codlen = 9) ∧
    (511 ≤ s.entry → s.entry < 1023 → s.codlen = 10) ∧
    (1023 ≤ s.entry → s.entry < 2047 → s.codlen = 11) ∧
    (2047 ≤ s.entry → s.codlen = 12) ∧
    (s.entry < 4095 → s.fulflg = 0) ∧
    (s.entry = 4095 → s.fulflg = 1) ∧
    (s.entry = 4096 → s.fulflg = 2)

/-- A code as a well-formed stream delivers it in state `s`: the reset code,
or a code that is none of the four special codes and is either below the next
free entry or equal to it when a code has been decoded since the last setup
or reset. -/
def ValidCode (s : Lzw) (c : Nat) : Prop :=
  c = RSTCOD ∨
    (c < 4096 ∧ ¬(256 ≤ c ∧ c < 260) ∧ (c < s.entry ∨ (c = s.entry ∧ s.pred ≠ NOPRED)))

/-- The setup of `uncrunch` started in state `s0` ends in state `s`. -/
@[irreducible] def SetupTo (s0 s : Lzw) : Prop := uncrunchSetup s0 = some s

/-- The body of the main loop run in state `s` with the code `c` ends in
state `s1`. -/
@[irreducible] def StepTo (s : Lzw) (c : Nat) (s1 : Lzw) : Prop := uncrunchCode s c = some s1

/-- The decoder states between two codes of a well-formed stream: the state
after the setup, the state after a reset code (in whatever state the code is
met), and every state reached from these by a code of the stream. -/
inductive Reach : Lzw → Prop where
  | setup (s0 s : Lzw) (h : SetupTo s0 s) : Reach s
  | reset (s0 s : Lzw) (h : StepTo s0 RSTCOD s) : Reach s
  | step (s s1 : Lzw) (c : Nat) (hs : Reach s) (hc : ValidCode s c) (h : StepTo s c s1) :
      Reach s1

/-- The decoder states between two codes of any stream: as `Reach`, with
every code value below `TABLE_SIZE` that `getcode` can return. -/
inductive ReachAny : Lzw → Prop where
  | setup (s0 s : Lzw) (h : SetupTo s0 s) : ReachAny s
  | step (s s1 : Lzw) (c : Nat) (hs : ReachAny s) (hc : c < TABLE_SIZE) (h : StepTo s c s1) :
      ReachAny s1

/-- The number of slots of `xlatbl` that are not `EMPTY`. -/
def usedSlots (x : Nat → Nat) : Nat :=
  ((Finset.range XLATBL_SIZE).filter (fun i => x i ≠ EMPTY)).card

/-- The slots of `xlatbl`: every used slot holds an index below `entry`, and
there are `entry` used slots. -/
def SlotsInv (s : Lzw) : Prop :=
  (∀ i, i < XLATBL_SIZE → s.xlatbl i = EMPTY ∨ s.xlatbl i < s.entry) ∧
    usedSlots s.xlatbl = s.entry

/-- The table of a well-formed decoder state with `n` entries defined: the
atomic and the reserved entries are as `initb2` wrote them, and the
predecessor of every other entry below `n` is an atomic entry or a marked
entry below `n` that comes earlier in some order `rank`. -/
structure TableInv (tbl : Nat → entry) (n : Nat) : Prop where
  atoms : ∀ a, a < 256 → tbl a = { predecessor := NOPRED, suffix := a }
  resv : ∀ i, 256 ≤ i → i < 260 → tbl i = { predecessor := IMPRED, suffix := 0 }
  chain : ∃ rank : Nat → Nat, ∀ e, 260 ≤ e → e < n →
    predOf tbl e < n ∧
      (predOf tbl e < 256 ∨
        (260 ≤ predOf tbl e ∧ referenced tbl (predOf tbl e) ∧ rank (predOf tbl e) < rank e))

/-- The last code of a well-formed decoder state: none since the setup or
reset, or a code below `entry` that carries the mark and whose chain ends at
`finchar`. -/
def PredInv (s : Lzw) : Prop :=
  (s.pred = NOPRED ∧ s.entflg = 1 ∧ s.entry = 260) ∨
    (s.pred < s.entry ∧ ¬(256 ≤ s.pred ∧ s.pred < 260) ∧
      (260 ≤ s.pred → referenced s.lzw_table s.pred) ∧ s.entflg = 0 ∧
      ∃ l, Chain s.lzw_table s.pred l s.finchar)

/-- The invariant of the decoder on a well-formed stream. -/
structure LzwInv (s : Lzw) : Prop where
  width : WidthInv s
  slots : SlotsInv s
  table : TableInv s.lzw_table s.entry
  last : PredInv s

/-- Two decoder states agree on what `enterx` depends on: the slots of
`xlatbl`, the next free entry, the code width, mask and full flag, and the
table below the next free entry. -/
def Agree (a b : Lzw) : Prop :=
  (∀ i, i < XLATBL_SIZE → a.xlatbl i = b.xlatbl i) ∧ a.entry = b.entry ∧
    a.codlen = b.codlen ∧ a.trgmsk = b.trgmsk ∧ a.fulflg = b.fulflg ∧
    (∀ i, i < a.entry → a.lzw_table i = b.lzw_table i)

/-- The decoder after the setup in a program that has just started. -/
def lzwStart : Lzw := (uncrunchSetup lzwInit).getD lzwInit

/-- The table after `ep->predecessor |= REFERENCED` for the entry of `code`. -/
def markTable (tbl : Nat → entry) (code : Nat) : Nat → entry :=
  setAt tbl code { tbl code with predecessor := (tbl code).predecessor ||| REFERENCED }

/-! ## Example states of the uncruncher -/

/-- The decoder after the first setup, the codes of `A`, `B` and `C`, and a
reset code. -/
def lzwAfterReset : Lzw := (uncrunchCodes [0x41, 0x42, 0x43, RSTCOD] lzwStart).getD lzwInit

/-- The decoder after the first setup and the code of `A`. -/
def lzwAfterA : Lzw := (uncrunchCode lzwStart 0x41).getD lzwInit

/-! ## Further definitions for the sector copy and the directory names -/

/-- The rule "a byte of the final sector is written unless it is CTRL-Z and no
byte with the high bit set has occurred at or before its position in the
copied range": `seen` holds the bytes of the range before the current one. -/
def stripRule : List Nat → List Nat → List Nat
  | _, [] => []
  | seen, c :: cs =>
    if c = CTRLZ ∧ ∀ b ∈ seen ++ [c], b < 0x80 then stripRule (seen ++ [c]) cs
    else c :: stripRule (seen ++ [c]) cs

/-- A single sector in which a CTRL-Z comes before a byte with the high bit
set. -/
def ctrlZBeforeHighSector : List Nat := [0x1a, 0x80] ++ List.replicate 126 0x41

/-- The name field `OLDFILE BAK` (name and extension, 11 bytes). -/
def fieldOldfileBak : List Nat :=
  [0x4f, 0x4c, 0x44, 0x46, 0x49, 0x4c, 0x45, 0x20, 0x42, 0x41, 0x4b]

/-- A library of four slots and one data sector: the header, the deleted
entry `OLDFILE.BAK` in slot 1, two unused slots. -/
def libDeletedLongName : List Nat :=
  (headerEntry 1).toBytes ++
    (mkEntry DELETED (fieldOldfileBak.take 8) (fieldOldfileBak.drop 8) 1 1).toBytes ++
    blankentry.toBytes ++ blankentry.toBytes ++ List.replicate 128 0x31

/-- The globals after `getdir` on `libDeletedLongName` without arguments. -/
def loadedDeletedLongName : State := (getdir libDeletedLongName initState).getD initState

/-! ## Successive calls of the Huffman decoder -/

/-- Results of `k` successive calls of `getuhuff`. -/
def getuhuffN : Nat → Usq → List Int × Usq
  | 0, s => ([], s)
  | k + 1, s =>
    let r := getuhuff s
    let rest := getuhuffN k r.2
    (r.1 :: rest.1, rest.2)

/-- The reference for `k` successive symbols: `k` walks of the tree from the
root, each over the bits the walk before it left; `none` when the bits run
out before the last leaf is reached. -/
def treeWalkN (dnode : Nat → Int × Int) : Nat → List Int → Option (List Int × List Int)
  | 0, bits => some ([], bits)
  | k + 1, bits =>
    match treeWalk dnode bits 0 with
    | none => none
    | some (v, rest) =>
      match treeWalkN dnode k rest with
      | none => none
      | some (vs, rest2) => some (v :: vs, rest2)

/-- A decoding tree in which every link leads back to the root: no leaf can
be reached. -/
def rootLoopTree : Nat → Int × Int := fun _ => (0, 0)

/-! ## The probe sequence of the hash table -/

/-- The index into `xlatbl` that `figure` and `entfil` look at after `j` steps
along the secondary hash chain of `(pred, suff)`: the index `hash` returns,
followed by `j` times the step of `probeNext` with the displacement `hash`
stores. -/
def probeAt (pred suff : Nat) : Nat → Int
  | 0 => ((hash pred suff).1 : Int)
  | j + 1 => probeNext (probeAt pred suff j) (hash pred suff).2

/-! ## The code reader of the uncruncher -/

/-- The expression `(long) getc (infd)`: the value as the bit pattern of a
`long` of `longBits` bits, the input left, and whether the read met the end
of the file (`getc` then returns -1, all bits set). -/
def getcLong (longBits : Nat) : List Nat → Nat × List Nat × Bool
  | [] => (2 ^ longBits - 1, [], true)
  | c :: infd => (c, infd, false)

/-- The statements of `getcode` up to the test of `feof`:
`getbuf=(getbuf<<codlen)|(((long)getc(infd))<<(hole=codlen-getbit));`
`getbit=8-hole;` and, `if(getbit<0)`, `getbuf |= ((long)getc(infd))<<(hole-8);`
`getbit+=8;`.  The result carries the value of `feof (infd)`, which is set
exactly when a read of this call met the end of the file (a read before the
call that met it leaves no byte for this call either).  `getbuf` is kept as
the bit pattern of a `long` of `longBits` bits, bits shifted out at the top
being lost.  A shift by a negative count is undefined; that case, which needs
`getbit > codlen`, is `none`. -/
def getcodeRead (longBits : Nat) (s : Lzw) : Option (Bool × Lzw) :=
  let hole : Int := (s.codlen : Int) - s.getbit
  if hole < 0 then none
  else
    let r1 := getcLong longBits s.infd
    let s1 : Lzw :=
      { s with
        getbuf := ((s.getbuf <<< s.codlen) ||| (r1.1 <<< hole.toNat)) % 2 ^ longBits
        getbit := 8 - hole
        infd := r1.2.1 }
    if s1.getbit < 0 then
      let r2 := getcLong longBits s1.infd
      some (r1.2.2 || r2.2.2,
        { s1 with
          getbuf := (s1.getbuf ||| (r2.1 <<< (hole - 8).toNat)) % 2 ^ longBits
          getbit := s1.getbit + 8
          infd := r2.2.1 })
    else some (r1.2.2, s1)

/-- Source: `getcode ()`, with a bound on the depth of the recursion
`return getcode ();` as first argument.  The result is the code returned and
the state; the message printed at the end of the file is not part of the
state.  `none`: an undefined shift in `getcodeRead`, or the bound used up. -/
def getcodeFuel (longBits : Nat) : Nat → Lzw → Option (Nat × Lzw)
  | 0, _ => none
  | fuel + 1, s =>
    match getcodeRead longBits s with
    | none => none
    | some (eof, s2) =>
      if eof then some (EOFCOD, s2)
      else
        let code := (s2.getbuf >>> 8) &&& s2.trgmsk
        if code = NULCOD ∨ code = SPRCOD then getcodeFuel longBits fuel s2
        else some (code, s2)

/-- Source: `getcode ()`.  Every call that goes on to the recursion has read
at least one byte, so that the depth of the recursion is at most the number
of bytes of the input. -/
def getcode (longBits : Nat) (s : Lzw) : Option (Nat × Lzw) :=
  getcodeFuel longBits (s.infd.length + 1) s

/-! ## Specification-side descriptions of the code reader -/

/-- The `k` low binary digits of `n`, the most significant one first. -/
def bitsMsb : Nat → Nat → List Nat
  | 0, _ => []
  | k + 1, n => (n / 2 ^ k % 2) :: bitsMsb k n

/-- The bits of a byte stream, those of each byte from the most significant
one. -/
def streamBits (bytes : List Nat) : List Nat := (bytes.map (bitsMsb 8)).flatten

/-- The number a field of bits stands for, its most significant bit first. -/
def fieldValue (bits : List Nat) : Nat := bits.foldl (fun acc b => 2 * acc + b) 0

/-- The bits the reader has not delivered yet: the `getbit` residual bits,
which `getbuf` holds just below its bit 8, then the bits of the unread
input. -/
def pendingCodeBits (s : Lzw) : List Nat :=
  bitsMsb s.getbit.toNat (s.getbuf / 2 ^ (8 - s.getbit.toNat)) ++ streamBits s.infd

/-- The reference reader: cut fields of `w` bits from the front of the bits,
drop the fields that are `NULCOD` or `SPRCOD`, and return the first other
field with the bits left; `none` when fewer than `w` bits are left.  The
first argument bounds the number of fields looked at. -/
def nextField (w : Nat) : Nat → List Nat → Option (Nat × List Nat)
  | 0, _ => none
  | fuel + 1, bits =>
    if bits.length < w then none
    else
      let v := fieldValue (bits.take w)
      if v = NULCOD ∨ v = SPRCOD then nextField w fuel (bits.drop w)
      else some (v, bits.drop w)

/-- The reference reader with the number of bits as its bound. -/
def codeField (w : Nat) (bits : List Nat) : Option (Nat × List Nat) :=
  nextField w (bits.length + 1) bits

/-- The state of the bit buffer between two calls of `getcode`: between 0 and
7 residual bits, and no bit of `getbuf` set below them. -/
def ReaderInv (s : Lzw) : Prop :=
  0 ≤ s.getbit ∧ s.getbit ≤ 7 ∧ s.getbuf % 2 ^ (8 - s.getbit.toNat) = 0

/-- Successive calls of `getcode`, one for each code width of the list, the
width and its mask being set before the call. -/
def getcodeWidths (longBits : Nat) : List Nat → Lzw → Option (List Nat × Lzw)
  | [], s => some ([], s)
  | w :: ws, s =>
    match getcode longBits { s with codlen := w, trgmsk := 2 ^ w - 1 } with
    | none => none
    | some (code, s1) =>
      match getcodeWidths longBits ws s1 with
      | none => none
      | some (codes, s2) => some (code :: codes, s2)

/-- The reference for successive codes: one field for each code width of the
list; `none` when the bits run out first. -/
def codeFields : List Nat → List Nat → Option (List Nat × List Nat)
  | [], bits => some ([], bits)
  | w :: ws, bits =>
    match codeField w bits with
    | none => none
    | some (v, rest) =>
      match codeFields ws rest with
      | none => none
      | some (vs, rest2) => some (v :: vs, rest2)

/-- The reader at the start of a file: `getbit = 0` as `intram` sets it,
`getbuf = 0`, and the given input. -/
def readerStart (infd : List Nat) : Lzw := { intram lzwInit with infd := infd }

set_option maxRecDepth 8000

/-! ## Lemmas on the sector copy -/

/-- No padding is needed for an empty input. -/
theorem padLen_zero : padLen 0 = 0 := by decide

/-- The loop of `fcopy`, run with at least as many iterations as input bytes,
appends the input and its padding and adds the number of sectors. -/
theorem fcopyLoop_eq (fuel : Nat) : ∀ (ifd ofd : List Nat) (total : Nat), ifd.length ≤ fuel →
    fcopyLoop fuel ifd ofd total =
      (ofd ++ ifd ++ List.replicate (padLen ifd.length) CTRLZ,
        total + (ifd.length + 127) / 128) := by
  induction fuel with
  | zero =>
    intro ifd ofd total h
    have h0 : ifd = [] := List.length_eq_zero.mp (Nat.le_zero.mp h)
    subst h0
    simp [fcopyLoop, padLen_zero]
  | succ fuel ih =>
    intro ifd ofd total h
    unfold fcopyLoop
    by_cases h0 : ifd.length = 0
    · have h1 : ifd = [] := List.length_eq_zero.mp h0
      subst h1
      simp [padLen_zero, SECTOR]
    · by_cases hfull : SECTOR ≤ ifd.length
      · have hn : min SECTOR ifd.length = SECTOR := Nat.min_eq_left hfull
        simp only [hn]
        have hS : SECTOR ≠ 0 := by decide
        simp only [hS, if_false, ne_eq, not_true_eq_false]
        rw [ih _ _ _ (by simp [List.length_drop]; simp [SECTOR] at hfull ⊢; omega)]
        have hp : padLen (ifd.drop SECTOR).length = padLen ifd.length := by
          simp only [padLen, List.length_drop, SECTOR] at hfull ⊢
          omega
        have hc : (ifd.drop SECTOR).length + 127 + 128 = ifd.length + 127 := by
          simp only [List.length_drop, SECTOR] at hfull ⊢
          omega
        rw [hp]
        have hd : ((ifd.drop SECTOR).length + 127) / 128 + 1 = (ifd.length + 127) / 128 := by
          rw [← hc]; omega
        rw [← hd]
        simp [List.append_assoc, Nat.add_assoc, Nat.add_comm]
      · have hlt : ifd.length < SECTOR := Nat.lt_of_not_le hfull
        have hn : min SECTOR ifd.length = ifd.length := Nat.min_eq_right (Nat.le_of_lt hlt)
        simp only [hn, h0, if_false]
        have hne : ifd.length ≠ SECTOR := Nat.ne_of_lt hlt
        simp only [ne_eq, hne, not_false_eq_true, if_true, List.take_length, List.drop_length]
        rw [ih _ _ _ (by simp)]
        have hp : padLen ifd.length = SECTOR - ifd.length := by
          simp only [padLen, SECTOR] at hlt ⊢
          omega
        have hq : (ifd.length + 127) / 128 = 1 := by
          simp only [SECTOR] at hlt
          omega
        simp [hp, hq, padLen_zero]

/-- A sector that is not the final one is copied unchanged. -/
theorem acopySector_nonfinal (nsecs : Nat) (hn : nsecs ≠ 0) (i : Nat) :
    ∀ (fdi : List Nat) (textfile : Bool) (fdo : List Nat), i ≤ fdi.length →
      acopySector nsecs i fdi textfile fdo =
        some (fdi.drop i, textfile && (fdi.take i).all isascii, fdo ++ fdi.take i) := by
  induction i with
  | zero => intro fdi textfile fdo _; simp [acopySector]
  | succ i ih =>
    intro fdi textfile fdo h
    cases fdi with
    | nil => simp at h
    | cons c fdi =>
      have h1 : i ≤ fdi.length := by simpa using h
      simp only [acopySector, hn, ne_eq, not_false_eq_true, true_or, if_true]
      rw [ih fdi _ _ h1]
      cases hc : isascii c <;> cases textfile <;> simp [hc]

/-- The final sector is written as `finalSectorOut` describes. -/
theorem acopySector_final (i : Nat) :
    ∀ (fdi : List Nat) (textfile : Bool) (fdo : List Nat), i ≤ fdi.length →
      acopySector 0 i fdi textfile fdo =
        some (fdi.drop i, textfile && (fdi.take i).all isascii,
          fdo ++ finalSectorOut textfile (fdi.take i)) := by
  induction i with
  | zero => intro fdi textfile fdo _; simp [acopySector, finalSectorOut]
  | succ i ih =>
    intro fdi textfile fdo h
    cases fdi with
    | nil => simp at h
    | cons c fdi =>
      have h1 : i ≤ fdi.length := by simpa using h
      simp only [acopySector, ne_eq, not_true_eq_false, false_or, List.take_succ_cons,
        finalSectorOut, List.drop_succ_cons]
      by_cases hz : c = CTRLZ
      · subst hz
        have hc : isascii CTRLZ = true := by decide
        cases textfile <;> simp [hc, ih fdi _ _ h1]
      · cases hc : isascii c <;> cases textfile <;> simp [hz, hc, ih fdi _ _ h1]

/-- The inner loop of `acopy` exits with an error when the input ends early. -/
theorem acopySector_short (nsecs i : Nat) :
    ∀ (fdi : List Nat) (textfile : Bool) (fdo : List Nat), fdi.length < i →
      acopySector nsecs i fdi textfile fdo = none := by
  induction i with
  | zero => intro fdi textfile fdo h; simp at h
  | succ i ih =>
    intro fdi textfile fdo h
    cases fdi with
    | nil => simp [acopySector]
    | cons c fdi =>
      have h1 : fdi.length < i := by simpa using h
      simp [acopySector, ih _ _ _ h1]

/-- The outer loop of `acopy` over `n + 1` available sectors: `n` sectors
unchanged, then the filtered final sector. -/
theorem acopyLoop_eq (n : Nat) :
    ∀ (fdi : List Nat) (textfile : Bool) (fdo : List Nat), SECTOR * (n + 1) ≤ fdi.length →
      acopyLoop (n + 1) fdi textfile fdo =
        some (fdo ++ fdi.take (SECTOR * n) ++
          finalSectorOut (textfile && (fdi.take (SECTOR * n)).all isascii)
            ((fdi.drop (SECTOR * n)).take SECTOR)) := by
  induction n with
  | zero =>
    intro fdi textfile fdo h
    simp only [acopyLoop]
    rw [acopySector_final SECTOR fdi textfile fdo (by simpa using h)]
    simp
  | succ n ih =>
    intro fdi textfile fdo h
    rw [acopyLoop]
    have hlen : SECTOR ≤ fdi.length := by
      have : SECTOR * (n + 1 + 1) = SECTOR * (n + 1) + SECTOR := by ring
      omega
    rw [acopySector_nonfinal (n + 1) (by omega) SECTOR fdi textfile fdo hlen]
    simp only
    rw [ih]
    · have e1 : fdi.take (SECTOR * (n + 1)) =
          fdi.take SECTOR ++ (fdi.drop SECTOR).take (SECTOR * n) := by
        rw [show SECTOR * (n + 1) = SECTOR + SECTOR * n by ring, List.take_add]
      have e2 : fdi.drop (SECTOR * (n + 1)) = (fdi.drop SECTOR).drop (SECTOR * n) := by
        rw [List.drop_drop, show SECTOR * (n + 1) = SECTOR + SECTOR * n by ring]
      rw [e1, e2]
      simp [List.append_assoc, Bool.and_assoc]
    · rw [List.length_drop]
      have : SECTOR * (n + 1 + 1) = SECTOR * (n + 1) + SECTOR := by ring
      omega

/-- With the `textfile` flag cleared the final sector is written unchanged. -/
theorem finalSectorOut_false (l : List Nat) : finalSectorOut false l = l := by
  induction l with
  | nil => rfl
  | cons c cs ih => simp [finalSectorOut, ih]

/-- A final sector of seven-bit bytes loses exactly its CTRL-Z bytes. -/
theorem finalSectorOut_text (l : List Nat) (h : ∀ b ∈ l, b < 0x80) :
    finalSectorOut true l = l.filter (fun b => decide (b ≠ CTRLZ)) := by
  induction l with
  | nil => rfl
  | cons c cs ih =>
    have hc : isascii c = true := by simp [isascii, h c (List.mem_cons_self _ _)]
    have hcs : ∀ b ∈ cs, b < 0x80 := fun b hb => h b (List.mem_cons_of_mem _ hb)
    by_cases hz : c = CTRLZ
    · subst hz
      simp [finalSectorOut, hc, ih hcs]
    · simp [finalSectorOut, hc, hz, ih hcs]

/-- A final sector is written unchanged when a byte with the high bit set
comes before its first CTRL-Z. -/
theorem finalSectorOut_high (textfile : Bool) (l1 l2 : List Nat) (b : Nat)
    (h1 : ∀ c ∈ l1, c ≠ CTRLZ) (hb : 0x80 ≤ b) :
    finalSectorOut textfile (l1 ++ b :: l2) = l1 ++ b :: l2 := by
  induction l1 generalizing textfile with
  | nil =>
    have hc : isascii b = false := by simp [isascii]; omega
    simp [finalSectorOut, hc, finalSectorOut_false]
  | cons c cs ih =>
    have hz : c ≠ CTRLZ := h1 c (List.mem_cons_self _ _)
    have hcs : ∀ d ∈ cs, d ≠ CTRLZ := fun d hd => h1 d (List.mem_cons_of_mem _ hd)
    simp [finalSectorOut, hz, ih _ hcs]


/-- Length plus padding is a multiple of the sector size. -/
theorem padLen_add_mod (len : Nat) : (len + padLen len) % 128 = 0 := by
  simp only [padLen, SECTOR]; omega

/-- Length plus padding is the sector size times the sector count. -/
theorem padLen_add_eq (len : Nat) : len + padLen len = SECTOR * ((len + 127) / 128) := by
  simp only [padLen, SECTOR]; omega

/-- Closed form of `fcopy`. -/
theorem fcopy_eq (x ofd : List Nat) :
    fcopy x ofd = (ofd ++ x ++ List.replicate (padLen x.length) CTRLZ, (x.length + 127) / 128) := by
  unfold fcopy
  rw [fcopyLoop_eq _ _ _ _ (Nat.le_refl _)]
  simp

/-- Closed form of `acopy` over `n + 1` available sectors. -/
theorem acopy_eq (fdi : List Nat) (n : Nat) (h : SECTOR * (n + 1) ≤ fdi.length) :
    acopy fdi (n + 1) =
      some (fdi.take (SECTOR * n) ++
        finalSectorOut ((fdi.take (SECTOR * n)).all isascii)
          ((fdi.drop (SECTOR * n)).take SECTOR)) := by
  unfold acopy
  rw [acopyLoop_eq n fdi true [] h]
  simp

/-- The final sector of a stream is written unchanged when the stream has a
byte with the high bit set that no CTRL-Z of the final sector precedes. -/
theorem finalSectorOut_binary (m : Nat) (pre tail : List Nat) (b : Nat) (hb : 0x80 ≤ b)
    (hpre : ∀ c ∈ pre.drop m, c ≠ CTRLZ) (hlt : pre.length < m + SECTOR) :
    finalSectorOut ((((pre ++ b :: tail).take m)).all isascii)
        (((pre ++ b :: tail).drop m).take SECTOR) =
      ((pre ++ b :: tail).drop m).take SECTOR := by
  by_cases hm : m ≤ pre.length
  · have hL : ((pre ++ b :: tail).drop m).take SECTOR =
        pre.drop m ++ b :: tail.take (SECTOR - (pre.drop m).length - 1) := by
      rw [List.drop_append_of_le_length hm, List.take_append_eq_append_take,
        List.take_of_length_le (by rw [List.length_drop]; omega)]
      have hk : SECTOR - (pre.drop m).length = (SECTOR - (pre.drop m).length - 1) + 1 := by
        rw [List.length_drop]; omega
      rw [hk, List.take_succ_cons]
      simp
    rw [hL]
    exact finalSectorOut_high _ _ _ _ hpre hb
  · have hmem : b ∈ (pre ++ b :: tail).take m := by
      have hle : pre.length + 1 ≤ m := by omega
      have : (pre ++ b :: tail).take m = pre ++ b :: tail.take (m - pre.length - 1) := by
        rw [List.take_append_eq_append_take, List.take_of_length_le (by omega)]
        have hk : m - pre.length = (m - pre.length - 1) + 1 := by omega
        rw [hk, List.take_succ_cons]
        simp
      rw [this]
      simp
    have hall : ((pre ++ b :: tail).take m).all isascii = false := by
      rw [List.all_eq_false]
      exact ⟨b, hmem, by simp [isascii]; omega⟩
    rw [hall, finalSectorOut_false]


/-! ## Lemmas on the name filter and the delete loop -/

/-- The index found by the search of `filarg` holds a name equal to the
argument. -/
theorem filargFind_some (name : List Nat) :
    ∀ (l : List (List Nat)) (start i : Nat), filargFind name l start = some i →
      ∃ s, start ≤ i ∧ l[i - start]? = some s ∧ equal name s = true := by
  intro l
  induction l with
  | nil => intro start i h; simp [filargFind] at h
  | cons s rest ih =>
    intro start i h
    simp only [filargFind] at h
    by_cases he : equal name s = true
    · simp only [he, if_true, Option.some.injEq] at h
      subst h
      exact ⟨s, Nat.le_refl _, by simp, he⟩
    · simp only [he, if_false] at h
      obtain ⟨t, h1, h2, h3⟩ := ih (start + 1) i h
      refine ⟨t, by omega, ?_, h3⟩
      have : i - start = (i - (start + 1)) + 1 := by omega
      rw [this, List.getElem?_cons_succ]
      exact h2

/-- A call of `filarg` with a name different from `nm` leaves every
occurrence of `nm` in the argument list untouched. -/
theorem filarg_keeps (name nm : List Nat) (g : State) (hne : equal name nm = false)
    (hun : ∀ t, g.fname[t]? = some nm → g.ftouched t = false) :
    (filarg name g).2.fname = g.fname ∧ (filarg name g).2.ldir = g.ldir ∧
      (filarg name g).2.nslots = g.nslots ∧
      (∀ t, g.fname[t]? = some nm → (filarg name g).2.ftouched t = false) := by
  unfold filarg
  split
  · exact ⟨rfl, rfl, rfl, hun⟩
  · split
    · rename_i i hfind
      refine ⟨rfl, rfl, rfl, fun t ht => ?_⟩
      obtain ⟨s, _, hs, heq⟩ := filargFind_some name g.fname 0 i hfind
      simp only [setAt]
      by_cases hti : t = i
      · subst hti
        simp only [Nat.sub_zero] at hs
        rw [ht] at hs
        injection hs with hs
        subst hs
        rw [hne] at heq
        exact absurd heq (by simp)
      · simp only [hti, if_false]
        exact hun t ht
    · exact ⟨rfl, rfl, rfl, hun⟩

/-- The loop of `del_entry` keeps the argument list and leaves `nm`
untouched when no visited entry is named `nm`. -/
theorem del_entryLoop_keeps (TOUPPER verbose : Bool) (nm : List Nat) (ldir0 : Nat → ludir)
    (n : Nat)
    (hno : ∀ i < n, equal (getfname TOUPPER (ldir0 i).l_name (ldir0 i).l_ext) nm = false) :
    ∀ (k i : Nat) (g : State), i + k = n →
      (∀ j, (g.ldir j).l_name = (ldir0 j).l_name ∧ (g.ldir j).l_ext = (ldir0 j).l_ext) →
      (∀ t, g.fname[t]? = some nm → g.ftouched t = false) →
      (del_entryLoop TOUPPER verbose k i g).fname = g.fname ∧
        (∀ t, g.fname[t]? = some nm → (del_entryLoop TOUPPER verbose k i g).ftouched t = false) := by
  intro k
  induction k with
  | zero => intro i g _ _ hun; exact ⟨rfl, hun⟩
  | succ k ih =>
    intro i g hik hnames hun
    have hne : equal (getfname TOUPPER (g.ldir i).l_name (g.ldir i).l_ext) nm = false := by
      rw [(hnames i).1, (hnames i).2]
      exact hno i (by omega)
    obtain ⟨hf, hl, _, ht⟩ := filarg_keeps _ nm g hne hun
    have key : ∀ g1 : State, g1.fname = g.fname →
        (∀ j, (g1.ldir j).l_name = (ldir0 j).l_name ∧ (g1.ldir j).l_ext = (ldir0 j).l_ext) →
        (∀ t, g.fname[t]? = some nm → g1.ftouched t = false) →
        (del_entryLoop TOUPPER verbose k (i + 1) g1).fname = g.fname ∧
          (∀ t, g.fname[t]? = some nm →
            (del_entryLoop TOUPPER verbose k (i + 1) g1).ftouched t = false) := by
      intro g1 e1 e2 e3
      obtain ⟨a, b⟩ := ih (i + 1) g1 (by omega) e2 (by rw [e1]; exact e3)
      exact ⟨a.trans e1, fun t h => b t (by rw [e1]; exact h)⟩
    simp only [del_entryLoop]
    generalize filarg (getfname TOUPPER (g.ldir i).l_name (g.ldir i).l_ext) g = r at hf hl ht ⊢
    have hnames1 : ∀ j, ((setAt r.2.ldir i { r.2.ldir i with l_stat := DELETED }) j).l_name =
          (ldir0 j).l_name ∧
        ((setAt r.2.ldir i { r.2.ldir i with l_stat := DELETED }) j).l_ext = (ldir0 j).l_ext := by
      intro j
      simp only [setAt, hl]
      by_cases hj : j = i
      · subst hj; simpa using hnames j
      · simpa [hj] using hnames j
    split
    · exact key r.2 hf (by rw [hl]; exact hnames) ht
    · cases verbose
      · exact key _ hf hnames1 ht
      · exact key _ hf hnames1 ht

/-- The loop of `not_found` only adds messages and errors. -/
theorem not_foundLoop_mono (m : Msg) :
    ∀ (l : List (List Nat)) (i : Nat) (g : State),
      (m ∈ g.stderr → m ∈ (not_foundLoop l i g).stderr) ∧
        g.errcnt ≤ (not_foundLoop l i g).errcnt := by
  intro l
  induction l with
  | nil => intro i g; exact ⟨id, Nat.le_refl _⟩
  | cons s rest ih =>
    intro i g
    simp only [not_foundLoop]
    split
    · obtain ⟨h1, h2⟩ := ih (i + 1)
        { g with stderr := g.stderr ++ [Msg.notInLibrary s], errcnt := g.errcnt + 1 }
      exact ⟨fun hm => h1 (List.mem_append_left _ hm), by simp at h2; omega⟩
    · exact ih (i + 1) g

/-- The loop of `not_found` reports an untouched name and counts an error. -/
theorem not_foundLoop_reports (nm : List Nat) :
    ∀ (l : List (List Nat)) (i : Nat) (g : State),
      (∃ t, l[t]? = some nm ∧ g.ftouched (i + t) = false) →
      Msg.notInLibrary nm ∈ (not_foundLoop l i g).stderr ∧ 0 < (not_foundLoop l i g).errcnt := by
  intro l
  induction l with
  | nil => intro i g h; obtain ⟨t, h1, _⟩ := h; simp at h1
  | cons s rest ih =>
    intro i g h
    obtain ⟨t, h1, h2⟩ := h
    simp only [not_foundLoop]
    cases t with
    | zero =>
      simp only [List.getElem?_cons_zero, Option.some.injEq] at h1
      subst h1
      simp only [Nat.add_zero] at h2
      simp only [h2, if_true]
      obtain ⟨m1, m2⟩ := not_foundLoop_mono (Msg.notInLibrary s) rest (i + 1)
        { g with stderr := g.stderr ++ [Msg.notInLibrary s], errcnt := g.errcnt + 1 }
      exact ⟨m1 (by simp), by simp at m2; omega⟩
    | succ t =>
      simp only [List.getElem?_cons_succ] at h1
      split
      · exact ih (i + 1) _ ⟨t, h1, by simpa [Nat.add_assoc, Nat.add_comm 1 t] using h2⟩
      · exact ih (i + 1) _ ⟨t, h1, by simpa [Nat.add_assoc, Nat.add_comm 1 t] using h2⟩


/-! ## Lemmas on reading the directory -/

/-- Number of complete items `fread` returns. -/
theorem fread_length (size : Nat) (hs : 0 < size) :
    ∀ (count : Nat) (f : List Nat), (fread size count f).length = min count (f.length / size) := by
  intro count
  induction count with
  | zero => intro f; simp [fread]
  | succ count ih =>
    intro f
    simp only [fread]
    by_cases h : f.length < size
    · simp [h, Nat.div_eq_of_lt h]
    · have hle : size ≤ f.length := Nat.le_of_not_lt h
      have hdiv : f.length / size = (f.length - size) / size + 1 := by
        rw [Nat.div_eq f.length size]
        simp [hs, hle]
      simp only [h, if_false, List.length_cons, ih, List.length_drop, hdiv]
      omega

/-- The `i`-th item `fread` returns. -/
theorem fread_getD (size : Nat) :
    ∀ (count : Nat) (f : List Nat) (i : Nat), i < (fread size count f).length →
      (fread size count f).getD i [] = (f.drop (size * i)).take size := by
  intro count
  induction count with
  | zero => intro f i h; simp [fread] at h
  | succ count ih =>
    intro f i h
    simp only [fread] at h ⊢
    by_cases hlt : f.length < size
    · simp [hlt] at h
    · simp only [hlt, if_false] at h ⊢
      cases i with
      | zero => simp
      | succ i =>
        have h1 : i < (fread size count (f.drop size)).length := by simpa using h
        rw [List.getD_cons_succ, ih _ _ h1, List.drop_drop]
        congr 2
        ring

/-- The successful run of `getdir`: the file holds the header and the
`n` entries its length field announces. -/
theorem getdir_ok (f : List Nat) (g : State) (n : Nat) (h32 : DSIZE ≤ f.length)
    (hn : wtoi (ludir.ofBytes (f.take DSIZE)).l_len * SLOTS_SEC = n) (hn0 : n ≠ 0)
    (hlen : n * DSIZE ≤ f.length) :
    getdir f g =
      some { g with
        ldir := storeEntries (storeEntries g.ldir 0 (fread DSIZE 1 f)) 1
          (fread DSIZE (n - 1) (f.drop DSIZE))
        nslots := n } := by
  have hD : 0 < DSIZE := by decide
  have h1 : (fread DSIZE 1 f).length = 1 := by
    rw [fread_length DSIZE hD]
    have : 1 ≤ f.length / DSIZE := (Nat.le_div_iff_mul_le hD).mpr (by simpa using h32)
    omega
  have h0 : (storeEntries g.ldir 0 (fread DSIZE 1 f)) 0 = ludir.ofBytes (f.take DSIZE) := by
    simp only [storeEntries, h1]
    have := fread_getD DSIZE 1 f 0 (by omega)
    simp at this
    simp [this]
  have h2 : (fread DSIZE (n - 1) (f.drop DSIZE)).length = n - 1 := by
    rw [fread_length DSIZE hD, List.length_drop]
    have : n - 1 ≤ (f.length - DSIZE) / DSIZE := by
      apply (Nat.le_div_iff_mul_le hD).mpr
      have : (n - 1) * DSIZE = n * DSIZE - DSIZE := by
        rw [Nat.sub_mul, Nat.one_mul]
      omega
    omega
  unfold getdir
  simp only [h1, ne_eq, not_true_eq_false, if_false, h0, hn, hn0, h2]

/-- The example file `libOversized` holds 260 entries. -/
theorem libOversized_length : libOversized.length = 260 * 32 := by
  have h : (headerEntry 65).toBytes.length = 32 := by decide
  unfold libOversized
  rw [List.length_append, List.length_replicate, h]


/-! ## The claims -/

/-- Claim C1, as stated, fails.  The one-byte binary file `0xff` is packed by
`fcopy` into one sector and `acopy` over that sector returns all 128 bytes, the
byte followed by the 127 bytes of CTRL-Z padding, not the file.  Also the
sector-sized binary file that starts `0x1a, 0xff` comes back without its
first byte, because `acopy` meets the CTRL-Z of the final sector before the
first byte with the high bit set. -/
theorem fcopy_acopy_binary_not_identity :
    (∃ b ∈ [0xff], 0x80 ≤ b) ∧
      acopy (fcopy [0xff] []).1 (fcopy [0xff] []).2 = some (0xff :: List.replicate 127 0x1a) ∧
      acopy (fcopy [0xff] []).1 (fcopy [0xff] []).2 ≠ some [0xff] ∧
      (∃ b ∈ [0x1a, 0xff] ++ List.replicate 126 0x00, 0x80 ≤ b) ∧
      acopy (fcopy ([0x1a, 0xff] ++ List.replicate 126 0x00) []).1
          (fcopy ([0x1a, 0xff] ++ List.replicate 126 0x00) []).2 =
        some (0xff :: List.replicate 126 0x00) := by
  decide

/-- Claim C1, amended.  Let `x` contain a byte `b >= 0x80` such that no CTRL-Z
occurs before `b` within the final sector of the packed content.  Packing
`x` with `fcopy` and extracting with `acopy` over the sector count `fcopy`
returned yields `x` followed by the CTRL-Z padding `fcopy` added, and hence
exactly `x` when the length of `x` is a multiple of 128.  `rest` is whatever
follows the packed file in the library. -/
theorem fcopy_acopy_binary_roundtrip (x pre post rest : List Nat) (b : Nat)
    (hx : x = pre ++ b :: post) (hb : 0x80 ≤ b)
    (hpre : ∀ c ∈ pre.drop (SECTOR * ((fcopy x []).2 - 1)), c ≠ CTRLZ) :
    acopy ((fcopy x []).1 ++ rest) (fcopy x []).2 =
        some (x ++ List.replicate (padLen x.length) CTRLZ) ∧
      (x.length % SECTOR = 0 → acopy ((fcopy x []).1 ++ rest) (fcopy x []).2 = some x) := by
  have key : acopy ((fcopy x []).1 ++ rest) (fcopy x []).2 =
        some (x ++ List.replicate (padLen x.length) CTRLZ) := by
    rw [fcopy_eq] at hpre ⊢
    simp only [List.nil_append] at hpre ⊢
    have hxlen : x.length = pre.length + post.length + 1 := by
      rw [hx]; simp; omega
    obtain ⟨t, ht⟩ : ∃ t, (x.length + 127) / 128 = t + 1 :=
      ⟨(x.length + 127) / 128 - 1, by omega⟩
    have hpad : x.length + padLen x.length = SECTOR * (t + 1) := by
      rw [padLen_add_eq, ht]
    rw [ht] at hpre ⊢
    simp only [Nat.add_sub_cancel] at hpre
    have hylen : (x ++ List.replicate (padLen x.length) CTRLZ).length = SECTOR * (t + 1) := by
      rw [List.length_append, List.length_replicate, hpad]
    rw [acopy_eq _ t (by rw [List.length_append, hylen]; omega)]
    have hy : x ++ List.replicate (padLen x.length) CTRLZ ++ rest =
        pre ++ b :: (post ++ List.replicate (padLen x.length) CTRLZ ++ rest) := by
      rw [hx]; simp
    have hfin := finalSectorOut_binary (SECTOR * t) pre
      (post ++ List.replicate (padLen x.length) CTRLZ ++ rest) b hb hpre
      (by have : SECTOR * (t + 1) = SECTOR * t + SECTOR := by ring
          have : 0 < SECTOR := by decide
          omega)
    rw [← hy] at hfin
    rw [hfin, ← List.take_add, show SECTOR * t + SECTOR = SECTOR * (t + 1) by ring, ← hylen,
      List.take_left']
    rfl
  refine ⟨key, fun hmod => ?_⟩
  rw [key]
  have : padLen x.length = 0 := by
    simp only [padLen, SECTOR] at hmod ⊢; omega
  simp [this]

/-- The amended claim C1 at the 128-byte file `A, 0xff, CTRL-Z, A, ...`: the
round trip returns the file itself. -/
theorem fcopy_acopy_binary_roundtrip_witness :
    (0x41 :: 0xff :: 0x1a :: List.replicate 125 0x41) =
        [0x41] ++ 0xff :: (0x1a :: List.replicate 125 0x41) ∧
      0x80 ≤ 0xff ∧
      (∀ c ∈ [0x41].drop
          (SECTOR * ((fcopy (0x41 :: 0xff :: 0x1a :: List.replicate 125 0x41) []).2 - 1)),
        c ≠ CTRLZ) ∧
      acopy ((fcopy (0x41 :: 0xff :: 0x1a :: List.replicate 125 0x41) []).1 ++ [])
          (fcopy (0x41 :: 0xff :: 0x1a :: List.replicate 125 0x41) []).2 =
        some (0x41 :: 0xff :: 0x1a :: List.replicate 125 0x41) :=
  ⟨rfl, by decide, by decide,
    (fcopy_acopy_binary_roundtrip (0x41 :: 0xff :: 0x1a :: List.replicate 125 0x41) [0x41]
      (0x1a :: List.replicate 125 0x41) [] 0xff rfl (by decide) (by decide)).2 (by decide)⟩

/-- Claim C2, as stated, fails.  The text sector `A, CTRL-Z, B, CTRL-Z ...`
has a CTRL-Z at position 1 that is followed by the byte `B`; removing only
the trailing run would give `A, CTRL-Z, B`, but `acopy` writes `A, B`. -/
theorem acopy_text_drops_inner_ctrlz :
    (∀ b ∈ innerCtrlZSector, b < 0x80) ∧ innerCtrlZSector.length = SECTOR * 1 ∧
      trailingCtrlZRemoved 1 innerCtrlZSector = [0x41, 0x1a, 0x42] ∧
      acopy innerCtrlZSector 1 = some [0x41, 0x42] ∧
      acopy innerCtrlZSector 1 ≠ some (trailingCtrlZRemoved 1 innerCtrlZSector) := by
  decide

/-- Claim C2, amended.  For a stored content of `n >= 1` sectors in which
every byte is below 0x80, `acopy` writes the first `n - 1` sectors unchanged,
followed by the final sector with every CTRL-Z byte removed (its trailing run
and any CTRL-Z before it). -/
theorem acopy_text_strips_final_sector (fdi : List Nat) (n : Nat) (hn : 1 ≤ n)
    (hlen : SECTOR * n ≤ fdi.length) (htext : ∀ b ∈ fdi.take (SECTOR * n), b < 0x80) :
    acopy fdi n =
      some (fdi.take (SECTOR * (n - 1)) ++
        ((fdi.drop (SECTOR * (n - 1))).take SECTOR).filter (fun b => decide (b ≠ CTRLZ))) := by
  obtain ⟨m, rfl⟩ : ∃ m, n = m + 1 := ⟨n - 1, by omega⟩
  simp only [Nat.add_sub_cancel]
  rw [acopy_eq fdi m hlen]
  have hsub : ∀ b ∈ fdi.take (SECTOR * m), b < 0x80 := by
    intro b hb
    apply htext
    have hle : SECTOR * m ≤ SECTOR * (m + 1) := Nat.mul_le_mul_left _ (Nat.le_succ m)
    exact List.mem_of_mem_take (by rw [List.take_take, Nat.min_eq_left hle]; exact hb)
  have hall : (fdi.take (SECTOR * m)).all isascii = true := by
    rw [List.all_eq_true]
    intro b hb
    simp [isascii, hsub b hb]
  have hlast : ∀ b ∈ (fdi.drop (SECTOR * m)).take SECTOR, b < 0x80 := by
    intro b hb
    apply htext
    rw [show SECTOR * (m + 1) = SECTOR * m + SECTOR by ring, List.take_add]
    exact List.mem_append_right _ hb
  rw [hall, finalSectorOut_text _ hlast]

/-- The amended claim C2 at the sector `A, CTRL-Z, B, CTRL-Z ...`. -/
theorem acopy_text_strips_final_sector_witness :
    1 ≤ 1 ∧ SECTOR * 1 ≤ innerCtrlZSector.length ∧
      (∀ b ∈ innerCtrlZSector.take (SECTOR * 1), b < 0x80) ∧
      acopy innerCtrlZSector 1 =
        some (innerCtrlZSector.take (SECTOR * (1 - 1)) ++
          ((innerCtrlZSector.drop (SECTOR * (1 - 1))).take SECTOR).filter
            (fun b => decide (b ≠ CTRLZ))) :=
  ⟨by decide, by decide, by decide,
    acopy_text_strips_final_sector innerCtrlZSector 1 (by decide) (by decide) (by decide)⟩

/-- Claim C3 on the code.  The library `libOneFile` is two sectors long and
its slot 2 is unused.  Adding the three-byte file `x.y` makes `fcopy` write
one sector and sets entry 2 to ACTIVE with the name `x.y`, but the offset and
length fields of the entry still read 0 instead of 2 and 1: `itow` receives
the field by value. -/
theorem addfil_offset_length_not_stored :
    loadedOneFile.nslots = 4 ∧ (loadedOneFile.ldir 2).l_stat = UNUSED ∧
      addfilFind false loadedOneFile.ldir x_y loadedOneFile.nslots 0 = 2 ∧
      libOneFile.length / 128 = 2 ∧ (fcopy [1, 2, 3] libOneFile).2 = 1 ∧
      (addfil false false x_y (some [1, 2, 3]) libOneFile loadedOneFile).map
          (fun r => ((r.2.ldir 2).l_stat,
            getfname false (r.2.ldir 2).l_name (r.2.ldir 2).l_ext,
            wtoi (r.2.ldir 2).l_off, wtoi (r.2.ldir 2).l_len, r.2.errcnt, r.1.length)) =
        some (ACTIVE, x_y, 0, 0, 0, 384) := by
  decide

/-- Claim C4 on the code.  In `libDeletedFirst` slot 1 is DELETED and slot 2
holds the ACTIVE entry `a.txt`.  Adding `a.txt` stops the slot search at
slot 1, and afterwards slots 1 and 2 are both ACTIVE with the name `a.txt`. -/
theorem addfil_duplicates_name_after_free_slot :
    (loadedDeletedFirst.ldir 2).l_stat = ACTIVE ∧
      getfname false (loadedDeletedFirst.ldir 2).l_name (loadedDeletedFirst.ldir 2).l_ext =
        a_txt ∧
      addfilFind false loadedDeletedFirst.ldir a_txt loadedDeletedFirst.nslots 0 = 1 ∧
      (addfil false false a_txt (some [1, 2, 3]) libDeletedFirst loadedDeletedFirst).map
          (fun r => ((r.2.ldir 1).l_stat,
            getfname false (r.2.ldir 1).l_name (r.2.ldir 1).l_ext,
            (r.2.ldir 2).l_stat,
            getfname false (r.2.ldir 2).l_name (r.2.ldir 2).l_ext)) =
        some (ACTIVE, a_txt, ACTIVE, a_txt) := by
  decide

/-- The part of claim C5 that holds: a directory that fits the table.  Let the
requested names be non-empty and accepted by `filenames`, let the directory
load with `nslots <= MAXFILES`, and let `nm` be a requested name that equals
the name of no directory entry.  Then `del_entry` returns with the library
file unchanged (the directory is not written), reports `nm` as not in the
library and counts an error, whatever the other names matched. -/
theorem del_entry_unmatched_name_keeps_directory (TOUPPER verbose : Bool) (names : List (List Nat)) (g0 g g1 : State)
    (f nm : List Nat)
    (hargs : filenames names g0 = some g) (hne : names ≠ [])
    (hload : getdir f g = some g1) (_hfit : g1.nslots ≤ MAXFILES) (hnm : nm ∈ names)
    (hno : ∀ i < g1.nslots,
      equal (getfname TOUPPER (g1.ldir i).l_name (g1.ldir i).l_ext) nm = false) :
    ∃ g2, del_entry TOUPPER verbose f g = some (f, g2) ∧ Msg.notInLibrary nm ∈ g2.stderr ∧
      0 < g2.errcnt := by
  have hg : g.fname = names ∧ ∀ t, t < names.length → g.ftouched t = false := by
    unfold filenames at hargs
    split at hargs
    · simp at hargs
    · split at hargs
      · simp at hargs
      · injection hargs with hargs
        subst hargs
        exact ⟨rfl, fun t ht => by simp [ht]⟩
  have hg1 : g1.fname = names ∧ g1.ftouched = g.ftouched := by
    unfold getdir at hload
    simp only at hload
    split at hload
    · simp at hload
    · split at hload
      · simp at hload
      · split at hload
        · simp at hload
        · injection hload with hload
          subst hload
          exact ⟨hg.1, rfl⟩
  obtain ⟨t, ht, htn⟩ := List.getElem_of_mem hnm
  have hget : names[t]? = some nm := by rw [List.getElem?_eq_getElem ht, htn]
  have hun : ∀ u, g1.fname[u]? = some nm → g1.ftouched u = false := by
    intro u hu
    rw [hg1.2]
    apply hg.2
    rw [hg1.1] at hu
    by_contra hlt
    rw [List.getElem?_eq_none (by omega)] at hu
    simp at hu
  obtain ⟨l1, l2⟩ := del_entryLoop_keeps TOUPPER verbose nm g1.ldir g1.nslots hno g1.nslots 0 g1
    (by omega) (fun j => ⟨rfl, rfl⟩) hun
  obtain ⟨r1, r2⟩ := not_foundLoop_reports nm
    (del_entryLoop TOUPPER verbose g1.nslots 0 g1).fname 0
    (del_entryLoop TOUPPER verbose g1.nslots 0 g1)
    ⟨t, by rw [l1, hg1.1]; exact hget, by
      rw [Nat.zero_add]; exact l2 t (by rw [hg1.1]; exact hget)⟩
  have hlen : ¬ g.fname.length ≤ 0 := by
    rw [hg.1]
    have : names.length ≠ 0 := fun h => hne (List.length_eq_zero.mp h)
    omega
  unfold del_entry
  simp only [hlen, if_false, hload]
  have r2' : (not_found (del_entryLoop TOUPPER verbose g1.nslots 0 g1)).errcnt > 0 := r2
  simp only [r2', if_true]
  exact ⟨_, rfl, List.mem_append_left _ r1, r2⟩

/-- The library `libOneFile` and the single requested name `x.y`: the four
slots fit the table, and `del_entry` leaves the file as it is. -/
theorem del_entry_unmatched_name_keeps_directory_witness :
    filenames [x_y] initState = some argsXY ∧ [x_y] ≠ [] ∧
      getdir libOneFile argsXY = some loadedOneFileXY ∧
      loadedOneFileXY.nslots ≤ MAXFILES ∧ x_y ∈ [x_y] ∧
      (∃ g2, del_entry false false libOneFile argsXY = some (libOneFile, g2) ∧
        Msg.notInLibrary x_y ∈ g2.stderr ∧ 0 < g2.errcnt) :=
  ⟨rfl, by decide, rfl, by decide, by decide,
    del_entry_unmatched_name_keeps_directory false false [x_y] initState argsXY
      loadedOneFileXY libOneFile x_y rfl (by decide) rfl (by decide) (by decide) (by decide)⟩

/-- Claim C6 on the code.  The header of `libOneFile` is ACTIVE and has a blank
name, which `getfname` renders as `.`.  With the single requested name `.`
the loop of `del_entry`, which starts at slot 0, marks the header DELETED, no
error is counted and the directory is written: the first byte of the file is
then `0xfe`. -/
theorem del_entry_deletes_header :
    (getdir libOneFile argsDot).map (fun g => (g.ldir 0).l_stat) = some ACTIVE ∧
      argsDot.fname = [dotName] ∧
      (del_entry false false libOneFile argsDot).map
          (fun r => ((r.2.ldir 0).l_stat, r.2.errcnt, r.1.take 1)) =
        some (DELETED, 0, [DELETED]) := by
  decide

/-- Claim C7 on the code.  For the request of 8 slots `initdir` makes a
directory of 8 slots (256 bytes) whose entry 0 is ACTIVE and whose other
entries are UNUSED, but the length field of entry 0 reads 0 instead of
8 / 4 = 2, in memory and in the bytes written: `itow` receives the field by
value. -/
theorem initdir_header_length_not_stored :
    (initdir [8] [] initState).map
          (fun r => (r.2.1.nslots, (List.range 8).map (fun i => (r.2.1.ldir i).l_stat),
            wtoi (r.2.1.ldir 0).l_len, (r.1.drop 14).take 2, r.1.length)) =
        some (8, [ACTIVE, UNUSED, UNUSED, UNUSED, UNUSED, UNUSED, UNUSED, UNUSED],
          0, [0, 0], 256) ∧
      8 / SLOTS_SEC = 2 := by
  decide

/-- Claim C8 on the code.  `libFull` has four slots, the header and three
ACTIVE entries.  Reorganizing it into a new directory of four slots copies
the three entries, then reports "Not enough room", counts an error and
leaves the library as it was. -/
theorem reorg_full_library_rejected :
    (getdir libFull initState).map
          (fun g => (g.nslots, (List.range 4).map (fun i => (g.ldir i).l_stat))) =
        some (4, [ACTIVE, ACTIVE, ACTIVE, ACTIVE]) ∧
      (reorg false [4] libFull initState).map (fun r => (r.1, r.2.errcnt, r.2.stderr)) =
        some (libFull, 1, [Msg.notEnoughRoom, Msg.notUpdated]) := by
  decide

/-- Claim C9.  For every input `x` (and every output `ofd` written before),
`fcopy` appends `x` followed by exactly `(128 - |x| mod 128) mod 128` bytes of
CTRL-Z, so the appended length is a multiple of 128, and returns
`(|x| + 127) / 128`, the least number of sectors that hold `x` (0 for the
empty input). -/
theorem fcopy_pads_to_whole_sectors (x ofd : List Nat) :
    fcopy x ofd =
        (ofd ++ x ++ List.replicate ((128 - x.length % 128) % 128) 0x1a,
          (x.length + 127) / 128) ∧
      (x ++ List.replicate ((128 - x.length % 128) % 128) 0x1a).length % 128 = 0 ∧
      (x.length ≤ 128 * ((x.length + 127) / 128) ∧ 128 * ((x.length + 127) / 128) < x.length + 128) ∧
      (fcopy [] ofd).2 = 0 := by
  refine ⟨fcopy_eq x ofd, ?_, ⟨by omega, by omega⟩, by rw [fcopy_eq]; rfl⟩
  rw [List.length_append, List.length_replicate]
  omega


/-- Claim C10 on the code.  The header of `libOversized` has the length field
65 and the file holds 260 entries.  `getdir` succeeds with `nslots = 260`,
above `MAXFILES`, and stores entries beyond the table: index 259 holds the
status byte `0xff` read from the file. -/
theorem getdir_accepts_oversized_directory :
    ∃ g, getdir libOversized initState = some g ∧ g.nslots = 260 ∧ MAXFILES < g.nslots ∧
      (g.ldir 259).l_stat = 0xff ∧ (initState.ldir 259).l_stat = 0 := by
  have htake : libOversized.take DSIZE = (headerEntry 65).toBytes := by
    unfold libOversized
    rw [List.take_left' (by decide)]
  have hn : wtoi (ludir.ofBytes (libOversized.take DSIZE)).l_len * SLOTS_SEC = 260 := by
    rw [htake]; decide
  have hok := getdir_ok libOversized initState 260
    (by rw [libOversized_length]; decide) hn (by decide)
    (by rw [libOversized_length]; decide)
  refine ⟨_, hok, rfl, by decide, ?_, rfl⟩
  have hD : 0 < DSIZE := by decide
  have hdrop : libOversized.drop DSIZE = List.replicate (259 * 32) 0xff := by
    unfold libOversized
    rw [List.drop_left' (by decide)]
  have hlen : (fread DSIZE (260 - 1) (libOversized.drop DSIZE)).length = 259 := by
    rw [fread_length DSIZE hD, hdrop, List.length_replicate]; decide
  have hget := fread_getD DSIZE (260 - 1) (libOversized.drop DSIZE) 258 (by rw [hlen]; decide)
  simp only [storeEntries, hlen]
  have hc : (1 ≤ 259 ∧ 259 < 1 + 259) := by decide
  simp only [hc, and_self, if_true]
  rw [show 259 - 1 = 258 from rfl, hget, hdrop, List.drop_replicate, List.take_replicate]
  decide

/-! ## Lemmas on the unsqueezer -/

/-- The Huffman reader neither reads nor changes `repct`, `value` and `crc`. -/
theorem getuhuffLoop_frame (rp vl : Int) (cr : Nat) :
    ∀ (fuel i : Nat) (s : Usq),
      getuhuffLoop fuel i { s with repct := rp, value := vl, crc := cr } =
        ((getuhuffLoop fuel i s).1,
          { (getuhuffLoop fuel i s).2 with repct := rp, value := vl, crc := cr }) := by
  intro fuel
  induction fuel with
  | zero => intro i s; rfl
  | succ fuel ih =>
    intro i s
    simp only [getuhuffLoop]
    by_cases hb : s.bpos + 1 > 7
    · simp only [hb, if_true]
      cases hib : s.ib with
      | nil => rfl
      | cons c ib =>
        simp only
        by_cases hl : childOf (s.dnode i) ((c : Int) % 2) ≥ 0
        · simp only [hl, if_true]
          exact ih _ { s with bpos := 0, curin := (c : Int), ib := ib }
        · simp only [hl, if_false]
    · simp only [hb, if_false]
      by_cases hl : childOf (s.dnode i) ((s.curin / 2) % 2) ≥ 0
      · simp only [hl, if_true]
        exact ih _ { s with bpos := s.bpos + 1, curin := s.curin / 2 }
      · simp only [hl, if_false]

/-- The Huffman reader leaves the tree, `repct`, `value` and `crc` as they
are. -/
theorem getuhuffLoop_keeps :
    ∀ (fuel i : Nat) (s : Usq),
      (getuhuffLoop fuel i s).2.repct = s.repct ∧ (getuhuffLoop fuel i s).2.value = s.value ∧
        (getuhuffLoop fuel i s).2.crc = s.crc ∧ (getuhuffLoop fuel i s).2.dnode = s.dnode := by
  intro fuel
  induction fuel with
  | zero => intro i s; exact ⟨rfl, rfl, rfl, rfl⟩
  | succ fuel ih =>
    intro i s
    simp only [getuhuffLoop]
    by_cases hb : s.bpos + 1 > 7
    · simp only [hb, if_true]
      cases hib : s.ib with
      | nil => exact ⟨rfl, rfl, rfl, rfl⟩
      | cons c ib =>
        simp only
        by_cases hl : childOf (s.dnode i) ((c : Int) % 2) ≥ 0
        · simp only [hl, if_true]
          exact ih _ { s with bpos := 0, curin := (c : Int), ib := ib }
        · simp [hl]
    · simp only [hb, if_false]
      by_cases hl : childOf (s.dnode i) ((s.curin / 2) % 2) ≥ 0
      · simp only [hl, if_true]
        exact ih _ { s with bpos := s.bpos + 1, curin := s.curin / 2 }
      · simp [hl]

/-- The loop of `getuhuff` is the reference walk over the pending bits: it
returns the leaf value and leaves the unused bits pending, or returns `ERROR`
when the bits run out. -/
theorem getuhuffLoop_treeWalk :
    ∀ (fuel i : Nat) (s : Usq), (pendingBits s).length < fuel →
      (treeWalk s.dnode (pendingBits s) i = none ∧ (getuhuffLoop fuel i s).1 = ERROR ∧
          (getuhuffLoop fuel i s).2.ib = []) ∨
        (treeWalk s.dnode (pendingBits s) i =
          some ((getuhuffLoop fuel i s).1, pendingBits (getuhuffLoop fuel i s).2)) := by
  intro fuel
  induction fuel with
  | zero => intro i s h; simp at h
  | succ fuel ih =>
    intro i s h
    simp only [getuhuffLoop]
    by_cases hb : s.bpos + 1 > 7
    · simp only [hb, if_true]
      have h7 : 7 - s.bpos = 0 := by omega
      cases hib : s.ib with
      | nil =>
        left
        simp [pendingBits, h7, hib, curinBits, treeWalk]
      | cons c ib =>
        have hp : pendingBits s =
            ((c : Int) % 2) ::
              pendingBits { s with bpos := 0, curin := (c : Int), ib := ib } := by
          simp [pendingBits, h7, hib, curinBits, byteBits]
        simp only
        rw [hp] at h ⊢
        simp only [treeWalk]
        by_cases hl : childOf (s.dnode i) ((c : Int) % 2) ≥ 0
        · simp only [hl, if_true]
          have := ih (childOf (s.dnode i) ((c : Int) % 2)).toNat
            { s with bpos := 0, curin := (c : Int), ib := ib } (by simpa using h)
          exact this
        · simp only [hl, if_false]
          right
          trivial
    · simp only [hb, if_false]
      obtain ⟨k, hk⟩ : ∃ k, 7 - s.bpos = k + 1 := ⟨7 - s.bpos - 1, by omega⟩
      have hk2 : 7 - (s.bpos + 1) = k := by omega
      have hp : pendingBits s =
          ((s.curin / 2) % 2) ::
            pendingBits { s with bpos := s.bpos + 1, curin := s.curin / 2 } := by
        simp [pendingBits, hk, hk2, curinBits]
      rw [hp] at h ⊢
      simp only [treeWalk]
      by_cases hl : childOf (s.dnode i) ((s.curin / 2) % 2) ≥ 0
      · simp only [hl, if_true]
        exact ih (childOf (s.dnode i) ((s.curin / 2) % 2)).toNat
          { s with bpos := s.bpos + 1, curin := s.curin / 2 } (by simpa using h)
      · simp only [hl, if_false]
        right
        trivial

/-- The bound `getuhuff` passes to its loop exceeds the number of pending
bits. -/
theorem pendingBits_length_lt (s : Usq) : (pendingBits s).length < 8 * s.ib.length + 8 := by
  have hc : ∀ (k : Nat) (c : Int), (curinBits k c).length = k := by
    intro k
    induction k with
    | zero => intro c; rfl
    | succ k ih => intro c; simp [curinBits, ih]
  have hf : ∀ l : List Nat, ((l.map byteBits).flatten).length = 8 * l.length := by
    intro l
    induction l with
    | nil => rfl
    | cons c l ih => simp [byteBits, hc, ih]; omega
  simp only [pendingBits, List.length_append, hc, hf]
  omega

/-- Once `repct` is `k > 0`, the next `k` calls of `getcr` return `value` and
count `repct` down to 0. -/
theorem getcrN_repeat (k : Nat) : ∀ (t : Usq), t.repct = (k : Int) →
    getcrN k t = (List.replicate k t.value, { t with repct := 0 }) := by
  induction k with
  | zero =>
    intro t ht
    simp only [getcrN, List.replicate]
    rw [← show ({ t with repct := t.repct } : Usq) = t from rfl, ht]
    rfl
  | succ k ih =>
    intro t ht
    have hpos : t.repct > 0 := by rw [ht]; push_cast; omega
    have hg : getcr t = (t.value, { t with repct := t.repct - 1 }) := by
      simp [getcr, hpos]
    simp only [getcrN, hg]
    rw [ih { t with repct := t.repct - 1 } (by simp [ht])]
    simp [List.replicate]

/-! ## The claims on the unsqueezer -/

/-- Claim C11, as stated, fails for the count 1.  With the tree `rleTree 1` and
the payload `0xda, 0x01` the symbols read are `A`, `DLE`, 1, end-of-data; the
first two calls of `getcr` both return `A` and use up the three symbols, and
the third call returns end-of-data: `A` comes out twice, not once. -/
theorem getcr_count_one_gives_two :
    (getuhuff (rleState 1)).1 = 0x41 ∧
      (getuhuff (getuhuff (rleState 1)).2).1 = 0x90 ∧
      (getuhuff (getuhuff (getuhuff (rleState 1)).2).2).1 = 1 ∧
      (getuhuff (getuhuff (getuhuff (getuhuff (rleState 1)).2).2).2).1 = EOF ∧
      (getcrN 3 (rleState 1)).1 = [0x41, 0x41, EOF] := by
  decide

/-- Claim C11, amended.  Let the next three symbols of the Huffman reader be a
byte `v` other than 0x90, the marker 0x90 and a count `n` with
`1 <= n <= 255`, and let no repetition be pending.  For `2 <= n` the next `n`
calls of `getcr` return `v` each, and they leave the reader behind the three
symbols with no repetition pending, so that the call after them reads a new
symbol.  For the count 1 the next two calls of `getcr` return `v` each: `v`
comes out twice, for every `v`, and the reader is left behind the three
symbols with `repct = -1`, which is no pending repetition either. -/
theorem getcr_expands_run (s0 s1 s2 s3 : Usq) (v n : Nat)
    (hrep : s0.repct ≤ 0)
    (h1 : getuhuff s0 = ((v : Int), s1)) (h2 : getuhuff s1 = (DLE, s2))
    (h3 : getuhuff s2 = ((n : Int), s3))
    (hv : v ≤ 255 ∧ v ≠ 0x90) (hn : 1 ≤ n ∧ n ≤ 255) :
    (2 ≤ n →
      getcrN n s0 =
        (List.replicate n (v : Int), { s3 with value := (v : Int), repct := 0 })) ∧
      (n = 1 →
        getcrN 2 s0 =
          ([(v : Int), (v : Int)], { s3 with value := (v : Int), repct := -1 })) := by
  have k1 := getuhuffLoop_keeps (8 * s0.ib.length + 8) 0 s0
  have k2 := getuhuffLoop_keeps (8 * s1.ib.length + 8) 0 s1
  have k3 := getuhuffLoop_keeps (8 * s2.ib.length + 8) 0 s2
  have e1 : getuhuffLoop (8 * s0.ib.length + 8) 0 s0 = ((v : Int), s1) := h1
  have e2 : getuhuffLoop (8 * s1.ib.length + 8) 0 s1 = (DLE, s2) := h2
  have e3 : getuhuffLoop (8 * s2.ib.length + 8) 0 s2 = ((n : Int), s3) := h3
  rw [e1] at k1
  rw [e2] at k2
  rw [e3] at k3
  simp only at k1 k2 k3
  have hvd : (v : Int) ≠ DLE := by
    intro h
    have : v = 0x90 := by
      have h' : (v : Int) = 0x90 := h
      exact_mod_cast h'
    exact hv.2 this
  have hve : (v : Int) ≠ EOF := by
    intro h
    have h' : (v : Int) = -1 := h
    omega
  have g1 : getcr s0 = ((v : Int), { s1 with value := (v : Int) }) := by
    have hr : ¬ s0.repct > 0 := by omega
    simp only [getcr, hr, if_false, h1, ne_eq, hvd, not_false_eq_true, if_true, hve]
  have f2 : getuhuff { s1 with value := (v : Int) } = (DLE, { s2 with value := (v : Int) }) := by
    have := getuhuffLoop_frame s1.repct (v : Int) s1.crc (8 * s1.ib.length + 8) 0 s1
    rw [e2] at this
    simp only at this
    have e : ({ s2 with repct := s1.repct, value := (v : Int), crc := s1.crc } : Usq) =
        { s2 with value := (v : Int) } := by
      rw [← k2.1, ← k2.2.2.1]
    rw [e] at this
    exact this
  have f3 : getuhuff { s2 with value := (v : Int) } =
      ((n : Int), { s3 with value := (v : Int) }) := by
    have := getuhuffLoop_frame s2.repct (v : Int) s2.crc (8 * s2.ib.length + 8) 0 s2
    rw [e3] at this
    simp only at this
    have e : ({ s3 with repct := s2.repct, value := (v : Int), crc := s2.crc } : Usq) =
        { s3 with value := (v : Int) } := by
      rw [← k3.1, ← k3.2.2.1]
    rw [e] at this
    exact this
  have g2 : getcr { s1 with value := (v : Int) } =
      ((v : Int), { s3 with value := (v : Int), repct := (n : Int) - 2 }) := by
    have hr : ¬ ({ s1 with value := (v : Int) } : Usq).repct > 0 := by
      show ¬ s1.repct > 0
      rw [k1.1]; omega
    have hn0 : (n : Int) ≠ 0 := by omega
    simp only [getcr, hr, if_false, f2, ne_eq, not_true_eq_false, f3, hn0]
  refine ⟨fun h2n => ?_, fun h1n => ?_⟩
  · obtain ⟨m, rfl⟩ : ∃ m, n = m + 2 := ⟨n - 2, by omega⟩
    have hm : ((m + 2 : Nat) : Int) - 2 = (m : Int) := by push_cast; omega
    rw [hm] at g2
    have g3 := getcrN_repeat m { s3 with value := (v : Int), repct := (m : Int) } rfl
    simp only [getcrN, g1, g2, g3]
    simp [List.replicate_succ]
  · subst h1n
    have hm : ((1 : Nat) : Int) - 2 = -1 := by decide
    rw [hm] at g2
    simp only [getcrN, g1, g2]

/-- The amended claim C11 at the tree `rleTree 5`, where the symbols `A`,
`DLE`, 5 give five times `A`, and at the tree `rleTree 1`, where the symbols
`A`, `DLE`, 1 give `A` twice. -/
theorem getcr_expands_run_witness :
    (rleState 5).repct ≤ 0 ∧ (getuhuff (rleState 5)).1 = 0x41 ∧
      getcrN 5 (rleState 5) =
        (List.replicate 5 (0x41 : Int),
          { (getuhuff (getuhuff (getuhuff (rleState 5)).2).2).2 with
            value := 0x41, repct := 0 }) ∧
      (rleState 1).repct ≤ 0 ∧ (getuhuff (rleState 1)).1 = 0x41 ∧
      getcrN 2 (rleState 1) =
        ([(0x41 : Int), 0x41],
          { (getuhuff (getuhuff (getuhuff (rleState 1)).2).2).2 with
            value := 0x41, repct := -1 }) :=
  ⟨by decide, by decide,
    (getcr_expands_run (rleState 5) (getuhuff (rleState 5)).2
      (getuhuff (getuhuff (rleState 5)).2).2
      (getuhuff (getuhuff (getuhuff (rleState 5)).2).2).2 0x41 5 (by decide)
      (Prod.ext (by decide) rfl) (Prod.ext (by decide) rfl) (Prod.ext (by decide) rfl)
      (by decide) (by decide)).1 (by decide),
    by decide, by decide,
    (getcr_expands_run (rleState 1) (getuhuff (rleState 1)).2
      (getuhuff (getuhuff (rleState 1)).2).2
      (getuhuff (getuhuff (getuhuff (rleState 1)).2).2).2 0x41 1 (by decide)
      (Prod.ext (by decide) rfl) (Prod.ext (by decide) rfl) (Prod.ext (by decide) rfl)
      (by decide) (by decide)).2 rfl⟩

/-- Claim C12, as stated, fails.  With the tree `eofOrLoopTree` the empty
payload and the payload `0xff` both run out before a leaf is reached, the
payload `0x00` leads to the end-of-stream leaf, and `getuhuff` returns the same
value -1 in all three cases. -/
theorem getuhuff_truncated_same_as_eof :
    treeWalk eofOrLoopTree (pendingBits (eofOrLoopState [])) 0 = none ∧
      treeWalk eofOrLoopTree (pendingBits (eofOrLoopState [0xff])) 0 = none ∧
      (treeWalk eofOrLoopTree (pendingBits (eofOrLoopState [0x00])) 0).map (fun r => r.1) =
        some (leafValue (-(SPEOF + 1))) ∧
      (getuhuff (eofOrLoopState [])).1 = -1 ∧
      (getuhuff (eofOrLoopState [0xff])).1 = -1 ∧
      (getuhuff (eofOrLoopState [0x00])).1 = -1 := by
  decide

/-- Claim C12, amended.  For every decode tree and every reader state whose
pending bits run out before the walk from the root reaches a leaf, `getuhuff`
returns `ERROR`, which is -1, the value of `EOF` that it also returns for the
end-of-stream leaf (value 256): the caller sees a truncated stream as a normal
end of data. -/
theorem getuhuff_truncated_returns_eof (s : Usq)
    (h : treeWalk s.dnode (pendingBits s) 0 = none) :
    (getuhuff s).1 = ERROR ∧ (getuhuff s).1 = leafValue (-(SPEOF + 1)) ∧
      (getuhuff s).1 = EOF := by
  have hE : (getuhuff s).1 = ERROR := by
    rcases getuhuffLoop_treeWalk (8 * s.ib.length + 8) 0 s (pendingBits_length_lt s) with
      ⟨_, h2, _⟩ | h2
    · exact h2
    · rw [h] at h2
      simp at h2
  exact ⟨hE, by rw [hE]; decide, by rw [hE]; decide⟩

/-- The amended claim C12 at the tree `eofOrLoopTree` and the payload
`0xff`. -/
theorem getuhuff_truncated_returns_eof_witness :
    treeWalk (eofOrLoopState [0xff]).dnode (pendingBits (eofOrLoopState [0xff])) 0 = none ∧
      (getuhuff (eofOrLoopState [0xff])).1 = ERROR ∧
      (getuhuff (eofOrLoopState [0xff])).1 = leafValue (-(SPEOF + 1)) ∧
      (getuhuff (eofOrLoopState [0xff])).1 = EOF :=
  ⟨by decide, getuhuff_truncated_returns_eof (eofOrLoopState [0xff]) (by decide)⟩

/-- Claim C13 on the code.  The file `sqFileOneByte` has the checksum word 1
and decodes to the single byte 0x41, whose sum is 65.  `unsqueeze` writes the
output and prints " done." instead of the checksum error, for 16-bit and for
32-bit `unsigned int`: the test compares `filecrc && 0xFFFF` with
`crc && 0xFFFF`, which are both 1. -/
theorem unsqueeze_checksum_mismatch_unreported :
    (getw16 [0x01, 0x00]).1 = 1 ∧ (1 : Nat) ≠ [0x41].sum % 65536 ∧
      (unsqueeze 16 (some sqFileOneByte) usqInit).map (fun r => (r.stdout, r.outfile, r.st.crc)) =
        some ([UsqMsg.arrow [0x61], UsqMsg.unsqueezing, UsqMsg.done],
          some ([0x61], [0x41]), 65) ∧
      (unsqueeze 32 (some sqFileOneByte) usqInit).map (fun r => (r.stdout, r.outfile, r.st.crc)) =
        some ([UsqMsg.arrow [0x61], UsqMsg.unsqueezing, UsqMsg.done],
          some ([0x61], [0x41]), 65) := by
  refine ⟨by decide, by decide, by decide, by decide⟩

/-- The name loop stops at the first NUL when the name fits the buffer. -/
theorem readName_ok (name : List Nat) (hname : ∀ c ∈ name, c ≠ 0) :
    ∀ (room : Nat) (rest acc : List Nat), name.length < room →
      readName room (name ++ 0 :: rest) acc = some (acc ++ name, rest) := by
  induction name with
  | nil =>
    intro room rest acc h
    obtain ⟨r, rfl⟩ : ∃ r, room = r + 1 := ⟨room - 1, by simp at h; omega⟩
    simp [readName]
  | cons c name ih =>
    intro room rest acc h
    obtain ⟨r, rfl⟩ : ∃ r, room = r + 1 := ⟨room - 1, by simp at h; omega⟩
    have hc : c ≠ 0 := hname c (List.mem_cons_self _ _)
    have hrest : ∀ d ∈ name, d ≠ 0 := fun d hd => hname d (List.mem_cons_of_mem _ hd)
    have := ih hrest r rest (acc ++ [c]) (by simpa using h)
    simpa [readName, hc] using this

/-- With both links of the root leading to the end-of-stream leaf and a fresh
byte due, `getuhuff` returns end-of-data whatever the input holds. -/
theorem getuhuff_empty_tree (s : Usq) (hb : 7 ≤ s.bpos)
    (hd : s.dnode 0 = (-(SPEOF + 1), -(SPEOF + 1))) : (getuhuff s).1 = EOF := by
  have hb1 : s.bpos + 1 > 7 := by omega
  unfold getuhuff
  rw [show 8 * s.ib.length + 8 = (8 * s.ib.length + 7) + 1 from rfl, getuhuffLoop]
  simp only [hb1, if_true]
  cases hib : s.ib with
  | nil => rfl
  | cons c ib =>
    have hl : childOf (s.dnode 0) ((c : Int) % 2) = -(SPEOF + 1) := by
      rw [hd]; unfold childOf; split <;> rfl
    have hneg : ¬ (-(SPEOF + 1) ≥ 0) := by decide
    simp only [hl, hneg, if_false]
    decide

/-- With both links of the root leading to the end-of-stream leaf, a fresh
byte due and no repetition pending, `getcr` returns end-of-data. -/
theorem getcr_empty_tree (s : Usq) (hb : 7 ≤ s.bpos) (hr : s.repct ≤ 0)
    (hd : s.dnode 0 = (-(SPEOF + 1), -(SPEOF + 1))) : (getcr s).1 = EOF := by
  have hg := getuhuff_empty_tree s hb hd
  have hr1 : ¬ s.repct > 0 := by omega
  have hne : (getuhuff s).1 ≠ DLE := by rw [hg]; decide
  have hed : ¬ (EOF = DLE) := by decide
  simp only [getcr, hr1, if_false, ne_eq, hne, not_false_eq_true, if_true, hg, hed]

/-- A call of `getcr` leaves the tree as it is. -/
theorem getcr_dnode (t : Usq) : (getcr t).2.dnode = t.dnode := by
  have k := getuhuffLoop_keeps (8 * t.ib.length + 8) 0 t
  have k2 := getuhuffLoop_keeps (8 * (getuhuff t).2.ib.length + 8) 0 (getuhuff t).2
  have e1 : (getuhuff t).2.dnode = t.dnode := k.2.2.2
  have e2 : (getuhuff (getuhuff t).2).2.dnode = t.dnode := k2.2.2.2.trans e1
  simp only [getcr]
  split_ifs <;> first | rfl | exact e1 | exact e2

/-- Claim C14.  For every squeezed file with node count 0 (any checksum word
`c0, c1`, any name that fits the name buffer, any payload) `unsqueeze`
returns with both root links set to the end-of-stream leaf, the first symbol
`getcr` returns from there is end-of-data, and the output file is created
empty. -/
theorem unsqueeze_empty_tree (uintBits c0 c1 : Nat) (name payload : List Nat) (s : Usq)
    (hname : ∀ c ∈ name, c ≠ 0) (hlen : name.length < 128) :
    ∃ r, unsqueeze uintBits
          (some ([0x76, 0xff, c0, c1] ++ name ++ [0] ++ [0x00, 0x00] ++ payload)) s = some r ∧
      r.st.dnode 0 = (-(SPEOF + 1), -(SPEOF + 1)) ∧
      (getcr { init_huff (init_cr { s with crc := 0 }) with
          dnode := setAt s.dnode 0 (-(SPEOF + 1), -(SPEOF + 1)), ib := payload }).1 = EOF ∧
      r.outfile = some (name, []) := by
  have hlist : [0x76, 0xff, c0, c1] ++ name ++ [0] ++ [0x00, 0x00] ++ payload =
      0x76 :: 0xff :: c0 :: c1 :: (name ++ 0 :: (0 :: 0 :: payload)) := by simp
  have hsig : ((0x76 : Nat) : Int) + 256 * ((0xff : Nat) : Int) = RECOGNIZE := by decide
  have hfirst : ∀ t : Usq, t.bpos = 99 → t.repct = 0 →
      t.dnode 0 = (-(SPEOF + 1), -(SPEOF + 1)) → (getcr t).1 = EOF := by
    intro t h1 h2 h3
    exact getcr_empty_tree t (by omega) (by omega) h3
  have hnum : ¬ ((0 : Int) < 0 ∨ (0 : Int) ≥ NUMVALS) := by decide
  have hfuel : ∀ n : Nat, (8 * n + 9) * 32768 = ((8 * n + 9) * 32768 - 1) + 1 := by
    intro n; omega
  unfold unsqueeze
  simp only [hlist, init_huff, init_cr, getx16, getw16, hsig, ne_eq, not_true_eq_false,
    if_false, readName_ok name hname 128 _ [] hlen, List.nil_append, Nat.cast_zero,
    mul_zero, add_zero, hnum, Int.toNat_zero, readTree]
  rw [hfuel, unsqueezeLoop]
  rw [if_pos (hfirst _ rfl rfl (by simp [setAt]))]
  refine ⟨_, rfl, ?_, hfirst _ rfl rfl (by simp [setAt]), rfl⟩
  simp only
  rw [getcr_dnode]
  simp [setAt]

/-- Claim C14 at the file with the checksum word 7, the name `a`, node count
0 and the payload `1, 2, 3`. -/
theorem unsqueeze_empty_tree_witness :
    (∀ c ∈ [0x61], c ≠ 0) ∧ [0x61].length < 128 ∧
      ∃ r, unsqueeze 16
            (some ([0x76, 0xff, 7, 0] ++ [0x61] ++ [0] ++ [0x00, 0x00] ++ [1, 2, 3])) usqInit =
          some r ∧
        r.st.dnode 0 = (-(SPEOF + 1), -(SPEOF + 1)) ∧
        (getcr { init_huff (init_cr { usqInit with crc := 0 }) with
            dnode := setAt usqInit.dnode 0 (-(SPEOF + 1), -(SPEOF + 1)), ib := [1, 2, 3] }).1 =
          EOF ∧
        r.outfile = some ([0x61], []) :=
  ⟨by decide, by decide,
    unsqueeze_empty_tree 16 7 0 [0x61] [1, 2, 3] usqInit (by decide) (by decide)⟩

/-! ## Lemmas on the uncruncher -/

/-- A byte is unchanged by the mask `0xff`. -/
theorem and_ff_of_lt (c : Nat) (h : c < 256) : c &&& 0xff = c :=
  Nat.and_pow_two_sub_one_of_lt_two_pow (n := 8) h

/-- One call of `send` keeps `cksum` equal to the sum of the bytes written,
modulo 65536. -/
theorem send_cksum (s : Lzw) (c : Nat) (hs : s.savec < 256)
    (h : s.cksum = s.outfd.sum % 65536) :
    (send s c).savec < 256 ∧ (send s c).cksum = (send s c).outfd.sum % 65536 := by
  have hc : c % 256 < 256 := Nat.mod_lt _ (by decide)
  unfold send
  simp only
  split
  · split
    · refine ⟨hs, ?_⟩
      simp only [List.sum_append, List.sum_replicate, smul_eq_mul, and_ff_of_lt _ hs, h]
      rw [Nat.mul_comm (c % 256 - 1) s.savec]
      omega
    · refine ⟨hs, ?_⟩
      simp only [List.sum_append, List.sum_cons, List.sum_nil, h]
      omega
  · split
    · exact ⟨hs, h⟩
    · refine ⟨hc, ?_⟩
      simp only [List.sum_append, List.sum_cons, List.sum_nil, and_ff_of_lt _ hc, h]
      omega

/-- Both operands of a bitwise or that is zero are zero. -/
theorem or_eq_zero_parts (a b : Nat) (h : a ||| b = 0) : a = 0 ∧ b = 0 := by
  have hb : ∀ i, (a.testBit i || b.testBit i) = false := by
    intro i
    rw [← Nat.testBit_or, h, Nat.zero_testBit]
  refine ⟨Nat.zero_of_testBit_eq_false fun i => ?_, Nat.zero_of_testBit_eq_false fun i => ?_⟩
  · have := hb i
    simp only [Bool.or_eq_false_iff] at this
    exact this.1
  · have := hb i
    simp only [Bool.or_eq_false_iff] at this
    exact this.2

/-- The mark keeps the table index of a predecessor field. -/
theorem or_referenced_and_fff (p : Nat) : (p ||| REFERENCED) &&& 0xfff = p &&& 0xfff := by
  have h : REFERENCED &&& 0xfff = 0 := by decide
  rw [Nat.and_comm, Nat.and_or_distrib_left, Nat.and_comm 0xfff REFERENCED, h, Nat.or_zero,
    Nat.and_comm]

/-- A predecessor field with the mark set reads as marked. -/
theorem or_referenced_and_referenced (p : Nat) : (p ||| REFERENCED) &&& REFERENCED ≠ 0 := by
  have h : REFERENCED &&& REFERENCED = REFERENCED := Nat.and_self _
  rw [Nat.and_comm, Nat.and_or_distrib_left, h]
  intro h0
  have := or_eq_zero_parts _ _ h0
  exact absurd this.2 (by decide)

/-- Setting the mark keeps a mark that is there. -/
theorem or_referenced_keeps (p q : Nat) (h : p &&& REFERENCED ≠ 0) :
    (p ||| q) &&& REFERENCED ≠ 0 := by
  rw [Nat.and_comm, Nat.and_or_distrib_left]
  intro h0
  have := or_eq_zero_parts _ _ h0
  rw [Nat.and_comm] at this
  exact h this.1

/-- A table index is unchanged by the mask `0xfff`. -/
theorem and_fff_of_lt (p : Nat) (h : p < 4096) : p &&& 0xfff = p :=
  Nat.and_pow_two_sub_one_of_lt_two_pow (n := 12) h

/-- A table index is unchanged by the mask `0xffff` and differs from
`EMPTY`. -/
theorem and_ffff_of_lt (p : Nat) (h : p ≤ 4096) : p &&& 0xffff = p ∧ p ≠ EMPTY := by
  refine ⟨Nat.and_pow_two_sub_one_of_lt_two_pow (n := 16) (by omega), ?_⟩
  unfold EMPTY
  omega

/-- The hash value is at least 1 and, for a suffix byte, at most 4096. -/
theorem hash_range (pred suff : Nat) (hs : suff < 256) :
    1 ≤ (hash pred suff).1 ∧ (hash pred suff).1 ≤ 4096 ∧
      (hash pred suff).2 = ((hash pred suff).1 : Int) - 5003 := by
  have h1 : ((pred >>> 4) &&& 0xff) < 2 ^ 12 :=
    Nat.lt_of_lt_of_le (Nat.and_lt_two_pow _ (n := 8) (by decide)) (by decide)
  have h2 : suff < 2 ^ 12 := by omega
  have h3 : ((pred >>> 4) &&& 0xff) ^^^ suff < 2 ^ 12 := Nat.xor_lt_two_pow h1 h2
  have h4 : (pred &&& 0xf) < 16 := Nat.and_lt_two_pow _ (n := 4) (by decide)
  have h5 : (pred &&& 0xf) <<< 8 < 2 ^ 12 := by
    rw [Nat.shiftLeft_eq]
    omega
  have h6 := Nat.or_lt_two_pow h3 h5
  have hx : (((pred >>> 4) &&& 0xff) ^^^ suff) < 2 ^ 8 :=
    Nat.xor_lt_two_pow (Nat.and_lt_two_pow _ (n := 8) (by decide)) (by omega)
  simp only [hash, XLATBL_SIZE]
  refine ⟨by omega, by omega, by push_cast; rfl⟩

/-- `send` changes nothing but `repeat_flag`, `savec`, `cksum` and the
output. -/
theorem send_frame (s : Lzw) (c : Nat) :
    (send s c).lzw_table = s.lzw_table ∧ (send s c).xlatbl = s.xlatbl ∧
      (send s c).codlen = s.codlen ∧ (send s c).trgmsk = s.trgmsk ∧
      (send s c).fulflg = s.fulflg ∧ (send s c).entry = s.entry ∧
      (send s c).entflg = s.entflg ∧ (send s c).finchar = s.finchar ∧
      (send s c).lastpr = s.lastpr ∧ (send s c).pred = s.pred := by
  unfold send
  simp only
  split_ifs <;> exact ⟨rfl, rfl, rfl, rfl, rfl, rfl, rfl, rfl, rfl, rfl⟩

/-- `sendList` changes nothing but `repeat_flag`, `savec`, `cksum` and the
output. -/
theorem sendList_frame (cs : List Nat) : ∀ s : Lzw,
    (sendList cs s).lzw_table = s.lzw_table ∧ (sendList cs s).xlatbl = s.xlatbl ∧
      (sendList cs s).codlen = s.codlen ∧ (sendList cs s).trgmsk = s.trgmsk ∧
      (sendList cs s).fulflg = s.fulflg ∧ (sendList cs s).entry = s.entry ∧
      (sendList cs s).entflg = s.entflg ∧ (sendList cs s).finchar = s.finchar ∧
      (sendList cs s).lastpr = s.lastpr ∧ (sendList cs s).pred = s.pred := by
  induction cs with
  | nil => intro s; exact ⟨rfl, rfl, rfl, rfl, rfl, rfl, rfl, rfl, rfl, rfl⟩
  | cons c cs ih =>
    intro s
    obtain ⟨a1, a2, a3, a4, a5, a6, a7, a8, a9, a10⟩ := ih (send s c)
    obtain ⟨b1, b2, b3, b4, b5, b6, b7, b8, b9, b10⟩ := send_frame s c
    exact ⟨a1.trans b1, a2.trans b2, a3.trans b3, a4.trans b4, a5.trans b5, a6.trans b6,
      a7.trans b7, a8.trans b8, a9.trans b9, a10.trans b10⟩

/-- The step along the hash chain stays inside `xlatbl` and adds the hash value
modulo `XLATBL_SIZE`. -/
theorem probeNext_range (p : Int) (h : Nat) (hp0 : 0 ≤ p) (hp1 : p < 5003) (h1 : 1 ≤ h)
    (h2 : h ≤ 4096) :
    0 ≤ probeNext p ((h : Int) - 5003) ∧ probeNext p ((h : Int) - 5003) < 5003 ∧
      (probeNext p ((h : Int) - 5003)).toNat = (p.toNat + h) % 5003 := by
  unfold probeNext XLATBL_SIZE
  simp only
  have hh : (1 : Int) ≤ (h : Int) ∧ (h : Int) ≤ 4096 := by omega
  split_ifs with hc
  · omega
  · omega

/-- The size of `xlatbl` is a prime number. -/
theorem prime_5003 : Nat.Prime 5003 := by norm_num

/-- The chain of slots `p, p + h, p + 2h, ...` (modulo `XLATBL_SIZE`) passes
`XLATBL_SIZE` different slots. -/
theorem probe_injective (p h : Nat) (h1 : 1 ≤ h) (h2 : h ≤ 4096) (j k : Nat) (hj : j < 5003)
    (hk : k < 5003) (e : (p + j * h) % 5003 = (p + k * h) % 5003) : j = k := by
  have hc : Nat.Coprime 5003 h :=
    (Nat.Prime.coprime_iff_not_dvd prime_5003).2 (Nat.not_dvd_of_pos_of_lt (by omega) (by omega))
  have e1 : p + j * h ≡ p + k * h [MOD 5003] := e
  have e2 : j * h ≡ k * h [MOD 5003] := Nat.ModEq.add_left_cancel' p e1
  have e3 : j ≡ k [MOD 5003] := Nat.ModEq.cancel_right_of_coprime hc e2
  have e4 : j % 5003 = k % 5003 := e3
  rw [Nat.mod_eq_of_lt hj, Nat.mod_eq_of_lt hk] at e4
  exact e4

/-- With fewer used slots than `xlatbl` has, every chain of slots meets an
empty slot within `XLATBL_SIZE` steps. -/
theorem probe_exists (x : Nat → Nat) (hx : usedSlots x ≤ 4096) (p h : Nat) (h1 : 1 ≤ h)
    (h2 : h ≤ 4096) : ∃ j, j < 5003 ∧ x ((p + j * h) % 5003) = EMPTY := by
  by_contra hne
  have hall : ∀ j, j < 5003 → x ((p + j * h) % 5003) ≠ EMPTY := by
    intro j hj he
    exact hne ⟨j, hj, he⟩
  have hle : (Finset.range 5003).card ≤
      ((Finset.range XLATBL_SIZE).filter (fun i => x i ≠ EMPTY)).card := by
    apply Finset.card_le_card_of_injOn (fun j => (p + j * h) % 5003)
    · intro j hj
      simp only [Finset.mem_range] at hj
      simp only [Finset.mem_filter, Finset.mem_range, XLATBL_SIZE]
      exact ⟨Nat.mod_lt _ (by decide), hall j hj⟩
    · intro j hj k hk e
      simp only [Finset.coe_range, Set.mem_Iio] at hj hk
      exact probe_injective p h h1 h2 j k hj hk e
  rw [Finset.card_range] at hle
  unfold usedSlots at hx
  omega

/-- The loop of `figure` finds the first empty slot of its chain when there is
one within the bound. -/
theorem figureLoop_finds (x : Nat → Nat) (h : Nat) (h1 : 1 ≤ h) (h2 : h ≤ 4096) :
    ∀ (fuel : Nat) (p : Int), 0 ≤ p → p < 5003 →
      (∃ j, j < fuel ∧ x ((p.toNat + j * h) % 5003) &&& 0xffff = EMPTY) →
      ∃ q : Int, figureLoop x ((h : Int) - 5003) fuel p = some q ∧ 0 ≤ q ∧ q < 5003 ∧
        x q.toNat &&& 0xffff = EMPTY := by
  intro fuel
  induction fuel with
  | zero => intro p _ _ hj; obtain ⟨j, hj, _⟩ := hj; omega
  | succ fuel ih =>
    intro p hp0 hp1 hj
    obtain ⟨j, hjlt, hje⟩ := hj
    simp only [figureLoop]
    by_cases hs : x p.toNat &&& 0xffff = EMPTY
    · simp only [hs, ne_eq, not_true_eq_false, if_false]
      exact ⟨p, rfl, hp0, hp1, hs⟩
    · simp only [ne_eq, hs, not_false_eq_true, if_true]
      obtain ⟨r0, r1, r2⟩ := probeNext_range p h hp0 hp1 h1 h2
      have hj0 : j ≠ 0 := by
        intro h0
        subst h0
        have : (p.toNat + 0 * h) % 5003 = p.toNat := by
          rw [Nat.zero_mul, Nat.add_zero]
          exact Nat.mod_eq_of_lt (by omega)
        rw [this] at hje
        exact hs hje
      obtain ⟨k, rfl⟩ : ∃ k, j = k + 1 := ⟨j - 1, by omega⟩
      apply ih _ r0 r1
      refine ⟨k, by omega, ?_⟩
      rw [r2, Nat.mod_add_mod]
      have : p.toNat + h + k * h = p.toNat + (k + 1) * h := by ring
      rw [this]
      exact hje

/-- The loop of `figure` depends only on the slots inside `xlatbl`. -/
theorem figureLoop_agree (x y : Nat → Nat) (hxy : ∀ i, i < 5003 → x i = y i) (h : Nat)
    (h1 : 1 ≤ h) (h2 : h ≤ 4096) :
    ∀ (fuel : Nat) (p : Int), 0 ≤ p → p < 5003 →
      figureLoop x ((h : Int) - 5003) fuel p = figureLoop y ((h : Int) - 5003) fuel p := by
  intro fuel
  induction fuel with
  | zero => intro p _ _; rfl
  | succ fuel ih =>
    intro p hp0 hp1
    obtain ⟨r0, r1, _⟩ := probeNext_range p h hp0 hp1 h1 h2
    simp only [figureLoop]
    rw [hxy p.toNat (by omega), ih _ r0 r1]

/-- What a successful call of `enterx` does to the state. -/
theorem enterx_some (s s1 : Lzw) (pred suff : Nat) (h : enterx s pred suff = some s1) :
    (∃ q : Int, figureLoop s.xlatbl (hash pred suff).2 XLATBL_SIZE ((hash pred suff).1 : Int) =
          some q ∧ s1.xlatbl = setAt s.xlatbl q.toNat s.entry) ∧
      s1.lzw_table = setAt s.lzw_table s.entry { predecessor := pred, suffix := suff % 256 } ∧
      s1.entry = s.entry + 1 ∧ s1.entflg = s.entflg ∧ s1.finchar = s.finchar ∧
      s1.lastpr = s.lastpr ∧ s1.pred = s.pred ∧
      (s.entry + 1 < s.trgmsk →
        s1.codlen = s.codlen ∧ s1.trgmsk = s.trgmsk ∧ s1.fulflg = s.fulflg) ∧
      (s.entry + 1 ≥ s.trgmsk → s.codlen < 12 →
        s1.codlen = s.codlen + 1 ∧ s1.trgmsk = (s.trgmsk <<< 1) ||| 1 ∧ s1.fulflg = s.fulflg) ∧
      (s.entry + 1 ≥ s.trgmsk → ¬ s.codlen < 12 →
        s1.codlen = s.codlen ∧ s1.trgmsk = s.trgmsk ∧ s1.fulflg = s.fulflg + 1) := by
  unfold enterx figure at h
  simp only at h
  cases hf : figureLoop s.xlatbl (hash pred suff).2 XLATBL_SIZE ((hash pred suff).1 : Int) with
  | none => simp [hf] at h
  | some q =>
    simp only [hf] at h
    by_cases c1 : s.entry + 1 ≥ s.trgmsk
    · by_cases c2 : s.codlen < 12
      · simp only [c1, c2, if_true, Option.some.injEq] at h
        subst h
        exact ⟨⟨q, rfl, rfl⟩, rfl, rfl, rfl, rfl, rfl, rfl, fun h => absurd c1 (by omega),
          fun _ _ => ⟨rfl, rfl, rfl⟩, fun _ h => absurd c2 h⟩
      · simp only [c1, c2, if_true, if_false, Option.some.injEq] at h
        subst h
        exact ⟨⟨q, rfl, rfl⟩, rfl, rfl, rfl, rfl, rfl, rfl, fun h => absurd c1 (by omega),
          fun _ h => absurd h c2, fun _ _ => ⟨rfl, rfl, rfl⟩⟩
    · simp only [c1, if_false, Option.some.injEq] at h
      subst h
      exact ⟨⟨q, rfl, rfl⟩, rfl, rfl, rfl, rfl, rfl, rfl, fun _ => ⟨rfl, rfl, rfl⟩,
        fun h => absurd h c1, fun h => absurd h c1⟩

/-- `enterx` returns when the loop of `figure` finds a slot. -/
theorem enterx_isSome (s : Lzw) (pred suff : Nat) (q : Int)
    (hf : figureLoop s.xlatbl (hash pred suff).2 XLATBL_SIZE ((hash pred suff).1 : Int) = some q) :
    ∃ s1, enterx s pred suff = some s1 := by
  unfold enterx figure
  simp only [hf]
  split_ifs <;> exact ⟨_, rfl⟩

/-- A successful `enterx` with a suffix byte keeps the slot invariant: it
fills one empty slot with the old value of `entry`. -/
theorem enterx_slots (s s1 : Lzw) (pred suff : Nat) (h : enterx s pred suff = some s1)
    (hs : suff < 256) (hsl : SlotsInv s) (he : s.entry ≤ 4096) : SlotsInv s1 := by
  obtain ⟨⟨q, hq, hx⟩, _, hent, _⟩ := enterx_some s s1 pred suff h
  obtain ⟨g1, g2, g3⟩ := hash_range pred suff hs
  obtain ⟨hval, hcnt⟩ := hsl
  have hE : EMPTY &&& 0xffff = EMPTY := by decide
  obtain ⟨j, hj, hje⟩ := probe_exists s.xlatbl (by rw [hcnt]; exact he) (hash pred suff).1
    (hash pred suff).1 g1 g2
  have hstart : ((hash pred suff).1 : Int).toNat = (hash pred suff).1 := Int.toNat_natCast _
  obtain ⟨q1, hq1, r0, r1, r2⟩ := figureLoop_finds s.xlatbl (hash pred suff).1 g1 g2 5003
    ((hash pred suff).1 : Int) (by omega) (by omega)
    ⟨j, hj, by rw [hstart, hje]; exact hE⟩
  rw [g3] at hq
  have hqq : q = q1 := by
    have : some q = some q1 := by rw [← hq, ← hq1]; rfl
    exact Option.some.inj this
  subst hqq
  have hqlt : q.toNat < 5003 := by omega
  have hqE : s.xlatbl q.toNat = EMPTY := by
    rcases hval q.toNat hqlt with h0 | h0
    · exact h0
    · obtain ⟨a1, a2⟩ := and_ffff_of_lt (s.xlatbl q.toNat) (by omega)
      rw [a1] at r2
      exact absurd r2 a2
  have hne : s.entry ≠ EMPTY := by unfold EMPTY; omega
  refine ⟨?_, ?_⟩
  · intro i hi
    rw [hx, hent]
    simp only [setAt]
    by_cases hiq : i = q.toNat
    · simp only [hiq, if_true]
      right
      omega
    · simp only [hiq, if_false]
      rcases hval i hi with h0 | h0
      · exact Or.inl h0
      · exact Or.inr (by omega)
  · rw [hent, ← hcnt, hx]
    unfold usedSlots
    have hset : (Finset.range XLATBL_SIZE).filter (fun i => setAt s.xlatbl q.toNat s.entry i ≠ EMPTY) =
        insert q.toNat ((Finset.range XLATBL_SIZE).filter (fun i => s.xlatbl i ≠ EMPTY)) := by
      ext i
      simp only [Finset.mem_filter, Finset.mem_range, Finset.mem_insert, setAt, XLATBL_SIZE]
      by_cases hiq : i = q.toNat
      · subst hiq
        simp [hne, hqlt]
      · simp [hiq]
    rw [hset, Finset.card_insert_of_not_mem]
    simp only [Finset.mem_filter, Finset.mem_range, not_and, not_not]
    intro _
    exact hqE

/-- `enterx` with a suffix byte returns as long as the slot invariant
holds. -/
theorem enterx_exists (s : Lzw) (pred suff : Nat) (hs : suff < 256) (hsl : SlotsInv s)
    (he : s.entry ≤ 4096) : ∃ s1, enterx s pred suff = some s1 := by
  obtain ⟨g1, g2, g3⟩ := hash_range pred suff hs
  obtain ⟨hval, hcnt⟩ := hsl
  have hE : EMPTY &&& 0xffff = EMPTY := by decide
  obtain ⟨j, hj, hje⟩ := probe_exists s.xlatbl (by rw [hcnt]; exact he) (hash pred suff).1
    (hash pred suff).1 g1 g2
  have hstart : ((hash pred suff).1 : Int).toNat = (hash pred suff).1 := Int.toNat_natCast _
  obtain ⟨q1, hq1, _⟩ := figureLoop_finds s.xlatbl (hash pred suff).1 g1 g2 5003
    ((hash pred suff).1 : Int) (by omega) (by omega)
    ⟨j, hj, by rw [hstart, hje]; exact hE⟩
  exact enterx_isSome s pred suff q1 (by rw [g3]; exact hq1)

/-- `enterx` acts in the same way on two states that agree. -/
theorem enterx_agree (a b b1 : Lzw) (pred suff : Nat) (hs : suff < 256) (hab : Agree a b)
    (h : enterx b pred suff = some b1) : ∃ a1, enterx a pred suff = some a1 ∧ Agree a1 b1 := by
  obtain ⟨g1, g2, g3⟩ := hash_range pred suff hs
  obtain ⟨hx, he, hc, ht, hf, htb⟩ := hab
  obtain ⟨⟨q, hq, bx⟩, btb, bent, _, _, _, _, bw1, bw2, bw3⟩ := enterx_some b b1 pred suff h
  have hqa : figureLoop a.xlatbl (hash pred suff).2 XLATBL_SIZE ((hash pred suff).1 : Int) =
      some q := by
    rw [← hq, g3]
    exact figureLoop_agree a.xlatbl b.xlatbl hx (hash pred suff).1 g1 g2 5003 _ (by omega)
      (by omega)
  obtain ⟨a1, ha1⟩ := enterx_isSome a pred suff q hqa
  obtain ⟨⟨q2, hq2, ax⟩, atb, aent, _, _, _, _, aw1, aw2, aw3⟩ := enterx_some a a1 pred suff ha1
  have hqq : q2 = q := by
    have : some q2 = some q := by rw [← hq2, ← hqa]
    exact Option.some.inj this
  subst hqq
  refine ⟨a1, ha1, ?_, ?_, ?_, ?_, ?_, ?_⟩
  · intro i hi
    rw [ax, bx, he]
    simp only [setAt]
    split
    · rfl
    · exact hx i hi
  · rw [aent, bent, he]
  all_goals first
    | (by_cases c1 : a.entry + 1 < a.trgmsk
       · have c1b : b.entry + 1 < b.trgmsk := by rw [← he, ← ht]; exact c1
         rw [(aw1 c1).1, (bw1 c1b).1, hc]
       · by_cases c2 : a.codlen < 12
         · have c1b : b.entry + 1 ≥ b.trgmsk := by rw [← he, ← ht]; omega
           have c2b : b.codlen < 12 := by rw [← hc]; exact c2
           rw [(aw2 (by omega) c2).1, (bw2 c1b c2b).1, hc]
         · have c1b : b.entry + 1 ≥ b.trgmsk := by rw [← he, ← ht]; omega
           have c2b : ¬ b.codlen < 12 := by rw [← hc]; exact c2
           rw [(aw3 (by omega) c2).1, (bw3 c1b c2b).1, hc])
    | (by_cases c1 : a.entry + 1 < a.trgmsk
       · have c1b : b.entry + 1 < b.trgmsk := by rw [← he, ← ht]; exact c1
         rw [(aw1 c1).2.1, (bw1 c1b).2.1, ht]
       · by_cases c2 : a.codlen < 12
         · have c1b : b.entry + 1 ≥ b.trgmsk := by rw [← he, ← ht]; omega
           have c2b : b.codlen < 12 := by rw [← hc]; exact c2
           rw [(aw2 (by omega) c2).2.1, (bw2 c1b c2b).2.1, ht]
         · have c1b : b.entry + 1 ≥ b.trgmsk := by rw [← he, ← ht]; omega
           have c2b : ¬ b.codlen < 12 := by rw [← hc]; exact c2
           rw [(aw3 (by omega) c2).2.1, (bw3 c1b c2b).2.1, ht])
    | (by_cases c1 : a.entry + 1 < a.trgmsk
       · have c1b : b.entry + 1 < b.trgmsk := by rw [← he, ← ht]; exact c1
         rw [(aw1 c1).2.2, (bw1 c1b).2.2, hf]
       · by_cases c2 : a.codlen < 12
         · have c1b : b.entry + 1 ≥ b.trgmsk := by rw [← he, ← ht]; omega
           have c2b : b.codlen < 12 := by rw [← hc]; exact c2
           rw [(aw2 (by omega) c2).2.2, (bw2 c1b c2b).2.2, hf]
         · have c1b : b.entry + 1 ≥ b.trgmsk := by rw [← he, ← ht]; omega
           have c2b : ¬ b.codlen < 12 := by rw [← hc]; exact c2
           rw [(aw3 (by omega) c2).2.2, (bw3 c1b c2b).2.2, hf])
    | (intro i hi
       rw [atb, btb, he]
       simp only [setAt]
       split
       · rfl
       · exact htb i (by rw [aent] at hi; omega))

/-- An option that is `some` is `some` of its `getD`. -/
theorem some_getD_of_isSome {α : Type} (o : Option α) (d : α) (h : o.isSome = true) :
    o = some (o.getD d) := by
  cases o with
  | none => simp at h
  | some v => rfl

/-- What a successful run of the atomic loop of `initb2` does besides the
table and the slots. -/
theorem initb2Atomic_frame : ∀ (k i : Nat) (s s1 : Lzw), initb2Atomic k i s = some s1 →
    i + k ≤ 256 → SlotsInv s → s.entry + k ≤ 4096 →
    s1.entry = s.entry + k ∧ s1.entflg = s.entflg ∧ s1.finchar = s.finchar ∧
      s1.lastpr = s.lastpr ∧ s1.pred = s.pred ∧ SlotsInv s1 := by
  intro k
  induction k with
  | zero =>
    intro i s s1 h _ hsl _
    simp only [initb2Atomic, Option.some.injEq] at h
    subst h
    exact ⟨rfl, rfl, rfl, rfl, rfl, hsl⟩
  | succ k ih =>
    intro i s s1 h hi hsl he
    simp only [initb2Atomic] at h
    cases hx : enterx s NOPRED i with
    | none => simp [hx] at h
    | some s2 =>
      simp only [hx] at h
      obtain ⟨_, _, e1, e2, e3, e4, e5, _⟩ := enterx_some s s2 NOPRED i hx
      have hsl2 := enterx_slots s s2 NOPRED i hx (by omega) hsl (by omega)
      obtain ⟨f1, f2, f3, f4, f5, f6⟩ := ih (i + 1) s2 s1 h (by omega) hsl2 (by omega)
      exact ⟨by omega, f2.trans e2, f3.trans e3, f4.trans e4, f5.trans e5, f6⟩

/-- What a successful run of the reserved loop of `initb2` does besides the
table and the slots. -/
theorem initb2Reserved_frame : ∀ (k : Nat) (s s1 : Lzw), initb2Reserved k s = some s1 →
    SlotsInv s → s.entry + k ≤ 4096 →
    s1.entry = s.entry + k ∧ s1.entflg = s.entflg ∧ s1.finchar = s.finchar ∧
      s1.lastpr = s.lastpr ∧ s1.pred = s.pred ∧ SlotsInv s1 := by
  intro k
  induction k with
  | zero =>
    intro s s1 h hsl _
    simp only [initb2Reserved, Option.some.injEq] at h
    subst h
    exact ⟨rfl, rfl, rfl, rfl, rfl, hsl⟩
  | succ k ih =>
    intro s s1 h hsl he
    simp only [initb2Reserved] at h
    cases hx : enterx s IMPRED 0 with
    | none => simp [hx] at h
    | some s2 =>
      simp only [hx] at h
      obtain ⟨_, _, e1, e2, e3, e4, e5, _⟩ := enterx_some s s2 IMPRED 0 hx
      have hsl2 := enterx_slots s s2 IMPRED 0 hx (by omega) hsl (by omega)
      obtain ⟨f1, f2, f3, f4, f5, f6⟩ := ih s2 s1 h hsl2 (by omega)
      exact ⟨by omega, f2.trans e2, f3.trans e3, f4.trans e4, f5.trans e5, f6⟩

/-- The atomic loop of `initb2` acts in the same way on states that agree. -/
theorem initb2Atomic_agree : ∀ (k i : Nat) (a b b1 : Lzw), i + k ≤ 256 → Agree a b →
    initb2Atomic k i b = some b1 → ∃ a1, initb2Atomic k i a = some a1 ∧ Agree a1 b1 := by
  intro k
  induction k with
  | zero =>
    intro i a b b1 _ hab h
    simp only [initb2Atomic, Option.some.injEq] at h
    subst h
    exact ⟨a, rfl, hab⟩
  | succ k ih =>
    intro i a b b1 hi hab h
    simp only [initb2Atomic] at h
    cases hx : enterx b NOPRED i with
    | none => simp [hx] at h
    | some b2 =>
      simp only [hx] at h
      obtain ⟨a2, ha2, hab2⟩ := enterx_agree a b b2 NOPRED i (by omega) hab hx
      obtain ⟨a1, ha1, hab1⟩ := ih (i + 1) a2 b2 b1 (by omega) hab2 h
      exact ⟨a1, by simp only [initb2Atomic, ha2]; exact ha1, hab1⟩

/-- The reserved loop of `initb2` acts in the same way on states that
agree. -/
theorem initb2Reserved_agree : ∀ (k : Nat) (a b b1 : Lzw), Agree a b →
    initb2Reserved k b = some b1 → ∃ a1, initb2Reserved k a = some a1 ∧ Agree a1 b1 := by
  intro k
  induction k with
  | zero =>
    intro a b b1 hab h
    simp only [initb2Reserved, Option.some.injEq] at h
    subst h
    exact ⟨a, rfl, hab⟩
  | succ k ih =>
    intro a b b1 hab h
    simp only [initb2Reserved] at h
    cases hx : enterx b IMPRED 0 with
    | none => simp [hx] at h
    | some b2 =>
      simp only [hx] at h
      obtain ⟨a2, ha2, hab2⟩ := enterx_agree a b b2 IMPRED 0 (by omega) hab hx
      obtain ⟨a1, ha1, hab1⟩ := ih a2 b2 b1 hab2 h
      exact ⟨a1, by simp only [initb2Reserved, ha2]; exact ha1, hab1⟩

/-- The slot invariant holds for a cleared `xlatbl` and `entry = 0`. -/
theorem slots_cleared (s : Lzw) (he : s.entry = 0) :
    SlotsInv { s with xlatbl := fun i => if i < XLATBL_SIZE then EMPTY else s.xlatbl i } := by
  refine ⟨fun i hi => Or.inl (by simp [hi]), ?_⟩
  unfold usedSlots
  rw [he, Finset.card_eq_zero, Finset.filter_eq_empty_iff]
  intro i hi
  simp only [Finset.mem_range] at hi
  simp [hi]

/-- `initb2` gives the same table, slots and widths from any two states with
`entry = 0` and equal width, mask and full flag; it changes none of `entflg`,
`finchar`, `lastpr` and `pred`, and it establishes the slot invariant. -/
theorem initb2_agree (a b b1 : Lzw) (ha : a.entry = 0) (hb : b.entry = 0)
    (hc : a.codlen = b.codlen) (ht : a.trgmsk = b.trgmsk) (hf : a.fulflg = b.fulflg)
    (h : initb2 b = some b1) :
    ∃ a1, initb2 a = some a1 ∧ Agree a1 b1 ∧ a1.entry = 260 ∧ a1.entflg = a.entflg ∧
      a1.finchar = a.finchar ∧ a1.lastpr = a.lastpr ∧ a1.pred = a.pred ∧ SlotsInv a1 := by
  unfold initb2 at h
  obtain ⟨b2, hx, h⟩ := Option.bind_eq_some.mp h
  have hab : Agree { a with xlatbl := fun i => if i < XLATBL_SIZE then EMPTY else a.xlatbl i }
      { b with xlatbl := fun i => if i < XLATBL_SIZE then EMPTY else b.xlatbl i } := by
    refine ⟨fun i hi => by simp [hi], by rw [ha, hb], hc, ht, hf, fun i hi => ?_⟩
    simp only [ha] at hi
    omega
  obtain ⟨a2, ha2, hab2⟩ := initb2Atomic_agree 0x100 0 _ _ b2 (by omega) hab hx
  obtain ⟨a1, ha1, hab1⟩ := initb2Reserved_agree 4 a2 b2 b1 hab2 h
  obtain ⟨f1, f2, f3, f4, f5, f6⟩ := initb2Atomic_frame 0x100 0 _ a2 ha2 (by omega)
    (slots_cleared a ha) (by simp only [ha]; omega)
  obtain ⟨g1, g2, g3, g4, g5, g6⟩ := initb2Reserved_frame 4 a2 a1 ha1 f6
    (by rw [f1]; simp only [ha]; omega)
  refine ⟨a1, ?_, hab1, ?_, g2.trans f2, g3.trans f3, g4.trans f4, g5.trans f5, g6⟩
  · unfold initb2
    exact Option.bind_eq_some.mpr ⟨a2, ha2, ha1⟩
  · rw [g1, f1]
    simp only [ha]

/-- The setup in a program that has just started succeeds. -/
theorem lzwStart_eq : uncrunchSetup lzwInit = some lzwStart :=
  some_getD_of_isSome _ _ (by decide)

/-- The widths and the fixed part of the table after the setup. -/
theorem lzwStart_facts :
    lzwStart.entry = 260 ∧ lzwStart.codlen = 9 ∧ lzwStart.trgmsk = 0x1ff ∧ lzwStart.fulflg = 0 ∧
      (∀ a, a < 256 → lzwStart.lzw_table a = { predecessor := NOPRED, suffix := a }) ∧
      (∀ i, i < 260 → 256 ≤ i → lzwStart.lzw_table i = { predecessor := IMPRED, suffix := 0 }) := by
  refine ⟨by decide, by decide, by decide, by decide, by decide, by decide⟩

/-- From any state with `entry = 0`, width 9, mask `0x1ff` and full flag 0,
`initb2` returns and agrees with the state after the setup. -/
theorem initb2_start (a : Lzw) (ha : a.entry = 0) (hc : a.codlen = 9) (ht : a.trgmsk = 0x1ff)
    (hf : a.fulflg = 0) :
    ∃ a1, initb2 a = some a1 ∧ Agree a1 lzwStart ∧ a1.entry = 260 ∧ a1.entflg = a.entflg ∧
      a1.finchar = a.finchar ∧ a1.lastpr = a.lastpr ∧ a1.pred = a.pred ∧ SlotsInv a1 :=
  initb2_agree a { intram lzwInit with outfd := [], pred := NOPRED } lzwStart ha rfl
    (by rw [hc]; rfl) (by rw [ht]; rfl) (by rw [hf]; rfl) lzwStart_eq

/-- The reset code in any state: `initb2` runs and ends in a state that agrees
with the state after the first setup. -/
theorem reset_start (s : Lzw) :
    ∃ s1, uncrunchCode s RSTCOD = some s1 ∧ Agree s1 lzwStart ∧ s1.entry = 260 ∧
      s1.entflg = 1 ∧ s1.pred = NOPRED ∧ SlotsInv s1 := by
  obtain ⟨a1, h1, h2, h3, h4, _, _, h7, h8⟩ := initb2_start
    { s with lastpr := s.pred, pred := NOPRED, entry := 0, fulflg := 0, codlen := 9,
             trgmsk := 0x1ff, entflg := 1 } rfl rfl rfl rfl
  refine ⟨a1, ?_, h2, h3, h4, h7, h8⟩
  simp only [uncrunchCode, if_true]
  exact h1

/-- The setup in any state: `initb2` runs and ends in a state that agrees with
the state after the first setup. -/
theorem setup_start (s : Lzw) :
    ∃ s1, uncrunchSetup s = some s1 ∧ Agree s1 lzwStart ∧ s1.entry = 260 ∧
      s1.entflg = 1 ∧ s1.pred = NOPRED ∧ SlotsInv s1 := by
  obtain ⟨a1, h1, h2, h3, h4, _, _, h7, h8⟩ := initb2_start
    { intram s with outfd := [], pred := NOPRED } rfl rfl rfl rfl
  exact ⟨a1, h1, h2, h3, h4, h7, h8⟩

/-- A state that agrees with the state after the first setup has the width
relation. -/
theorem agree_start_width (s : Lzw) (h : Agree s lzwStart) : WidthInv s := by
  obtain ⟨_, e1, e2, e3, e4, _⟩ := h
  obtain ⟨f1, f2, f3, f4, _, _⟩ := lzwStart_facts
  rw [f1] at e1
  rw [f2] at e2
  rw [f3] at e3
  rw [f4] at e4
  unfold WidthInv
  rw [e1, e2, e3, e4]
  decide

/-- The function `enterx` keeps the width relation while the table is not
full. -/
theorem enterx_width (s s1 : Lzw) (pred suff : Nat) (h : enterx s pred suff = some s1)
    (hw : WidthInv s) (hf : s.fulflg ≠ 2) : WidthInv s1 := by
  obtain ⟨_, _, e1, _, _, _, _, c1, c2, c3⟩ := enterx_some s s1 pred suff h
  obtain ⟨w1, w2, w3, w4, w5, w6, w7, w8, w9, w10, w11, w12⟩ := hw
  have he : s.entry < 4096 := by
    by_contra hc
    exact hf (w12 (by omega))
  have hcl : s.codlen = 9 ∨ s.codlen = 10 ∨ s.codlen = 11 ∨ s.codlen = 12 := by omega
  unfold WidthInv
  rcases hcl with hcl | hcl | hcl | hcl
  · rw [hcl] at w1
    have ht : s.trgmsk = 511 := by rw [w1]; rfl
    by_cases hlt : s.entry + 1 < s.trgmsk
    · obtain ⟨d1, d2, d3⟩ := c1 hlt
      rw [d1, d2, d3, e1, hcl, ht]
      refine ⟨by decide, by omega, by omega, by omega, by omega, by omega, by omega, by omega,
        by omega, by omega, by omega, by omega⟩
    · obtain ⟨d1, d2, d3⟩ := c2 (by omega) (by omega)
      rw [d1, d2, d3, e1, hcl, ht]
      refine ⟨by decide, by omega, by omega, by omega, by omega, by omega, by omega, by omega,
        by omega, by omega, by omega, by omega⟩
  · rw [hcl] at w1
    have ht : s.trgmsk = 1023 := by rw [w1]; rfl
    by_cases hlt : s.entry + 1 < s.trgmsk
    · obtain ⟨d1, d2, d3⟩ := c1 hlt
      rw [d1, d2, d3, e1, hcl, ht]
      refine ⟨by decide, by omega, by omega, by omega, by omega, by omega, by omega, by omega,
        by omega, by omega, by omega, by omega⟩
    · obtain ⟨d1, d2, d3⟩ := c2 (by omega) (by omega)
      rw [d1, d2, d3, e1, hcl, ht]
      refine ⟨by decide, by omega, by omega, by omega, by omega, by omega, by omega, by omega,
        by omega, by omega, by omega, by omega⟩
  · rw [hcl] at w1
    have ht : s.trgmsk = 2047 := by rw [w1]; rfl
    by_cases hlt : s.entry + 1 < s.trgmsk
    · obtain ⟨d1, d2, d3⟩ := c1 hlt
      rw [d1, d2, d3, e1, hcl, ht]
      refine ⟨by decide, by omega, by omega, by omega, by omega, by omega, by omega, by omega,
        by omega, by omega, by omega, by omega⟩
    · obtain ⟨d1, d2, d3⟩ := c2 (by omega) (by omega)
      rw [d1, d2, d3, e1, hcl, ht]
      refine ⟨by decide, by omega, by omega, by omega, by omega, by omega, by omega, by omega,
        by omega, by omega, by omega, by omega⟩
  · rw [hcl] at w1
    have ht : s.trgmsk = 4095 := by rw [w1]; rfl
    by_cases hlt : s.entry + 1 < s.trgmsk
    · obtain ⟨d1, d2, d3⟩ := c1 hlt
      rw [d1, d2, d3, e1, hcl, ht]
      refine ⟨by decide, by omega, by omega, by omega, by omega, by omega, by omega, by omega,
        by omega, by omega, by omega, by omega⟩
    · obtain ⟨d1, d2, d3⟩ := c3 (by omega) (by omega)
      rw [d1, d2, d3, e1, hcl, ht]
      refine ⟨by decide, by omega, by omega, by omega, by omega, by omega, by omega, by omega,
        by omega, by omega, by omega, by omega⟩

/-- What a successful call of `decode` does: the `enterx` of the exceptional
case, the mark, the walk, and the bytes sent. -/
theorem decode_some (s s1 : Lzw) (code : Nat) (h : decode s code = some s1) :
    ∃ sA a stack,
      (if code ≥ s.entry then enterx { s with entflg := 1 } s.lastpr s.finchar else some s) =
          some sA ∧
        decodeWalk (markTable sA.lzw_table code) TABLE_SIZE code [] = some (a, stack) ∧
        s1 = sendList ((((markTable sA.lzw_table code) a).suffix &&& 0xff) :: stack)
          { sA with
            lzw_table := markTable sA.lzw_table code
            finchar := ((markTable sA.lzw_table code) a).suffix &&& 0xff } := by
  unfold decode at h
  simp only at h
  split at h
  · exact absurd h (by simp)
  · rename_i sA hA
    split at h
    · exact absurd h (by simp)
    · rename_i a stack hw
      refine ⟨sA, a, stack, hA, hw, ?_⟩
      simp only [Option.some.injEq] at h
      exact h.symm

/-- A call of `decode` returns once its `enterx` and its walk do. -/
theorem decode_of (s sA : Lzw) (code a : Nat) (stack : List Nat)
    (hA : (if code ≥ s.entry then enterx { s with entflg := 1 } s.lastpr s.finchar else some s) =
      some sA)
    (hw : decodeWalk (markTable sA.lzw_table code) TABLE_SIZE code [] = some (a, stack)) :
    decode s code = some (sendList ((((markTable sA.lzw_table code) a).suffix &&& 0xff) :: stack)
      { sA with
        lzw_table := markTable sA.lzw_table code
        finchar := ((markTable sA.lzw_table code) a).suffix &&& 0xff }) := by
  unfold decode
  simp only
  rw [hA]
  simp only
  unfold markTable at hw
  rw [hw]
  rfl

/-- The width relation depends on four variables only. -/
theorem widthInv_congr (a b : Lzw) (h1 : b.codlen = a.codlen) (h2 : b.trgmsk = a.trgmsk)
    (h3 : b.fulflg = a.fulflg) (h4 : b.entry = a.entry) (h : WidthInv a) : WidthInv b := by
  unfold WidthInv at h ⊢
  rw [h1, h2, h3, h4]
  exact h

/-- The variables a successful `decode` leaves as they are, or as the `enterx`
of the exceptional case left them. -/
theorem decode_fields (s s1 : Lzw) (code : Nat) (h : decode s code = some s1) :
    ∃ sA,
      (if code ≥ s.entry then enterx { s with entflg := 1 } s.lastpr s.finchar else some s) =
          some sA ∧
        s1.codlen = sA.codlen ∧ s1.trgmsk = sA.trgmsk ∧ s1.fulflg = sA.fulflg ∧
        s1.entry = sA.entry ∧ s1.entflg = sA.entflg ∧ s1.lastpr = sA.lastpr ∧
        s1.pred = sA.pred ∧ s1.xlatbl = sA.xlatbl := by
  obtain ⟨sA, a, stack, hA, _, hs⟩ := decode_some s s1 code h
  obtain ⟨_, f2, f3, f4, f5, f6, f7, _, f9, f10⟩ := sendList_frame
    ((((markTable sA.lzw_table code) a).suffix &&& 0xff) :: stack)
    { sA with
      lzw_table := markTable sA.lzw_table code
      finchar := ((markTable sA.lzw_table code) a).suffix &&& 0xff }
  rw [← hs] at f2 f3 f4 f5 f6 f7 f9 f10
  exact ⟨sA, hA, f3, f4, f5, f6, f7, f9, f10, f2⟩

/-- The loop of `entfil` returns when its chain has an empty slot within the
bound, and it changes at most one table entry: an entry that a used slot names
and that does not carry the mark `REFERENCED`. -/
theorem entfilLoop_some (s : Lzw) (pred suff : Nat) (h : Nat) (h1 : 1 ≤ h) (h2 : h ≤ 4096) :
    ∀ (fuel : Nat) (p : Int), 0 ≤ p → p < 5003 →
      (∃ j, j < fuel ∧ s.xlatbl ((p.toNat + j * h) % 5003) = EMPTY) →
      ∃ s1, entfilLoop s pred suff ((h : Int) - 5003) fuel p = some s1 ∧
        (s1 = s ∨ ∃ i, i < 5003 ∧ s.xlatbl i ≠ EMPTY ∧
          (s.lzw_table (s.xlatbl i)).predecessor &&& REFERENCED = 0 ∧
          s1 = { s with
            lzw_table := setAt s.lzw_table (s.xlatbl i)
              { predecessor := pred, suffix := suff % 256 } }) := by
  intro fuel
  induction fuel with
  | zero => intro p _ _ hj; obtain ⟨j, hj, _⟩ := hj; omega
  | succ fuel ih =>
    intro p hp0 hp1 hj
    obtain ⟨j, hjlt, hje⟩ := hj
    simp only [entfilLoop]
    by_cases hs : s.xlatbl p.toNat = EMPTY
    · simp only [hs, ne_eq, not_true_eq_false, if_false]
      exact ⟨s, rfl, Or.inl rfl⟩
    · simp only [ne_eq, hs, not_false_eq_true, if_true]
      by_cases hr : (s.lzw_table (s.xlatbl p.toNat)).predecessor &&& REFERENCED = 0
      · simp only [hr, if_true]
        exact ⟨_, rfl, Or.inr ⟨p.toNat, by omega, hs, hr, rfl⟩⟩
      · simp only [hr, if_false]
        obtain ⟨r0, r1, r2⟩ := probeNext_range p h hp0 hp1 h1 h2
        have hj0 : j ≠ 0 := by
          intro h0
          subst h0
          have : (p.toNat + 0 * h) % 5003 = p.toNat := by
            rw [Nat.zero_mul, Nat.add_zero]
            exact Nat.mod_eq_of_lt (by omega)
          rw [this] at hje
          exact hs hje
        obtain ⟨k, rfl⟩ : ∃ k, j = k + 1 := ⟨j - 1, by omega⟩
        apply ih _ r0 r1
        refine ⟨k, by omega, ?_⟩
        rw [r2, Nat.mod_add_mod]
        have : p.toNat + h + k * h = p.toNat + (k + 1) * h := by ring
        rw [this]
        exact hje

/-- What a call of `entfil` does when it returns: nothing, or the
reassignment of one entry without the mark that a used slot names. -/
theorem entfil_some (s s1 : Lzw) (pred suff : Nat) (h : entfil s pred suff = some s1) :
    s1 = s ∨ ∃ i, s.xlatbl i ≠ EMPTY ∧
      (s.lzw_table (s.xlatbl i)).predecessor &&& REFERENCED = 0 ∧
      s1 = { s with
        lzw_table := setAt s.lzw_table (s.xlatbl i)
          { predecessor := pred, suffix := suff % 256 } } := by
  unfold entfil at h
  simp only at h
  generalize (hash pred suff).2 = disp at h
  generalize ((hash pred suff).1 : Int) = p at h
  generalize XLATBL_SIZE = fuel at h
  induction fuel generalizing p with
  | zero => simp [entfilLoop] at h
  | succ fuel ih =>
    simp only [entfilLoop] at h
    by_cases hs : s.xlatbl p.toNat = EMPTY
    · simp only [hs, ne_eq, not_true_eq_false, if_false, Option.some.injEq] at h
      exact Or.inl h.symm
    · simp only [ne_eq, hs, not_false_eq_true, if_true] at h
      by_cases hr : (s.lzw_table (s.xlatbl p.toNat)).predecessor &&& REFERENCED = 0
      · simp only [hr, if_true, Option.some.injEq] at h
        exact Or.inr ⟨p.toNat, hs, hr, h.symm⟩
      · simp only [hr, if_false] at h
        exact ih _ h

/-- One pass of the main loop keeps the width relation. -/
theorem uncrunchCode_width (s s1 : Lzw) (c : Nat) (hc : c < TABLE_SIZE)
    (h : uncrunchCode s c = some s1) (hw : WidthInv s) : WidthInv s1 := by
  by_cases hr : c = RSTCOD
  · subst hr
    obtain ⟨s2, h2, hag, _⟩ := reset_start s
    rw [h2] at h
    simp only [Option.some.injEq] at h
    subst h
    exact agree_start_width _ hag
  · have hw0 : WidthInv { s with lastpr := s.pred, pred := c } :=
      widthInv_congr s _ rfl rfl rfl rfl hw
    simp only [uncrunchCode, hr, if_false] at h
    by_cases hf : s.fulflg = 2
    · have hf2 : ¬ ¬ s.fulflg = 2 := not_not.mpr hf
      simp only [ne_eq, hf2, if_false] at h
      cases hd : decode { s with lastpr := s.pred, pred := c } c with
      | none => simp [hd] at h
      | some sD =>
        simp only [hd] at h
        obtain ⟨sA, hA, g1, g2, g3, g4, _⟩ := decode_fields _ sD c hd
        have he : s.entry = 4096 := by
          obtain ⟨_, _, _, _, w5, _, _, _, _, w10, w11, _⟩ := hw
          by_contra hne
          by_cases h5 : s.entry = 4095
          · have := w11 h5
            omega
          · have := w10 (by omega)
            omega
        have hlt : ¬ (c ≥ s.entry) := by
          simp only [TABLE_SIZE] at hc
          omega
        simp only [hlt, if_false, Option.some.injEq] at hA
        subst hA
        have hwD : WidthInv sD := widthInv_congr _ sD g1 g2 g3 g4 hw0
        rcases entfil_some sD s1 _ _ h with e | ⟨i, _, _, e⟩
        · rw [e]
          exact hwD
        · rw [e]
          exact widthInv_congr sD _ rfl rfl rfl rfl hwD
    · simp only [hf, ne_eq, not_false_eq_true, if_true] at h
      cases hd : decode { s with lastpr := s.pred, pred := c } c with
      | none => simp [hd] at h
      | some sD =>
        simp only [hd] at h
        obtain ⟨sA, hA, g1, g2, g3, g4, g5, _⟩ := decode_fields _ sD c hd
        have hwA : WidthInv sA := by
          by_cases hge : c ≥ s.entry
          · simp only [hge, if_true] at hA
            exact enterx_width _ sA _ _ hA (widthInv_congr s _ rfl rfl rfl rfl hw) hf
          · simp only [hge, if_false, Option.some.injEq] at hA
            subst hA
            exact hw0
        have hwD : WidthInv sD := widthInv_congr _ sD g1 g2 g3 g4 hwA
        by_cases hz : sD.entflg = 0
        · simp only [hz, if_true] at h
          by_cases hge : c ≥ s.entry
          · simp only [hge, if_true] at hA
            obtain ⟨_, _, _, e4, _⟩ := enterx_some _ sA _ _ hA
            rw [g5, e4] at hz
            simp at hz
          · simp only [hge, if_false, Option.some.injEq] at hA
            subst hA
            exact enterx_width sD s1 _ _ h hwD (by rw [g3]; exact hf)
        · simp only [hz, if_false, Option.some.injEq] at h
          rw [← h]
          exact widthInv_congr sD _ rfl rfl rfl rfl hwD

/-- The setup of `uncrunch` establishes the width relation. -/
theorem setup_width (s0 s : Lzw) (h : uncrunchSetup s0 = some s) : WidthInv s := by
  obtain ⟨s2, h2, hag, _⟩ := setup_start s0
  rw [h2] at h
  simp only [Option.some.injEq] at h
  subst h
  exact agree_start_width _ hag

/-- The mark leaves the predecessor index of every entry as it is. -/
theorem predOf_markTable (tbl : Nat → entry) (c i : Nat) :
    predOf (markTable tbl c) i = predOf tbl i := by
  unfold predOf markTable setAt
  by_cases h : i = c
  · subst h
    simp only [if_true]
    exact or_referenced_and_fff _
  · simp only [h, if_false]

/-- The mark leaves the suffix of every entry as it is. -/
theorem suffix_markTable (tbl : Nat → entry) (c i : Nat) :
    ((markTable tbl c) i).suffix = (tbl i).suffix := by
  unfold markTable setAt
  by_cases h : i = c
  · subst h
    simp only [if_true]
  · simp only [h, if_false]

/-- The mark keeps the marks there are. -/
theorem referenced_markTable (tbl : Nat → entry) (c i : Nat) (h : referenced tbl i) :
    referenced (markTable tbl c) i := by
  unfold referenced markTable setAt at *
  by_cases hi : i = c
  · subst hi
    simp only [if_true]
    exact or_referenced_and_referenced _
  · simp only [hi, if_false]
    exact h

/-- The entry of the code carries the mark afterwards. -/
theorem referenced_markTable_self (tbl : Nat → entry) (c : Nat) :
    referenced (markTable tbl c) c := by
  unfold referenced markTable setAt
  simp only [if_true]
  exact or_referenced_and_referenced _

/-- A chain is a chain in every table with the same predecessor indices along
it. -/
theorem chain_congr (tbl tbl2 : Nat → entry) (e : Nat) (l : List Nat) (a : Nat)
    (h : Chain tbl e l a) (hp : ∀ x ∈ l, predOf tbl2 x = predOf tbl x) : Chain tbl2 e l a := by
  induction h with
  | atomic a h => exact Chain.atomic a h
  | step e l a h _ ih =>
    have h1 := hp e (List.mem_cons_self _ _)
    refine Chain.step e l a h ?_
    rw [h1]
    exact ih (fun x hx => hp x (List.mem_cons_of_mem _ hx))

/-- The chain of a code is unique. -/
theorem chain_unique (tbl : Nat → entry) (e : Nat) (l : List Nat) (a : Nat)
    (h : Chain tbl e l a) : ∀ (l2 : List Nat) (a2 : Nat), Chain tbl e l2 a2 → l2 = l ∧ a2 = a := by
  induction h with
  | atomic a h =>
    intro l2 a2 h2
    cases h2 with
    | atomic _ _ => exact ⟨rfl, rfl⟩
    | step _ _ _ h3 _ => omega
  | step e l a h _ ih =>
    intro l2 a2 h2
    cases h2 with
    | atomic _ h3 => omega
    | step _ l3 _ _ c3 =>
      obtain ⟨e1, e2⟩ := ih l3 a2 c3
      exact ⟨by rw [e1], e2⟩

/-- The end of a chain is an atomic code, and a chain that starts at an atomic
code is empty. -/
theorem chain_end (tbl : Nat → entry) (e : Nat) (l : List Nat) (a : Nat)
    (h : Chain tbl e l a) : a ≤ 255 ∧ (e ≤ 255 → l = [] ∧ a = e) := by
  induction h with
  | atomic a h => exact ⟨h, fun _ => ⟨rfl, rfl⟩⟩
  | step e l a h _ ih => exact ⟨ih.1, fun h2 => by omega⟩

/-- The walk of `decode` along a chain: it ends at the atomic code with the
suffix bytes of the chain on the stack, the last one on top. -/
theorem decodeWalk_chain (tbl : Nat → entry) (e : Nat) (l : List Nat) (a : Nat)
    (h : Chain tbl e l a) : ∀ (room : Nat) (stack : List Nat), l.length ≤ room →
      decodeWalk tbl room e stack =
        some (a, (l.map (fun x => (tbl x).suffix)).reverse ++ stack) := by
  induction h with
  | atomic a h =>
    intro room stack _
    have h2 : ¬ a > 255 := by omega
    cases room with
    | zero => simp only [decodeWalk, h2, if_false, List.map_nil, List.reverse_nil, List.nil_append]
    | succ r => simp only [decodeWalk, h2, if_false, List.map_nil, List.reverse_nil, List.nil_append]
  | step e l a h _ ih =>
    intro room stack hl
    cases room with
    | zero => simp at hl
    | succ r =>
      simp only [List.length_cons, Nat.add_le_add_iff_right] at hl
      simp only [decodeWalk, h, if_true]
      have := ih r ((tbl e).suffix :: stack) hl
      unfold predOf at this
      rw [this]
      simp only [List.map_cons, List.reverse_cons, List.append_assoc, List.singleton_append]

/-- The string of a code with a chain: the atomic code at the end, then the
suffix bytes of the chain from its far end. -/
theorem lzwString_chain (tbl : Nat → entry) (e : Nat) (l : List Nat) (a : Nat)
    (h : Chain tbl e l a) : ∀ (fuel : Nat), l.length ≤ fuel →
      lzwString tbl fuel e = some (a :: (l.map (fun x => (tbl x).suffix)).reverse) := by
  induction h with
  | atomic a h =>
    intro fuel _
    have h2 : a < 256 := by omega
    cases fuel with
    | zero => simp only [lzwString, h2, if_true, List.map_nil, List.reverse_nil]
    | succ r => simp only [lzwString, h2, if_true, List.map_nil, List.reverse_nil]
  | step e l a h _ ih =>
    intro fuel hl
    have h2 : ¬ e < 256 := by omega
    cases fuel with
    | zero => simp at hl
    | succ r =>
      simp only [List.length_cons, Nat.add_le_add_iff_right] at hl
      simp only [lzwString, h2, if_false]
      rw [ih r hl]
      simp only [Option.map_some', List.map_cons, List.reverse_cons, List.cons_append]

/-- The entries the walk of `decode` reads along a chain. -/
theorem walkReads_chain (tbl : Nat → entry) (e : Nat) (l : List Nat) (a : Nat)
    (h : Chain tbl e l a) : ∀ (room : Nat), l.length ≤ room →
      walkReads tbl room e = l ++ [a] := by
  induction h with
  | atomic a h =>
    intro room _
    have h2 : ¬ a > 255 := by omega
    cases room with
    | zero => simp only [walkReads, List.nil_append]
    | succ r => simp only [walkReads, h2, if_false, List.nil_append]
  | step e l a h _ ih =>
    intro room hl
    cases room with
    | zero => simp at hl
    | succ r =>
      simp only [List.length_cons, Nat.add_le_add_iff_right] at hl
      simp only [walkReads, h, if_true, ih r hl, List.cons_append]

/-- A list of distinct table indices has at most `TABLE_SIZE` members. -/
theorem nodup_length_le (l : List Nat) (hn : l.Nodup) (hb : ∀ x ∈ l, x < 4096) :
    l.length ≤ TABLE_SIZE := by
  have h1 : l.toFinset ⊆ Finset.range 4096 := by
    intro x hx
    simp only [List.mem_toFinset] at hx
    simp only [Finset.mem_range]
    exact hb x hx
  have h2 := Finset.card_le_card h1
  rw [List.toFinset_card_of_nodup hn, Finset.card_range] at h2
  exact h2

/-- Every entry of a well-formed table has a chain of distinct entries, all
of them defined, and all but the first one marked. -/
theorem chain_exists (tbl : Nat → entry) (n : Nat) (rank : Nat → Nat)
    (hc : ∀ e, 260 ≤ e → e < n →
      predOf tbl e < n ∧
        (predOf tbl e < 256 ∨
          (260 ≤ predOf tbl e ∧ referenced tbl (predOf tbl e) ∧ rank (predOf tbl e) < rank e))) :
    ∀ (k e : Nat), rank e ≤ k → 260 ≤ e → e < n →
      ∃ l a, Chain tbl e l a ∧ l.Nodup ∧
        ∀ x ∈ l, 260 ≤ x ∧ x < n ∧ rank x ≤ rank e ∧ (x = e ∨ referenced tbl x) := by
  intro k
  induction k with
  | zero =>
    intro e hk h1 h2
    obtain ⟨_, hp⟩ := hc e h1 h2
    rcases hp with hp | ⟨_, _, hp⟩
    · refine ⟨[e], predOf tbl e, Chain.step e [] _ (by omega) (Chain.atomic _ (by omega)),
        List.nodup_singleton e, ?_⟩
      intro x hx
      simp only [List.mem_singleton] at hx
      subst hx
      exact ⟨h1, h2, le_refl _, Or.inl rfl⟩
    · omega
  | succ k ih =>
    intro e hk h1 h2
    obtain ⟨hlt, hp⟩ := hc e h1 h2
    rcases hp with hp | ⟨hp1, hp2, hp3⟩
    · refine ⟨[e], predOf tbl e, Chain.step e [] _ (by omega) (Chain.atomic _ (by omega)),
        List.nodup_singleton e, ?_⟩
      intro x hx
      simp only [List.mem_singleton] at hx
      subst hx
      exact ⟨h1, h2, le_refl _, Or.inl rfl⟩
    · obtain ⟨l, a, c1, c2, c3⟩ := ih (predOf tbl e) (by omega) hp1 hlt
      refine ⟨e :: l, a, Chain.step e l a (by omega) c1, ?_, ?_⟩
      · refine List.nodup_cons.mpr ⟨?_, c2⟩
        intro hmem
        obtain ⟨_, _, hr, _⟩ := c3 e hmem
        omega
      · intro x hx
        rcases List.mem_cons.mp hx with hx | hx
        · subst hx
          exact ⟨h1, h2, le_refl _, Or.inl rfl⟩
        · obtain ⟨g1, g2, g3, g4⟩ := c3 x hx
          refine ⟨g1, g2, by omega, ?_⟩
          rcases g4 with g4 | g4
          · subst g4
            exact Or.inr hp2
          · exact Or.inr g4

/-- The chain of a code of a well-formed table that is not a reserved code. -/
theorem tableInv_chain (tbl : Nat → entry) (n : Nat) (ht : TableInv tbl n) (hn : n ≤ 4096)
    (c : Nat) (hc : c < n) (hres : ¬(256 ≤ c ∧ c < 260)) :
    ∃ l a, Chain tbl c l a ∧ l.length ≤ TABLE_SIZE ∧
      ∀ x ∈ l, 260 ≤ x ∧ x < n ∧ (x = c ∨ referenced tbl x) := by
  obtain ⟨rank, hrank⟩ := ht.chain
  by_cases h : c < 256
  · exact ⟨[], c, Chain.atomic c (by omega), by simp, by simp⟩
  · obtain ⟨l, a, c1, c2, c3⟩ := chain_exists tbl n rank hrank (rank c) c (le_refl _) (by omega) hc
    refine ⟨l, a, c1, nodup_length_le l c2 (fun x hx => ?_), fun x hx => ?_⟩
    · obtain ⟨_, g, _⟩ := c3 x hx
      omega
    · obtain ⟨g1, g2, _, g4⟩ := c3 x hx
      exact ⟨g1, g2, g4⟩

/-- The walk of `decode` and the list `walkReads` agree in every table: when
the walk returns, it ends at the last entry of the list, and the bytes it has
pushed are the suffix bytes of the other entries of the list, all of them
non-atomic. -/
theorem decodeWalk_reads (tbl : Nat → entry) : ∀ (room ep : Nat) (stack : List Nat) (a : Nat)
    (st : List Nat), decodeWalk tbl room ep stack = some (a, st) →
      ∃ l, walkReads tbl room ep = l ++ [a] ∧
        st = (l.map (fun x => (tbl x).suffix)).reverse ++ stack ∧ ∀ x ∈ l, x > 255 := by
  intro room
  induction room with
  | zero =>
    intro ep stack a st h
    by_cases hep : ep > 255
    · simp [decodeWalk, hep] at h
    · simp only [decodeWalk, hep, if_false, Option.some.injEq, Prod.mk.injEq] at h
      obtain ⟨h1, h2⟩ := h
      subst h1 h2
      exact ⟨[], by simp [walkReads], by simp, by simp⟩
  | succ room ih =>
    intro ep stack a st h
    by_cases hep : ep > 255
    · simp only [decodeWalk, hep, if_true] at h
      obtain ⟨l, h1, h2, h3⟩ := ih _ _ a st h
      refine ⟨ep :: l, ?_, ?_, ?_⟩
      · simp only [walkReads, hep, if_true, List.cons_append]
        unfold predOf
        rw [h1]
      · rw [h2]
        simp only [List.map_cons, List.reverse_cons, List.append_assoc, List.singleton_append]
      · intro x hx
        rcases List.mem_cons.mp hx with hx | hx
        · rw [hx]
          exact hep
        · exact h3 x hx
    · simp only [decodeWalk, hep, if_false, Option.some.injEq, Prod.mk.injEq] at h
      obtain ⟨h1, h2⟩ := h
      subst h1 h2
      exact ⟨[], by simp [walkReads, hep], by simp, by simp⟩

/-- The mark keeps a table well formed. -/
theorem tableInv_mark (tbl : Nat → entry) (n c : Nat) (ht : TableInv tbl n) :
    TableInv (markTable tbl c) n := by
  obtain ⟨h1, h2, rank, h3⟩ := ht
  refine ⟨fun a ha => ?_, fun i hi1 hi2 => ?_, rank, fun e he1 he2 => ?_⟩
  · unfold markTable setAt
    by_cases hac : a = c
    · subst hac
      simp only [if_true, h1 a ha]
      rfl
    · simp only [hac, if_false, h1 a ha]
  · unfold markTable setAt
    by_cases hac : i = c
    · subst hac
      simp only [if_true, h2 i hi1 hi2]
      rfl
    · simp only [hac, if_false, h2 i hi1 hi2]
  · rw [predOf_markTable]
    obtain ⟨g1, g2⟩ := h3 e he1 he2
    refine ⟨g1, ?_⟩
    rcases g2 with g2 | ⟨g2, g3, g4⟩
    · exact Or.inl g2
    · exact Or.inr ⟨g2, referenced_markTable tbl c _ g3, g4⟩

/-- An atomic or reserved entry of a well-formed table counts as marked. -/
theorem tableInv_low_referenced (tbl : Nat → entry) (n : Nat) (ht : TableInv tbl n) (i : Nat)
    (hi : i < 260) : referenced tbl i := by
  unfold referenced
  by_cases h : i < 256
  · rw [ht.atoms i h]
    show NOPRED &&& REFERENCED ≠ 0
    decide
  · rw [ht.resv i (by omega) hi]
    show IMPRED &&& REFERENCED ≠ 0
    decide

/-- The new entry of `enterx` keeps a table well formed when its predecessor
is an atomic code or a marked entry. -/
theorem tableInv_add (tbl : Nat → entry) (n p suf : Nat) (ht : TableInv tbl n) (h260 : 260 ≤ n)
    (hn : n ≤ 4096) (hp : p < n) (hpr : p < 256 ∨ (260 ≤ p ∧ referenced tbl p)) :
    TableInv (setAt tbl n { predecessor := p, suffix := suf }) (n + 1) := by
  obtain ⟨h1, h2, rank, h3⟩ := ht
  refine ⟨fun a ha => ?_, fun i hi1 hi2 => ?_,
    fun x => if x = n then rank p + 1 else rank x, fun e he1 he2 => ?_⟩
  · have : a ≠ n := by omega
    simp only [setAt, this, if_false, h1 a ha]
  · have : i ≠ n := by omega
    simp only [setAt, this, if_false, h2 i hi1 hi2]
  · have hpn : p ≠ n := by omega
    by_cases hen : e = n
    · subst hen
      have hpo : predOf (setAt tbl e { predecessor := p, suffix := suf }) e = p := by
        simp only [predOf, setAt, if_true]
        exact and_fff_of_lt p (by omega)
      rw [hpo]
      refine ⟨by omega, ?_⟩
      rcases hpr with hpr | ⟨hpr1, hpr2⟩
      · exact Or.inl hpr
      · refine Or.inr ⟨hpr1, ?_, ?_⟩
        · simp only [referenced, setAt, hpn, if_false]
          exact hpr2
        · simp only [hpn, if_false, if_true]
          omega
    · obtain ⟨g1, g2⟩ := h3 e he1 (by omega)
      have hpo : predOf (setAt tbl n { predecessor := p, suffix := suf }) e = predOf tbl e := by
        simp only [predOf, setAt, hen, if_false]
      rw [hpo]
      have hqn : predOf tbl e ≠ n := by omega
      refine ⟨by omega, ?_⟩
      rcases g2 with g2 | ⟨g2, g3, g4⟩
      · exact Or.inl g2
      · refine Or.inr ⟨g2, ?_, ?_⟩
        · simp only [referenced, setAt, hqn, if_false]
          exact g3
        · simp only [hqn, hen, if_false]
          exact g4

/-- The reassignment of `entfil` keeps a table well formed: the entry it
takes has no mark, so no chain passes through it. -/
theorem tableInv_reassign (tbl : Nat → entry) (n ep p suf : Nat) (ht : TableInv tbl n)
    (hn : n ≤ 4096) (hep : ¬ referenced tbl ep) (hp : p < n)
    (hpr : p < 256 ∨ (260 ≤ p ∧ referenced tbl p)) :
    TableInv (setAt tbl ep { predecessor := p, suffix := suf }) n := by
  have hep260 : 260 ≤ ep := by
    by_contra hlt
    exact hep (tableInv_low_referenced tbl n ht ep (by omega))
  have hpe : p ≠ ep := by
    rcases hpr with hpr | ⟨_, hpr⟩
    · omega
    · intro he
      subst he
      exact hep hpr
  obtain ⟨h1, h2, rank, h3⟩ := ht
  refine ⟨fun a ha => ?_, fun i hi1 hi2 => ?_,
    fun x => if x = ep then rank p + 1 else rank x, fun e he1 he2 => ?_⟩
  · have : a ≠ ep := by omega
    simp only [setAt, this, if_false, h1 a ha]
  · have : i ≠ ep := by omega
    simp only [setAt, this, if_false, h2 i hi1 hi2]
  · by_cases hen : e = ep
    · subst hen
      have hpo : predOf (setAt tbl e { predecessor := p, suffix := suf }) e = p := by
        simp only [predOf, setAt, if_true]
        exact and_fff_of_lt p (by omega)
      rw [hpo]
      refine ⟨hp, ?_⟩
      rcases hpr with hpr | ⟨hpr1, hpr2⟩
      · exact Or.inl hpr
      · refine Or.inr ⟨hpr1, ?_, ?_⟩
        · simp only [referenced, setAt, hpe, if_false]
          exact hpr2
        · simp only [hpe, if_false, if_true]
          omega
    · obtain ⟨g1, g2⟩ := h3 e he1 he2
      have hpo : predOf (setAt tbl ep { predecessor := p, suffix := suf }) e = predOf tbl e := by
        simp only [predOf, setAt, hen, if_false]
      rw [hpo]
      refine ⟨g1, ?_⟩
      rcases g2 with g2 | ⟨g2, g3, g4⟩
      · exact Or.inl g2
      · have hqe : predOf tbl e ≠ ep := by
          intro he
          rw [he] at g3
          exact hep g3
        refine Or.inr ⟨g2, ?_, ?_⟩
        · simp only [referenced, setAt, hqe, if_false]
          exact g3
        · simp only [hqe, hen, if_false]
          exact g4

/-- The slot invariant depends on `xlatbl` and `entry` only. -/
theorem slotsInv_congr (a b : Lzw) (hx : b.xlatbl = a.xlatbl) (he : b.entry = a.entry)
    (h : SlotsInv a) : SlotsInv b := by
  unfold SlotsInv at h ⊢
  rw [hx, he]
  exact h

/-- The bounds on `entry` the width relation gives. -/
theorem width_entry (s : Lzw) (hw : WidthInv s) :
    260 ≤ s.entry ∧ s.entry ≤ 4096 ∧ (s.fulflg ≠ 2 → s.entry ≤ 4095) ∧
      (s.fulflg = 2 → s.entry = 4096) := by
  obtain ⟨_, _, _, w4, w5, _, _, _, _, w10, w11, w12⟩ := hw
  refine ⟨w4, w5, fun h => ?_, fun h => ?_⟩
  · by_contra hc
    exact h (w12 (by omega))
  · by_contra hc
    by_cases h5 : s.entry = 4095
    · have := w11 h5
      omega
    · have := w10 (by omega)
      omega

/-- The call `decode (code)` for a code below `entry` in a well-formed table:
it returns, having marked the entry, set `finchar` to the atomic code at the
end of the chain, and sent that byte and then the suffix bytes of the chain
from its far end. -/
theorem decode_below (s : Lzw) (c : Nat) (ht : TableInv s.lzw_table s.entry)
    (hn : s.entry ≤ 4096) (hc : c < s.entry) (hres : ¬(256 ≤ c ∧ c < 260)) :
    ∃ l a, Chain s.lzw_table c l a ∧ l.length ≤ TABLE_SIZE ∧ a < 256 ∧
      (∀ x ∈ l, 260 ≤ x ∧ x < s.entry ∧ (x = c ∨ referenced s.lzw_table x)) ∧
      decode s c = some (sendList (a :: (l.map (fun x => (s.lzw_table x).suffix)).reverse)
        { s with lzw_table := markTable s.lzw_table c, finchar := a }) := by
  obtain ⟨l, a, h1, h2, h3⟩ := tableInv_chain s.lzw_table s.entry ht hn c hc hres
  have ha := (chain_end _ _ _ _ h1).1
  refine ⟨l, a, h1, h2, by omega, h3, ?_⟩
  have hA : (if c ≥ s.entry then enterx { s with entflg := 1 } s.lastpr s.finchar else some s) =
      some s := by
    rw [if_neg (by omega)]
  have hM : Chain (markTable s.lzw_table c) c l a :=
    chain_congr _ _ _ _ _ h1 (fun x _ => predOf_markTable _ _ _)
  have hw := decodeWalk_chain _ _ _ _ hM TABLE_SIZE [] h2
  rw [List.append_nil] at hw
  have hd := decode_of s s c a _ hA hw
  have hsuf : ((markTable s.lzw_table c) a).suffix &&& 0xff = a := by
    rw [suffix_markTable, ht.atoms a (by omega)]
    exact and_ff_of_lt a (by omega)
  have hmap : (fun x => ((markTable s.lzw_table c) x).suffix) = fun x => (s.lzw_table x).suffix :=
    funext (suffix_markTable _ _)
  rw [hsuf, hmap] at hd
  exact hd

/-- The call `decode (code)` for the code equal to `entry` after a previous
code: `enterx` defines the entry from the previous code and `finchar`, and the
bytes sent are the string of the previous code followed by `finchar`. -/
theorem decode_kwkwk (s : Lzw) (l : List Nat) (ht : TableInv s.lzw_table s.entry)
    (hsl : SlotsInv s) (h260 : 260 ≤ s.entry) (hn : s.entry ≤ 4095)
    (hp : s.lastpr < s.entry) (hres : ¬(256 ≤ s.lastpr ∧ s.lastpr < 260))
    (href : 260 ≤ s.lastpr → referenced s.lzw_table s.lastpr)
    (hch : Chain s.lzw_table s.lastpr l s.finchar) :
    ∃ sA, enterx { s with entflg := 1 } s.lastpr s.finchar = some sA ∧
      l.length < TABLE_SIZE ∧ (∀ x ∈ l, x < s.entry) ∧
      Chain (markTable sA.lzw_table s.entry) s.entry (s.entry :: l) s.finchar ∧
      TableInv (markTable sA.lzw_table s.entry) (s.entry + 1) ∧
      decode s s.entry = some (sendList
        (s.finchar :: ((l.map (fun x => (s.lzw_table x).suffix)).reverse ++ [s.finchar]))
        { sA with lzw_table := markTable sA.lzw_table s.entry, finchar := s.finchar }) := by
  have hfin := (chain_end _ _ _ _ hch).1
  have hmod : s.finchar % 256 = s.finchar := Nat.mod_eq_of_lt (by omega)
  obtain ⟨sA, hA⟩ := enterx_exists { s with entflg := 1 } s.lastpr s.finchar (by omega)
    (slotsInv_congr s _ rfl rfl hsl) (by show s.entry ≤ 4096; omega)
  obtain ⟨_, hT, hE, _⟩ := enterx_some _ sA _ _ hA
  simp only [hmod] at hT
  obtain ⟨l2, a2, c1, _, c3⟩ := tableInv_chain s.lzw_table s.entry ht (by omega) s.lastpr hp hres
  obtain ⟨e1, e2⟩ := chain_unique _ _ _ _ hch l2 a2 c1
  subst e1
  have hlt : ∀ x ∈ l2, x < s.entry := fun x hx => (c3 x hx).2.1
  have hpr : s.lastpr < 256 ∨ (260 ≤ s.lastpr ∧ referenced s.lzw_table s.lastpr) := by
    by_cases h : s.lastpr < 256
    · exact Or.inl h
    · exact Or.inr ⟨by omega, href (by omega)⟩
  have htA : TableInv sA.lzw_table (s.entry + 1) := by
    rw [hT]
    exact tableInv_add s.lzw_table s.entry s.lastpr s.finchar ht h260 (by omega) hp hpr
  have htM : TableInv (markTable sA.lzw_table s.entry) (s.entry + 1) :=
    tableInv_mark _ _ _ htA
  have hpm : ∀ x, x ≠ s.entry → predOf (markTable sA.lzw_table s.entry) x = predOf s.lzw_table x := by
    intro x hx
    rw [predOf_markTable, hT]
    simp only [predOf, setAt, hx, if_false]
  have hsm : ∀ x, x ≠ s.entry →
      ((markTable sA.lzw_table s.entry) x).suffix = (s.lzw_table x).suffix := by
    intro x hx
    rw [suffix_markTable, hT]
    simp only [setAt, hx, if_false]
  have hpe : predOf (markTable sA.lzw_table s.entry) s.entry = s.lastpr := by
    rw [predOf_markTable, hT]
    simp only [predOf, setAt, if_true]
    exact and_fff_of_lt _ (by omega)
  have hse : ((markTable sA.lzw_table s.entry) s.entry).suffix = s.finchar := by
    rw [suffix_markTable, hT]
    simp only [setAt, if_true]
  have hM : Chain (markTable sA.lzw_table s.entry) s.entry (s.entry :: l2) s.finchar := by
    refine Chain.step _ _ _ (by omega) ?_
    rw [hpe]
    exact chain_congr _ _ _ _ _ hch (fun x hx => hpm x (by have := hlt x hx; omega))
  obtain ⟨l3, a3, d1, d2, _⟩ := tableInv_chain _ _ htM (by omega) s.entry (by omega) (by omega)
  obtain ⟨e3, _⟩ := chain_unique _ _ _ _ hM l3 a3 d1
  subst e3
  simp only [List.length_cons] at d2
  refine ⟨sA, hA, by omega, hlt, hM, htM, ?_⟩
  have hw := decodeWalk_chain _ _ _ _ hM TABLE_SIZE [] (by simp only [List.length_cons]; omega)
  rw [List.append_nil] at hw
  have hA2 : (if s.entry ≥ s.entry then enterx { s with entflg := 1 } s.lastpr s.finchar
      else some s) = some sA := by
    rw [if_pos (le_refl _)]
    exact hA
  have hd := decode_of s sA s.entry s.finchar _ hA2 hw
  have hsuf : ((markTable sA.lzw_table s.entry) s.finchar).suffix &&& 0xff = s.finchar := by
    rw [hsm _ (by omega), ht.atoms _ (by omega)]
    exact and_ff_of_lt s.finchar (by omega)
  have hmap : l2.map (fun x => ((markTable sA.lzw_table s.entry) x).suffix) =
      l2.map (fun x => (s.lzw_table x).suffix) :=
    List.map_congr_left (fun x hx => hsm x (by have := hlt x hx; omega))
  rw [hsuf, List.map_cons, List.reverse_cons, hse, hmap] at hd
  exact hd

/-- The state after `decode (code)` for a code below `entry` in a well-formed
table. -/
theorem decode_below_state (s : Lzw) (c : Nat) (ht : TableInv s.lzw_table s.entry)
    (hn : s.entry ≤ 4096) (hc : c < s.entry) (hres : ¬(256 ≤ c ∧ c < 260)) :
    ∃ l a sD, Chain s.lzw_table c l a ∧ a < 256 ∧
      (∀ x ∈ l, 260 ≤ x ∧ x < s.entry ∧ (x = c ∨ referenced s.lzw_table x)) ∧
      decode s c = some sD ∧ sD.lzw_table = markTable s.lzw_table c ∧
      sD.xlatbl = s.xlatbl ∧ sD.fulflg = s.fulflg ∧ sD.entry = s.entry ∧
      sD.entflg = s.entflg ∧ sD.finchar = a ∧ sD.lastpr = s.lastpr ∧ sD.pred = s.pred := by
  obtain ⟨l, a, h1, _, ha, h3, hd⟩ := decode_below s c ht hn hc hres
  obtain ⟨f1, f2, _, _, f5, f6, f7, f8, f9, f10⟩ := sendList_frame
    (a :: (l.map (fun x => (s.lzw_table x).suffix)).reverse)
    { s with lzw_table := markTable s.lzw_table c, finchar := a }
  exact ⟨l, a, _, h1, ha, h3, hd, f1, f2, f5, f6, f7, f8, f9, f10⟩

/-- A chain of a table is a chain of the table after the mark and a change of
an entry outside the chain. -/
theorem chain_mark_set (tbl : Nat → entry) (c e : Nat) (l : List Nat) (a i : Nat) (v : entry)
    (h : Chain tbl e l a) (hi : ∀ x ∈ l, x ≠ i) : Chain (setAt (markTable tbl c) i v) e l a := by
  refine chain_congr _ _ _ _ _ h (fun x hx => ?_)
  have := hi x hx
  simp only [predOf, setAt, this, if_false]
  exact predOf_markTable tbl c x

/-- One pass of the main loop with a code below `entry` keeps the decoder
well formed, and returns. -/
theorem step_below (s : Lzw) (c : Nat) (hi : LzwInv s) (hc : c < s.entry)
    (hres : ¬(256 ≤ c ∧ c < 260)) : ∃ s1, uncrunchCode s c = some s1 ∧ LzwInv s1 := by
  obtain ⟨hw, hsl, ht, hl⟩ := hi
  obtain ⟨w1, w2, w3, w4⟩ := width_entry s hw
  have hcT : c < TABLE_SIZE := by simp only [TABLE_SIZE]; omega
  have hr : ¬ c = RSTCOD := by simp only [RSTCOD]; omega
  obtain ⟨l, a, sD, h1, ha, h3, hd, f1, f2, f3, f4, f5, f6, f7, f8⟩ :=
    decode_below_state { s with lastpr := s.pred, pred := c } c ht w2 hc hres
  have f1 : sD.lzw_table = markTable s.lzw_table c := f1
  have f2 : sD.xlatbl = s.xlatbl := f2
  have f3 : sD.fulflg = s.fulflg := f3
  have f4 : sD.entry = s.entry := f4
  have f5 : sD.entflg = s.entflg := f5
  have f7 : sD.lastpr = s.pred := f7
  have f8 : sD.pred = c := f8
  have h1 : Chain s.lzw_table c l a := h1
  have h3 : ∀ x ∈ l, 260 ≤ x ∧ x < s.entry ∧ (x = c ∨ referenced s.lzw_table x) := h3
  have hslD : SlotsInv sD := slotsInv_congr s sD f2 f4 hsl
  have htM : TableInv (markTable s.lzw_table c) s.entry := tableInv_mark _ _ _ ht
  have hrefc : referenced (markTable s.lzw_table c) c := referenced_markTable_self _ _
  have hu : uncrunchCode s c =
      (if s.fulflg ≠ 2 then
        (if sD.entflg = 0 then enterx sD sD.lastpr sD.finchar else some { sD with entflg := 0 })
      else entfil sD sD.lastpr sD.finchar) := by
    simp only [uncrunchCode, hr, if_false, hd]
  by_cases hf : s.fulflg = 2
  · -- the table is full
    have he := w4 hf
    rw [if_neg (not_not.mpr hf)] at hu
    rcases hl with ⟨_, _, p3⟩ | ⟨p1, p2, p3, p4, lp, p5⟩
    · omega
    have hpr : s.pred < 256 ∨ (260 ≤ s.pred ∧ referenced (markTable s.lzw_table c) s.pred) := by
      by_cases h : s.pred < 256
      · exact Or.inl h
      · exact Or.inr ⟨by omega, referenced_markTable _ _ _ (p3 (by omega))⟩
    obtain ⟨g1, g2, g3⟩ := hash_range sD.lastpr sD.finchar (by rw [f6]; exact ha)
    obtain ⟨j, hj, hje⟩ := probe_exists sD.xlatbl (by rw [hslD.2, f4]; exact w2)
      (hash sD.lastpr sD.finchar).1 (hash sD.lastpr sD.finchar).1 g1 g2
    have hstart : ((hash sD.lastpr sD.finchar).1 : Int).toNat = (hash sD.lastpr sD.finchar).1 :=
      Int.toNat_natCast _
    obtain ⟨s1, hs1, hcase⟩ := entfilLoop_some sD sD.lastpr sD.finchar
      (hash sD.lastpr sD.finchar).1 g1 g2 5003 ((hash sD.lastpr sD.finchar).1 : Int)
      (by omega) (by omega) ⟨j, hj, by rw [hstart]; exact hje⟩
    have hs1e : entfil sD sD.lastpr sD.finchar = some s1 := by
      unfold entfil
      simp only
      rw [g3]
      exact hs1
    rw [hs1e] at hu
    refine ⟨s1, hu, uncrunchCode_width s s1 c hcT hu hw, ?_, ?_, ?_⟩
    · rcases hcase with e | ⟨i, _, _, _, e⟩
      · rw [e]
        exact hslD
      · rw [e]
        exact slotsInv_congr sD _ rfl rfl hslD
    · rcases hcase with e | ⟨i, _, _, hun, e⟩
      · rw [e, f1, f4]
        exact htM
      · rw [e]
        show TableInv (setAt sD.lzw_table (sD.xlatbl i) _) sD.entry
        rw [f1, f4, f7]
        rw [f1] at hun
        exact tableInv_reassign _ _ _ _ _ htM w2 (fun h => h hun) p1 hpr
    · rcases hcase with e | ⟨i, hi5, hne, hun, e⟩
      · refine Or.inr ?_
        rw [e, f8, f4, f1, f6]
        exact ⟨hc, hres, fun _ => hrefc, by rw [f5]; exact p4,
          l, chain_congr _ _ _ _ _ h1 (fun x _ => predOf_markTable _ _ _)⟩
      · refine Or.inr ?_
        rw [e]
        show sD.pred < sD.entry ∧ ¬(256 ≤ sD.pred ∧ sD.pred < 260) ∧
          (260 ≤ sD.pred → referenced (setAt sD.lzw_table (sD.xlatbl i) _) sD.pred) ∧
          sD.entflg = 0 ∧ ∃ l, Chain (setAt sD.lzw_table (sD.xlatbl i) _) sD.pred l sD.finchar
        rw [f1] at hun
        have hneq : ∀ x, referenced (markTable s.lzw_table c) x → x ≠ sD.xlatbl i := by
          intro x hx he
          rw [he] at hx
          exact hx hun
        have hci := hneq c hrefc
        rw [f8, f4, f1, f5, f6]
        refine ⟨hc, hres, fun _ => ?_, p4, l, chain_mark_set _ _ _ _ _ _ _ h1 (fun x hx => ?_)⟩
        · simp only [referenced, setAt, hci, if_false]
          exact hrefc
        · rcases (h3 x hx).2.2 with h | h
          · rw [h]
            exact hci
          · exact hneq x (referenced_markTable _ _ _ h)
  · -- the table is not full
    have he := w3 hf
    rw [if_pos hf] at hu
    rcases hl with ⟨q1, q2, q3⟩ | ⟨p1, p2, p3, p4, lp, p5⟩
    · -- the first code after the setup or a reset
      have hz : ¬ sD.entflg = 0 := by rw [f5, q2]; decide
      rw [if_neg hz] at hu
      refine ⟨_, hu, uncrunchCode_width s _ c hcT hu hw, slotsInv_congr sD _ rfl rfl hslD, ?_,
        Or.inr ?_⟩
      · show TableInv sD.lzw_table sD.entry
        rw [f1, f4]
        exact htM
      · show sD.pred < sD.entry ∧ ¬(256 ≤ sD.pred ∧ sD.pred < 260) ∧
          (260 ≤ sD.pred → referenced sD.lzw_table sD.pred) ∧
          0 = 0 ∧ ∃ l, Chain sD.lzw_table sD.pred l sD.finchar
        rw [f8, f4, f1, f6]
        exact ⟨hc, hres, fun _ => hrefc, rfl,
          l, chain_congr _ _ _ _ _ h1 (fun x _ => predOf_markTable _ _ _)⟩
    · -- a code after another code
      have hz : sD.entflg = 0 := by rw [f5, p4]
      rw [if_pos hz] at hu
      have hpr : s.pred < 256 ∨ (260 ≤ s.pred ∧ referenced (markTable s.lzw_table c) s.pred) := by
        by_cases h : s.pred < 256
        · exact Or.inl h
        · exact Or.inr ⟨by omega, referenced_markTable _ _ _ (p3 (by omega))⟩
      obtain ⟨s1, hx⟩ := enterx_exists sD sD.lastpr sD.finchar (by rw [f6]; exact ha) hslD
        (by rw [f4]; exact w2)
      rw [hx] at hu
      obtain ⟨_, gT, gE, gF, gC, _, gP, _⟩ := enterx_some sD s1 _ _ hx
      rw [f1, f4, f7, f6] at gT
      rw [f4] at gE
      rw [f5] at gF
      rw [f6] at gC
      rw [f8] at gP
      have hne : c ≠ s.entry := by omega
      refine ⟨s1, hu, uncrunchCode_width s s1 c hcT hu hw,
        enterx_slots sD s1 _ _ hx (by rw [f6]; exact ha) hslD (by rw [f4]; exact w2), ?_,
        Or.inr ?_⟩
      · rw [gT, gE]
        exact tableInv_add _ _ _ _ htM w1 w2 p1 hpr
      · rw [gP, gE, gT, gF, gC]
        refine ⟨by omega, hres, fun _ => ?_, p4, l,
          chain_mark_set _ _ _ _ _ _ _ h1 (fun x hx => ?_)⟩
        · simp only [referenced, setAt, hne, if_false]
          exact hrefc
        · have := (h3 x hx).2.1
          omega

/-- One pass of the main loop with the code equal to `entry`, after a previous
code: `decode` defines the entry from the previous code and `finchar` and
sends the string of the previous code followed by `finchar`; the pass adds
this one entry and keeps the decoder well formed. -/
theorem step_kwkwk (s : Lzw) (hi : LzwInv s) (hp : s.pred ≠ NOPRED) (hc : s.entry < 4096) :
    ∃ l sA s1, Chain s.lzw_table s.pred l s.finchar ∧ l.length < TABLE_SIZE ∧
      enterx { s with lastpr := s.pred, pred := s.entry, entflg := 1 } s.pred s.finchar =
        some sA ∧
      decode { s with lastpr := s.pred, pred := s.entry } s.entry = some (sendList
        (s.finchar :: ((l.map (fun x => (s.lzw_table x).suffix)).reverse ++ [s.finchar]))
        { sA with lzw_table := markTable sA.lzw_table s.entry, finchar := s.finchar }) ∧
      uncrunchCode s s.entry = some s1 ∧ LzwInv s1 ∧ s1.entry = s.entry + 1 ∧
      s1.lzw_table = markTable
        (setAt s.lzw_table s.entry { predecessor := s.pred, suffix := s.finchar }) s.entry := by
  obtain ⟨hw, hsl, ht, hl⟩ := hi
  obtain ⟨w1, w2, w3, w4⟩ := width_entry s hw
  have hcT : s.entry < TABLE_SIZE := by simp only [TABLE_SIZE]; omega
  have hr : ¬ s.entry = RSTCOD := by simp only [RSTCOD]; omega
  have hf : s.fulflg ≠ 2 := by
    intro h
    have := w4 h
    omega
  rcases hl with ⟨q1, _, _⟩ | ⟨p1, p2, p3, p4, l, p5⟩
  · exact absurd q1 hp
  have hfin := (chain_end _ _ _ _ p5).1
  have hmod : s.finchar % 256 = s.finchar := Nat.mod_eq_of_lt (by omega)
  obtain ⟨sA, hA, k1, k2, k3, k4, hd⟩ := decode_kwkwk
    { s with lastpr := s.pred, pred := s.entry } l ht (slotsInv_congr s _ rfl rfl hsl) w1
    (by show s.entry ≤ 4095; omega) p1 p2 p3 p5
  obtain ⟨_, gT, gE, gF, _⟩ := enterx_some _ sA _ _ hA
  have hsA : SlotsInv sA := enterx_slots _ sA _ _ hA (by show s.finchar < 256; omega)
    (slotsInv_congr s _ rfl rfl hsl) (by show s.entry ≤ 4096; omega)
  have gT : sA.lzw_table =
      setAt s.lzw_table s.entry { predecessor := s.pred, suffix := s.finchar } := by
    rw [gT]
    simp only [hmod]
  have gE : sA.entry = s.entry + 1 := gE
  have gF : sA.entflg = 1 := gF
  obtain ⟨f1, f2, _, _, _, f6, f7, f8, _, f10⟩ := sendList_frame
    (s.finchar :: ((l.map (fun x => (s.lzw_table x).suffix)).reverse ++ [s.finchar]))
    { sA with lzw_table := markTable sA.lzw_table s.entry, finchar := s.finchar }
  have hk4 : Chain (markTable sA.lzw_table s.entry) s.entry (s.entry :: l) s.finchar := k3
  have hk5 : TableInv (markTable sA.lzw_table s.entry) (s.entry + 1) := k4
  have hd0 := hd
  generalize sendList
    (s.finchar :: ((l.map (fun x => (s.lzw_table x).suffix)).reverse ++ [s.finchar]))
    { sA with lzw_table := markTable sA.lzw_table s.entry, finchar := s.finchar } = sD
    at hd f1 f2 f6 f7 f8 f10
  have f1 : sD.lzw_table = markTable sA.lzw_table s.entry := f1
  have f2 : sD.xlatbl = sA.xlatbl := f2
  have f6 : sD.entry = sA.entry := f6
  have f7 : sD.entflg = sA.entflg := f7
  have f8 : sD.finchar = s.finchar := f8
  have f10 : sD.pred = sA.pred := f10
  have gP : sA.pred = s.entry := by
    obtain ⟨_, _, _, _, _, _, g, _⟩ := enterx_some _ sA _ _ hA
    exact g
  have hz : ¬ sD.entflg = 0 := by rw [f7, gF]; decide
  have hu : uncrunchCode s s.entry = some { sD with entflg := 0 } := by
    simp only [uncrunchCode, hr, if_false, hd, ne_eq, hf, not_false_eq_true, if_true, hz]
  refine ⟨l, sA, _, p5, k1, hA, hd0, hu,
    ⟨uncrunchCode_width s _ _ hcT hu hw, slotsInv_congr sA _ f2 f6 hsA, ?_, Or.inr ?_⟩, ?_, ?_⟩
  · show TableInv sD.lzw_table sD.entry
    rw [f1, f6, gE]
    exact hk5
  · show sD.pred < sD.entry ∧ ¬(256 ≤ sD.pred ∧ sD.pred < 260) ∧
      (260 ≤ sD.pred → referenced sD.lzw_table sD.pred) ∧
      0 = 0 ∧ ∃ l, Chain sD.lzw_table sD.pred l sD.finchar
    rw [f10, gP, f6, gE, f1, f8]
    exact ⟨by omega, by omega, fun _ => referenced_markTable_self _ _, rfl, _, hk4⟩
  · show sD.entry = s.entry + 1
    rw [f6, gE]
  · show sD.lzw_table = _
    rw [f1, gT]

/-- A state that agrees with the state after the first setup, with no code
decoded yet, is well formed. -/
theorem lzwInv_start (s : Lzw) (hag : Agree s lzwStart) (he : s.entry = 260)
    (hf : s.entflg = 1) (hp : s.pred = NOPRED) (hsl : SlotsInv s) : LzwInv s := by
  obtain ⟨_, _, _, _, t1, t2⟩ := lzwStart_facts
  have a6 := hag.2.2.2.2.2
  refine ⟨agree_start_width s hag, hsl, ⟨fun a ha => ?_, fun i h1 h2 => ?_, fun _ => 0, ?_⟩,
    Or.inl ⟨hp, hf, he⟩⟩
  · rw [a6 a (by omega)]
    exact t1 a ha
  · rw [a6 i (by omega)]
    exact t2 i h2 h1
  · intro e h1 h2
    omega

/-- Every state of the decoder on a well-formed stream is well formed. -/
theorem reach_inv (s : Lzw) (h : Reach s) : LzwInv s := by
  induction h with
  | setup s0 s h =>
    unfold SetupTo at h
    obtain ⟨s2, h2, hag, he, hf, hp, hsl⟩ := setup_start s0
    rw [h2] at h
    simp only [Option.some.injEq] at h
    subst h
    exact lzwInv_start _ hag he hf hp hsl
  | reset s0 s h =>
    unfold StepTo at h
    obtain ⟨s2, h2, hag, he, hf, hp, hsl⟩ := reset_start s0
    rw [h2] at h
    simp only [Option.some.injEq] at h
    subst h
    exact lzwInv_start _ hag he hf hp hsl
  | step s s1 c _ hc h ih =>
    unfold StepTo at h
    rcases hc with hc | ⟨hc1, hc2, hc3⟩
    · subst hc
      obtain ⟨s2, h2, hag, he, hf, hp, hsl⟩ := reset_start s
      rw [h2] at h
      simp only [Option.some.injEq] at h
      subst h
      exact lzwInv_start _ hag he hf hp hsl
    · rcases hc3 with hc3 | ⟨hc3, hc4⟩
      · obtain ⟨s2, h2, hinv⟩ := step_below s c ih hc3 hc2
        rw [h2] at h
        simp only [Option.some.injEq] at h
        subst h
        exact hinv
      · subst hc3
        obtain ⟨_, _, s2, _, _, _, _, h2, hinv, _⟩ := step_kwkwk s ih hc4 hc1
        rw [h2] at h
        simp only [Option.some.injEq] at h
        subst h
        exact hinv

/-- The example stream `A B C reset` is decoded. -/
theorem lzwAfterReset_eq :
    uncrunchCodes [0x41, 0x42, 0x43, RSTCOD] lzwStart = some lzwAfterReset :=
  some_getD_of_isSome _ lzwInit (by decide)

/-- The example code `A` is decoded. -/
theorem lzwAfterA_eq : uncrunchCode lzwStart 0x41 = some lzwAfterA :=
  some_getD_of_isSome _ lzwInit (by decide)

/-- The state after the first setup is a state of a well-formed stream. -/
theorem reach_start : Reach lzwStart :=
  Reach.setup lzwInit lzwStart (by unfold SetupTo; exact lzwStart_eq)

/-- The code of `A` is a code of a well-formed stream after the setup. -/
theorem valid_start_A : ValidCode lzwStart 0x41 :=
  Or.inr ⟨by decide, by decide, Or.inl (by decide)⟩

/-- The state after the code of `A` is a state of a well-formed stream. -/
theorem reach_afterA : Reach lzwAfterA :=
  Reach.step lzwStart lzwAfterA 0x41 reach_start valid_start_A
    (by unfold StepTo; exact lzwAfterA_eq)

/-- The code 260 is a code of a well-formed stream after the code of `A`: it
is the next free entry, and there is a previous code. -/
theorem valid_afterA_260 : ValidCode lzwAfterA 260 :=
  Or.inr ⟨by decide, by decide, Or.inr ⟨by decide, by decide⟩⟩

/-- The state after the code of `A` is a state of a stream. -/
theorem reachAny_afterA : ReachAny lzwAfterA :=
  ReachAny.step lzwStart lzwAfterA 0x41
    (ReachAny.setup lzwInit lzwStart (by unfold SetupTo; exact lzwStart_eq)) (by decide)
    (by unfold StepTo; exact lzwAfterA_eq)

/-! ## The claims on the uncruncher -/

/-- Claim C15 (LZW reset).  In every decoder state `s` the pass of the main
loop with the reset code `RSTCOD` returns, with code width 9, code mask
`0x1ff`, full flag 0 and next free index 260, and with the slots of `xlatbl`
and the table entries 0..259 equal to those the setup of `uncrunch`
(`intram`, `initb2`) produces from any state `s0`; the loop then goes on with
the next code. -/
theorem reset_restores_setup (s s0 : Lzw) (codes : List Nat) :
    ∃ s1 t0, uncrunchCode s RSTCOD = some s1 ∧ uncrunchSetup s0 = some t0 ∧
      s1.codlen = 9 ∧ s1.trgmsk = 0x1ff ∧ s1.fulflg = 0 ∧ s1.entry = 260 ∧
      (∀ i, i < XLATBL_SIZE → s1.xlatbl i = t0.xlatbl i) ∧
      (∀ i, i < 260 → s1.lzw_table i = t0.lzw_table i) ∧
      uncrunchCodes (RSTCOD :: codes) s = uncrunchCodes codes s1 := by
  obtain ⟨s1, h1, ⟨a1, a2, a3, a4, a5, a6⟩, he, _⟩ := reset_start s
  obtain ⟨t0, h2, ⟨b1, b2, _, _, _, b6⟩, hte, _⟩ := setup_start s0
  obtain ⟨_, f2, f3, f4, _⟩ := lzwStart_facts
  have hne : ¬ RSTCOD = EOFCOD := by decide
  refine ⟨s1, t0, h1, h2, by rw [a3, f2], by rw [a4, f3], by rw [a5, f4], he,
    fun i hi => ?_, fun i hi => ?_, ?_⟩
  · rw [a1 i hi, b1 i hi]
  · rw [a6 i (by omega), b6 i (by omega)]
  · rw [uncrunchCodes, if_neg hne, h1]

/-- After `A B C reset`, the code 261 makes `decode` read entry 261, which the
reset has not defined again: it still holds `(B, C)` from before the reset,
and the bytes `B C` are written once more. -/
theorem decode_reads_stale_entry_after_reset :
    uncrunchCodes [0x41, 0x42, 0x43, RSTCOD] lzwStart = some lzwAfterReset ∧
      (uncrunchCodes [0x41, 0x42, 0x43] lzwStart).map (fun s => s.lzw_table 261) =
        some { predecessor := 0x42, suffix := 0x43 } ∧
      lzwAfterReset.entry = 260 ∧
      decodeReads { lzwAfterReset with lastpr := lzwAfterReset.pred, pred := 261 } 261 =
        some ([261, 0x42], 261) ∧
      (uncrunchCode lzwAfterReset 261).map (fun s => s.outfd) =
        some [0x41, 0x42, 0x43, 0x42, 0x43] ∧
      decodeReads { lzwAfterReset with lastpr := lzwAfterReset.pred, pred := 260 } 260 =
        some ([260, 4095, 0], 261) :=
  ⟨lzwAfterReset_eq, by decide, by decide, by decide, by decide, by decide⟩

/-- Claim C16 (no stale table reads after a reset), for a well-formed stream.
In every state `s` the decoder reaches from the setup or from a reset code by
codes that are reset codes or ordinary codes below the next free entry, or
equal to it after a previous code, the call `decode (c)` for the next such
code `c` returns, and it reads only table entries with an index below `entry`
as it stands during the walk (`entry` of the state, or one more after the
`enterx` of the exceptional case).  The entries read are those of a walk that
ends at an atomic entry within the room of the stack, so that the list is the
whole walk of `decode`.  The reset sets `entry` to 0, `initb2` defines the
entries 0..259, and `enterx` defines the entry `entry` and adds one to it, so
these are the entries defined since the reset. -/
theorem decode_reads_below_entry (s : Lzw) (c : Nat) (hs : Reach s) (hc : ValidCode s c)
    (hr : c ≠ RSTCOD) :
    ∃ sD reads e, decode { s with lastpr := s.pred, pred := c } c = some sD ∧
      decodeReads { s with lastpr := s.pred, pred := c } c = some (reads, e) ∧
      (e = s.entry ∨ e = s.entry + 1) ∧ (∀ i, i ∈ reads → i < e) ∧
      ∃ l a, reads = l ++ [a] ∧ a < 256 ∧ l.length ≤ TABLE_SIZE := by
  obtain ⟨hw, hsl, ht, hl⟩ := reach_inv s hs
  obtain ⟨w1, w2, w3, w4⟩ := width_entry s hw
  rcases hc with hc | ⟨hc1, hc2, hc3⟩
  · exact absurd hc hr
  rcases hc3 with hc3 | ⟨hc3, hc4⟩
  · obtain ⟨l, a, h1, h2, h3⟩ := tableInv_chain s.lzw_table s.entry ht w2 c hc3 hc2
    obtain ⟨_, _, sD, _, _, _, hd, _⟩ :=
      decode_below_state { s with lastpr := s.pred, pred := c } c ht w2 hc3 hc2
    have ha := (chain_end _ _ _ _ h1).1
    have hM : Chain (markTable s.lzw_table c) c l a :=
      chain_congr _ _ _ _ _ h1 (fun x _ => predOf_markTable _ _ _)
    have hwr := walkReads_chain _ _ _ _ hM TABLE_SIZE h2
    refine ⟨sD, l ++ [a], s.entry, hd, ?_, Or.inl rfl, fun i hi => ?_,
      ⟨l, a, rfl, by omega, h2⟩⟩
    · unfold decodeReads
      simp only
      rw [if_neg (by show ¬ c ≥ s.entry; omega)]
      simp only
      unfold markTable at hwr
      rw [hwr]
    · rcases List.mem_append.mp hi with hi | hi
      · exact (h3 i hi).2.1
      · simp only [List.mem_singleton] at hi
        omega
  · subst hc3
    rcases hl with ⟨q1, _, _⟩ | ⟨p1, p2, p3, p4, l, p5⟩
    · exact absurd q1 hc4
    have hfin := (chain_end _ _ _ _ p5).1
    obtain ⟨sA, hA, k1, k2, k3, _, kd⟩ := decode_kwkwk
      { s with lastpr := s.pred, pred := s.entry } l ht (slotsInv_congr s _ rfl rfl hsl) w1
      (by show s.entry ≤ 4095; omega) p1 p2 p3 p5
    obtain ⟨_, _, gE, _⟩ := enterx_some _ sA _ _ hA
    have gE : sA.entry = s.entry + 1 := gE
    have k3 : Chain (markTable sA.lzw_table s.entry) s.entry (s.entry :: l) s.finchar := k3
    have hwr := walkReads_chain _ _ _ _ k3 TABLE_SIZE
      (by simp only [List.length_cons]; omega)
    refine ⟨_, (s.entry :: l) ++ [s.finchar], s.entry + 1, kd, ?_, Or.inr rfl,
      fun i hi => ?_, ⟨s.entry :: l, s.finchar, rfl, by omega, ?_⟩⟩
    · unfold decodeReads
      simp only
      rw [if_pos (by show s.entry ≥ s.entry; exact le_refl _)]
      rw [hA]
      simp only
      unfold markTable at hwr
      rw [hwr, gE]
    · rcases List.mem_append.mp hi with hi | hi
      · rcases List.mem_cons.mp hi with hi | hi
        · omega
        · have := k2 i hi
          have : i < s.entry := this
          omega
      · simp only [List.mem_singleton] at hi
        omega
    · simp only [List.length_cons]
      omega

/-- The amended claim C16 at the code 260 after the code of `A`. -/
theorem decode_reads_below_entry_witness :
    Reach lzwAfterA ∧ ValidCode lzwAfterA 260 ∧ 260 ≠ RSTCOD ∧
      ∃ sD reads e,
        decode { lzwAfterA with lastpr := lzwAfterA.pred, pred := 260 } 260 = some sD ∧
        decodeReads { lzwAfterA with lastpr := lzwAfterA.pred, pred := 260 } 260 =
          some (reads, e) ∧
        (e = lzwAfterA.entry ∨ e = lzwAfterA.entry + 1) ∧ (∀ i, i ∈ reads → i < e) ∧
        ∃ l a, reads = l ++ [a] ∧ a < 256 ∧ l.length ≤ TABLE_SIZE :=
  ⟨reach_afterA, valid_afterA_260, by decide,
    decode_reads_below_entry lzwAfterA 260 reach_afterA valid_afterA_260 (by decide)⟩

/-- The code 260 as the first code after a reset, or as the first code of the
stream: it equals the next free entry, but there is no previous code.  After
`A B C reset` the decoder sends `0, 0, C` and adds the entry `(NOPRED, C)`; at
the start of a stream it sends `0, 0, 0` and adds the entry `(NOPRED, 0)`. -/
theorem decode_next_free_without_previous_code :
    uncrunchCodes [0x41, 0x42, 0x43, RSTCOD] lzwStart = some lzwAfterReset ∧
      lzwAfterReset.entry = 260 ∧ lzwAfterReset.pred = NOPRED ∧
      lzwString lzwAfterReset.lzw_table TABLE_SIZE 0x43 = some [0x43] ∧
      (uncrunchCode lzwAfterReset 260).map (fun s => (s.outfd, s.lzw_table 260)) =
        some ([0x41, 0x42, 0x43, 0, 0, 0x43], { predecessor := NOPRED, suffix := 0x43 }) ∧
      lzwStart.entry = 260 ∧
      (uncrunchCode lzwStart 260).map (fun s => (s.outfd, s.lzw_table 260)) =
        some ([0, 0, 0], { predecessor := NOPRED, suffix := 0 }) :=
  ⟨lzwAfterReset_eq, by decide, by decide, by decide, by decide, by decide, by decide⟩

/-- Claim C17 (LZW code expansion), for a stream in which the code equal to
the next free entry comes only after a previous code.  With `string (c)` as
`lzwString` computes it, in every state `s` of such a stream and for the next
ordinary code `c`: if `c` is below `entry`, `decode (c)` returns, having set
`finchar` to the first byte of `string (c)` and passed exactly the bytes of
`string (c)` to `send`, first byte first; if `c` equals `entry`, `decode (c)`
passes `string (previous code)` followed by its first byte, and the pass of
the main loop adds exactly one table entry, at index `entry`, with the
previous code as predecessor (and the mark `REFERENCED`) and that first byte
as suffix. -/
theorem decode_sends_string (s : Lzw) (c : Nat) (hs : Reach s) (hc : ValidCode s c)
    (hr : c ≠ RSTCOD) :
    ∃ first rest,
      (c < s.entry →
        lzwString s.lzw_table TABLE_SIZE c = some (first :: rest) ∧
        decode { s with lastpr := s.pred, pred := c } c =
          some (sendList (first :: rest)
            { s with
              lastpr := s.pred, pred := c
              lzw_table := markTable s.lzw_table c, finchar := first })) ∧
      (c = s.entry →
        lzwString s.lzw_table TABLE_SIZE s.pred = some (first :: rest) ∧
        ∃ sA s1,
          enterx { s with lastpr := s.pred, pred := c, entflg := 1 } s.pred s.finchar =
            some sA ∧
          decode { s with lastpr := s.pred, pred := c } c =
            some (sendList (first :: (rest ++ [first]))
              { sA with lzw_table := markTable sA.lzw_table c, finchar := first }) ∧
          uncrunchCode s c = some s1 ∧ s1.entry = s.entry + 1 ∧
          s1.lzw_table = markTable
            (setAt s.lzw_table s.entry { predecessor := s.pred, suffix := first }) s.entry) := by
  have hinv := reach_inv s hs
  obtain ⟨w1, w2, w3, w4⟩ := width_entry s hinv.width
  rcases hc with hc | ⟨hc1, hc2, hc3⟩
  · exact absurd hc hr
  rcases hc3 with hc3 | ⟨hc3, hc4⟩
  · obtain ⟨l, a, h1, h2, _, _, hd⟩ := decode_below { s with lastpr := s.pred, pred := c } c
      hinv.table w2 hc3 hc2
    have h1 : Chain s.lzw_table c l a := h1
    refine ⟨a, (l.map (fun x => (s.lzw_table x).suffix)).reverse, fun _ => ?_, fun h => ?_⟩
    · exact ⟨lzwString_chain _ _ _ _ h1 TABLE_SIZE h2, hd⟩
    · omega
  · subst hc3
    obtain ⟨l, sA, s1, k1, k2, k3, k4, k5, _, k7, k8⟩ := step_kwkwk s hinv hc4 hc1
    refine ⟨s.finchar, (l.map (fun x => (s.lzw_table x).suffix)).reverse, fun h => ?_, fun _ => ?_⟩
    · omega
    · exact ⟨lzwString_chain _ _ _ _ k1 TABLE_SIZE (le_of_lt k2), sA, s1, k3, k4, k5, k7, k8⟩

/-- The amended claim C17 at the code 260 after the code of `A`. -/
theorem decode_sends_string_witness :
    Reach lzwAfterA ∧ ValidCode lzwAfterA 260 ∧ 260 ≠ RSTCOD ∧
      ∃ first rest,
        (260 < lzwAfterA.entry →
          lzwString lzwAfterA.lzw_table TABLE_SIZE 260 = some (first :: rest) ∧
          decode { lzwAfterA with lastpr := lzwAfterA.pred, pred := 260 } 260 =
            some (sendList (first :: rest)
              { lzwAfterA with
                lastpr := lzwAfterA.pred, pred := 260
                lzw_table := markTable lzwAfterA.lzw_table 260, finchar := first })) ∧
        (260 = lzwAfterA.entry →
          lzwString lzwAfterA.lzw_table TABLE_SIZE lzwAfterA.pred = some (first :: rest) ∧
          ∃ sA s1,
            enterx { lzwAfterA with lastpr := lzwAfterA.pred, pred := 260, entflg := 1 }
              lzwAfterA.pred lzwAfterA.finchar = some sA ∧
            decode { lzwAfterA with lastpr := lzwAfterA.pred, pred := 260 } 260 =
              some (sendList (first :: (rest ++ [first]))
                { sA with lzw_table := markTable sA.lzw_table 260, finchar := first }) ∧
            uncrunchCode lzwAfterA 260 = some s1 ∧ s1.entry = lzwAfterA.entry + 1 ∧
            s1.lzw_table = markTable
              (setAt lzwAfterA.lzw_table lzwAfterA.entry
                { predecessor := lzwAfterA.pred, suffix := first }) lzwAfterA.entry) :=
  ⟨reach_afterA, valid_afterA_260, by decide,
    decode_sends_string lzwAfterA 260 reach_afterA valid_afterA_260 (by decide)⟩

/-- Claim C18.  Let no repetition be pending.  For a byte `v` other than 0x90
and a count `n` with `1 <= n <= 255`, the calls `send (v)`, `send (0x90)`,
`send (n)` write `v` once at the first call, nothing at the second and
`n - 1` times `v` at the third, `n` bytes `v` in all; the calls `send (0x90)`,
`send (0)` write the single byte 0x90; and no repetition is pending
afterwards. -/
theorem send_repeat_expansion (s : Lzw) (v n : Nat) (hflag : s.repeat_flag = 0)
    (hv : v < 256) (hv90 : v ≠ 0x90) (hn : 1 ≤ n ∧ n ≤ 255) :
    (send s v).outfd = s.outfd ++ [v] ∧
      (send (send s v) 0x90).outfd = s.outfd ++ [v] ∧
      (send (send (send s v) 0x90) n).outfd = s.outfd ++ [v] ++ List.replicate (n - 1) v ∧
      (sendList [v, 0x90, n] s).outfd = s.outfd ++ List.replicate n v ∧
      (sendList [v, 0x90, n] s).repeat_flag = 0 ∧
      (sendList [0x90, 0] s).outfd = s.outfd ++ [0x90] ∧
      (sendList [0x90, 0] s).repeat_flag = 0 := by
  have hvm : v % 256 = v := Nat.mod_eq_of_lt hv
  have hnm : n % 256 = n := Nat.mod_eq_of_lt (by omega)
  have hn0 : n ≠ 0 := by omega
  have hR : (0x90 : Nat) % 256 = REPEAT_CHARACTER := by decide
  have hvR : v ≠ REPEAT_CHARACTER := hv90
  have e1 : send s v =
      { s with savec := v, outfd := s.outfd ++ [v], cksum := (s.cksum + (v &&& 0xff)) % 65536 } := by
    simp [send, hflag, hvm, hvR]
  have e2 : send (send s v) 0x90 = { send s v with repeat_flag := 1 } := by
    rw [e1]
    simp [send, hflag, hR]
  have e3 : (send (send (send s v) 0x90) n).outfd = s.outfd ++ [v] ++ List.replicate (n - 1) v ∧
      (send (send (send s v) 0x90) n).repeat_flag = 0 := by
    rw [e2, e1]
    simp [send, hnm, hn0]
  have e4 : send s 0x90 = { s with repeat_flag := 1 } := by
    simp [send, hflag, hR]
  have e5 : (send (send s 0x90) 0).outfd = s.outfd ++ [0x90] ∧
      (send (send s 0x90) 0).repeat_flag = 0 := by
    rw [e4]
    simp [send, REPEAT_CHARACTER]
  refine ⟨by rw [e1], by rw [e2, e1], e3.1, ?_, e3.2, e5.1, e5.2⟩
  show (send (send (send s v) 0x90) n).outfd = _
  rw [e3.1]
  obtain ⟨m, rfl⟩ : ∃ m, n = m + 1 := ⟨n - 1, by omega⟩
  simp [List.replicate_succ]

/-- Claim C18 at the byte `A` and the count 3, from the state after
`intram`. -/
theorem send_repeat_expansion_witness :
    (intram lzwInit).repeat_flag = 0 ∧ 0x41 < 256 ∧ 0x41 ≠ 0x90 ∧ (1 ≤ 3 ∧ 3 ≤ 255) ∧
      (sendList [0x41, 0x90, 3] (intram lzwInit)).outfd =
        (intram lzwInit).outfd ++ List.replicate 3 0x41 ∧
      (sendList [0x90, 0] (intram lzwInit)).outfd = (intram lzwInit).outfd ++ [0x90] :=
  ⟨rfl, by decide, by decide, by decide,
    (send_repeat_expansion (intram lzwInit) 0x41 3 rfl (by decide) (by decide) (by decide)).2.2.2.1,
    (send_repeat_expansion (intram lzwInit) 0x41 3 rfl (by decide) (by decide)
      (by decide)).2.2.2.2.2.1⟩

/-- Claim C19.  After any sequence of `send` calls from the state set by
`intram` (with the output file just opened and `savec` a byte), `cksum`
equals the sum of all bytes written to the output, modulo 65536. -/
theorem send_cksum_invariant (s0 : Lzw) (cs : List Nat) (hs : s0.savec < 256) :
    (sendList cs { intram s0 with outfd := [] }).cksum =
      (sendList cs { intram s0 with outfd := [] }).outfd.sum % 65536 := by
  have gen : ∀ (cs : List Nat) (s : Lzw), s.savec < 256 → s.cksum = s.outfd.sum % 65536 →
      (sendList cs s).cksum = (sendList cs s).outfd.sum % 65536 := by
    intro cs
    induction cs with
    | nil => intro s _ h; exact h
    | cons c cs ih =>
      intro s h1 h2
      obtain ⟨k1, k2⟩ := send_cksum s c h1 h2
      exact ih (send s c) k1 k2
  exact gen cs _ hs rfl

/-- Claim C19 at the calls `A`, 0x90, 3, 0x90, 0. -/
theorem send_cksum_invariant_witness :
    lzwInit.savec < 256 ∧
      (sendList [0x41, 0x90, 3, 0x90, 0] { intram lzwInit with outfd := [] }).cksum =
        (sendList [0x41, 0x90, 3, 0x90, 0] { intram lzwInit with outfd := [] }).outfd.sum %
          65536 :=
  ⟨by decide, send_cksum_invariant lzwInit [0x41, 0x90, 3, 0x90, 0] (by decide)⟩

/-- Claim C20 (LZW code-width invariant).  In every decoder state reached from
the setup of `uncrunch` by passes of the main loop, with reset codes or any
other codes below 4096, the code mask is `2 ^ codlen - 1` with
`9 ≤ codlen ≤ 12`, `entry` is at most 4096, `codlen` is 9, 10, 11 or 12 as
`entry` is below 511, below 1023, below 2047 or at least 2047, and `fulflg`
is 0, 1 or 2 as `entry` is below 4095, equal to 4095 or equal to 4096. -/
theorem code_width_invariant (s : Lzw) (h : ReachAny s) : WidthInv s := by
  induction h with
  | setup s0 s h =>
    unfold SetupTo at h
    exact setup_width s0 s h
  | step s s1 c _ hc h ih =>
    unfold StepTo at h
    exact uncrunchCode_width s s1 c hc h ih

/-- Claim C20 at the state after the code of `A`. -/
theorem code_width_invariant_witness : ReachAny lzwAfterA ∧ WidthInv lzwAfterA :=
  ⟨reachAny_afterA, code_width_invariant lzwAfterA reachAny_afterA⟩

/-! ## The claims on the text copy and on reused directory slots -/

/-- The rule `stripRule` is what the inner loop of `acopy` does in the final
sector, with the `textfile` flag standing for "no byte with the high bit set
so far". -/
theorem stripRule_eq (l : List Nat) : ∀ seen : List Nat,
    stripRule seen l = finalSectorOut (seen.all isascii) l := by
  induction l with
  | nil => intro seen; rfl
  | cons c cs ih =>
    intro seen
    have hall : (seen ++ [c]).all isascii = (seen.all isascii && isascii c) := by
      simp [List.all_append]
    have hP : (∀ b ∈ seen ++ [c], b < 0x80) ↔ (seen.all isascii && isascii c) = true := by
      rw [← hall, List.all_eq_true]
      constructor
      · intro h b hb
        simp only [isascii, decide_eq_true_eq]
        exact h b hb
      · intro h b hb
        have := h b hb
        simpa only [isascii, decide_eq_true_eq] using this
    rw [stripRule, finalSectorOut, ih, hall]
    cases htf : (seen.all isascii && isascii c)
    · have hn : ¬ (∀ b ∈ seen ++ [c], b < 0x80) := by
        rw [hP, htf]
        simp
      rw [if_neg (fun h => hn h.2), if_pos (Or.inl rfl)]
    · have hy : ∀ b ∈ seen ++ [c], b < 0x80 := hP.mpr htf
      by_cases hz : c = CTRLZ
      · rw [if_pos ⟨hz, hy⟩, if_neg (by simp [hz])]
      · rw [if_neg (fun h => hz h.1), if_pos (Or.inr hz)]

/-- The file `ctrlZBeforeHighSector` holds a byte with the high bit set, and
`acopy` over its one sector drops the CTRL-Z in front of that byte: 127 of the
128 bytes are written. -/
theorem acopy_drops_ctrlz_before_high_byte :
    ctrlZBeforeHighSector.length = 128 ∧ 0x80 ∈ ctrlZBeforeHighSector ∧
      acopy ctrlZBeforeHighSector 1 = some ([0x80] ++ List.replicate 126 0x41) := by
  decide

/-- Claim C22, amended.  Over `n` sectors `acopy` writes every byte of the
first `n - 1` sectors unchanged, and writes a byte of the final sector unless
it is CTRL-Z and no byte of 0x80 or more has occurred at or before its
position in the copied range.  Consequently the `n * 128` bytes are written
unmodified when a byte of 0x80 or more occurs before the final sector, or in
the final sector with no CTRL-Z of that sector before it. -/
theorem acopy_exact_rule (content : List Nat) (n : Nat) (hn : 1 ≤ n)
    (hlen : SECTOR * n ≤ content.length) :
    acopy content n =
        some (content.take (SECTOR * (n - 1)) ++
          stripRule (content.take (SECTOR * (n - 1)))
            ((content.drop (SECTOR * (n - 1))).take SECTOR)) ∧
      ((∃ b ∈ content.take (SECTOR * (n - 1)), 0x80 ≤ b) →
        acopy content n = some (content.take (SECTOR * n))) ∧
      (∀ (pre tail : List Nat) (b : Nat),
        (content.drop (SECTOR * (n - 1))).take SECTOR = pre ++ b :: tail → 0x80 ≤ b →
        (∀ c ∈ pre, c ≠ CTRLZ) → acopy content n = some (content.take (SECTOR * n))) := by
  obtain ⟨m, rfl⟩ : ∃ m, n = m + 1 := ⟨n - 1, by omega⟩
  have hm : m + 1 - 1 = m := by omega
  rw [hm]
  have hsplit : content.take (SECTOR * (m + 1)) =
      content.take (SECTOR * m) ++ (content.drop (SECTOR * m)).take SECTOR := by
    rw [show SECTOR * (m + 1) = SECTOR * m + SECTOR by ring, List.take_add]
  have h0 := acopy_eq content m hlen
  refine ⟨?_, ?_, ?_⟩
  · rw [h0, stripRule_eq]
  · rintro ⟨b, hb, hb80⟩
    have hall : (content.take (SECTOR * m)).all isascii = false := by
      rw [List.all_eq_false]
      exact ⟨b, hb, by simp [isascii]; omega⟩
    rw [h0, hall, finalSectorOut_false, hsplit]
  · intro pre tail b hfin hb hpre
    rw [h0, hfin, finalSectorOut_high _ _ _ _ hpre hb, hsplit, hfin]

/-- The amended claim C22 at a single sector that starts with the byte 0x80
and ends with CTRL-Z bytes. -/
theorem acopy_exact_rule_witness :
    1 ≤ 1 ∧ SECTOR * 1 ≤ ([0x80] ++ List.replicate 127 0x1a).length ∧
      acopy ([0x80] ++ List.replicate 127 0x1a) 1 =
        some (([0x80] ++ List.replicate 127 0x1a).take (SECTOR * (1 - 1)) ++
          stripRule (([0x80] ++ List.replicate 127 0x1a).take (SECTOR * (1 - 1)))
            ((([0x80] ++ List.replicate 127 0x1a).drop (SECTOR * (1 - 1))).take SECTOR)) :=
  ⟨by decide, by decide,
    (acopy_exact_rule ([0x80] ++ List.replicate 127 0x1a) 1 (by decide) (by decide)).1⟩

/-- Claim C28 on the code.  The field of the deleted entry `OLDFILE.BAK` is
`OLDFILE BAK`.  `putname` with the name `a.txt` stores `A` at offset 0, jumps
to offset 8 at the dot and stores `TXT`; the bytes at the offsets 1..7 stay
`LDFILE `, so that `getfname` reads the name `aldfile.txt` back.  A blank
field gives `a.txt`.  `addfil` of `a.txt` into the library with the deleted
entry in slot 1 leaves that slot ACTIVE under the name `aldfile.txt`. -/
theorem putname_keeps_old_name_bytes :
    putname fieldOldfileBak a_txt =
        some ([0x41, 0x4c, 0x44, 0x46, 0x49, 0x4c, 0x45, 0x20, 0x54, 0x58, 0x54], false) ∧
      (putname fieldOldfileBak a_txt).map (fun r => getfname false (r.1.take 8) (r.1.drop 8)) =
        some [0x61, 0x6c, 0x64, 0x66, 0x69, 0x6c, 0x65, 0x2e, 0x74, 0x78, 0x74] ∧
      (putname (List.replicate 11 0x20) a_txt).map
          (fun r => getfname false (r.1.take 8) (r.1.drop 8)) = some a_txt ∧
      (loadedDeletedLongName.ldir 1).l_stat = DELETED ∧
      (addfil false false a_txt (some [1, 2, 3]) libDeletedLongName loadedDeletedLongName).map
          (fun r => ((r.2.ldir 1).l_stat,
            getfname false (r.2.ldir 1).l_name (r.2.ldir 1).l_ext)) =
        some (ACTIVE, [0x61, 0x6c, 0x64, 0x66, 0x69, 0x6c, 0x65, 0x2e, 0x74, 0x78, 0x74]) := by
  refine ⟨by decide, by decide, by decide, by decide, by decide⟩

/-! ## The claims on the Huffman walk -/

/-- The bits of an input byte in the order `getuhuff` uses them are its binary
digits from the least significant one. -/
theorem byteBits_lsb_first (c : Nat) :
    byteBits c =
      [(c : Int) % 2, (c : Int) / 2 % 2, (c : Int) / 4 % 2, (c : Int) / 8 % 2,
        (c : Int) / 16 % 2, (c : Int) / 32 % 2, (c : Int) / 64 % 2, (c : Int) / 128 % 2] := by
  have e1 : (c : Int) / 2 / 2 = (c : Int) / 4 := by omega
  have e2 : (c : Int) / 4 / 2 = (c : Int) / 8 := by omega
  have e3 : (c : Int) / 8 / 2 = (c : Int) / 16 := by omega
  have e4 : (c : Int) / 16 / 2 = (c : Int) / 32 := by omega
  have e5 : (c : Int) / 32 / 2 = (c : Int) / 64 := by omega
  have e6 : (c : Int) / 64 / 2 = (c : Int) / 128 := by omega
  simp only [byteBits, curinBits]
  rw [e1, e2, e3, e4, e5, e6]

/-- After `init_huff` no bit of a current byte is pending: the bits to come
are those of the unread input. -/
theorem pendingBits_init_huff (s : Usq) :
    pendingBits (init_huff s) = (s.ib.map byteBits).flatten := by
  simp [pendingBits, init_huff, curinBits]

/-- The value of a leaf link: the byte for a link `-(v + 1)` with `v` up to
255, end-of-data for `v = SPEOF`. -/
theorem leafValue_link (v : Int) : leafValue (-(v + 1)) = if v = SPEOF then EOF else v := by
  simp [leafValue]

/-- Claim C23.  Successive calls of `getuhuff` return the values of the
reference walk: if `k` walks of the tree from the root over the pending bits
reach the leaves with the values `vals` and leave the bits `rest`, then the
next `k` calls of `getuhuff` return `vals`, and the bits they leave pending
(the unused bits of the current byte, then the unread input) are `rest`.
After `init_huff` the pending bits are the bits of the payload, those of each
byte from the least significant one; a leaf link `-(v + 1)` yields `v`, and
end-of-data for `v = 256`. -/
theorem getuhuff_follows_tree_walk (k : Nat) (s : Usq) (vals rest : List Int)
    (h : treeWalkN s.dnode k (pendingBits s) = some (vals, rest)) :
    (getuhuffN k s).1 = vals ∧ pendingBits (getuhuffN k s).2 = rest ∧
      (getuhuffN k s).2.dnode = s.dnode ∧
      (∀ t : Usq, pendingBits (init_huff t) = (t.ib.map byteBits).flatten) ∧
      (∀ c : Nat, byteBits c =
        [(c : Int) % 2, (c : Int) / 2 % 2, (c : Int) / 4 % 2, (c : Int) / 8 % 2,
          (c : Int) / 16 % 2, (c : Int) / 32 % 2, (c : Int) / 64 % 2, (c : Int) / 128 % 2]) ∧
      (∀ v : Int, leafValue (-(v + 1)) = if v = SPEOF then EOF else v) := by
  have main : ∀ (k : Nat) (s : Usq) (vals rest : List Int),
      treeWalkN s.dnode k (pendingBits s) = some (vals, rest) →
      (getuhuffN k s).1 = vals ∧ pendingBits (getuhuffN k s).2 = rest ∧
        (getuhuffN k s).2.dnode = s.dnode := by
    intro k
    induction k with
    | zero =>
      intro s vals rest h
      simp only [treeWalkN, Option.some.injEq, Prod.mk.injEq] at h
      exact ⟨h.1, h.2, rfl⟩
    | succ k ih =>
      intro s vals rest h
      simp only [treeWalkN] at h
      have hd : (getuhuff s).2.dnode = s.dnode :=
        (getuhuffLoop_keeps (8 * s.ib.length + 8) 0 s).2.2.2
      rcases getuhuffLoop_treeWalk (8 * s.ib.length + 8) 0 s (pendingBits_length_lt s) with
        ⟨hn, _, _⟩ | hw
      · rw [hn] at h
        simp at h
      · have hw2 : treeWalk s.dnode (pendingBits s) 0 =
            some ((getuhuff s).1, pendingBits (getuhuff s).2) := hw
        rw [hw2] at h
        simp only at h
        cases hr : treeWalkN s.dnode k (pendingBits (getuhuff s).2) with
        | none => rw [hr] at h; simp at h
        | some r =>
          rw [hr] at h
          simp only [Option.some.injEq, Prod.mk.injEq] at h
          have hr2 : treeWalkN (getuhuff s).2.dnode k (pendingBits (getuhuff s).2) =
              some (r.1, r.2) := by
            rw [hd]
            exact hr
          have hih := ih (getuhuff s).2 r.1 r.2 hr2
          simp only [getuhuffN]
          refine ⟨?_, ?_, ?_⟩
          · rw [hih.1]
            exact h.1
          · rw [hih.2.1]
            exact h.2
          · rw [hih.2.2, hd]
  obtain ⟨m1, m2, m3⟩ := main k s vals rest h
  exact ⟨m1, m2, m3, pendingBits_init_huff, byteBits_lsb_first, leafValue_link⟩

/-- Claim C23 at the tree `rleTree 5` and the payload `0xda, 0x01`: four
calls return `A`, `DLE`, 5 and end-of-data, and seven bits of the second byte
are left. -/
theorem getuhuff_follows_tree_walk_witness :
    treeWalkN (rleState 5).dnode 4 (pendingBits (rleState 5)) =
        some ([0x41, 0x90, 5, EOF], [0, 0, 0, 0, 0, 0, 0]) ∧
      (getuhuffN 4 (rleState 5)).1 = [0x41, 0x90, 5, EOF] ∧
      pendingBits (getuhuffN 4 (rleState 5)).2 = [0, 0, 0, 0, 0, 0, 0] :=
  ⟨by decide,
    (getuhuff_follows_tree_walk 4 (rleState 5) [0x41, 0x90, 5, EOF] [0, 0, 0, 0, 0, 0, 0]
      (by decide)).1,
    (getuhuff_follows_tree_walk 4 (rleState 5) [0x41, 0x90, 5, EOF] [0, 0, 0, 0, 0, 0, 0]
      (by decide)).2.1⟩

/-- With the tree `rootLoopTree`, in which no leaf can be reached, `getuhuff`
reads the two bytes of the payload and returns `ERROR`. -/
theorem getuhuff_root_loop_example :
    (getuhuff (init_huff { usqInit with dnode := rootLoopTree, ib := [0xff, 0x00] })).1 = ERROR ∧
      (getuhuff (init_huff { usqInit with dnode := rootLoopTree, ib := [0xff, 0x00] })).2.ib =
        [] := by
  decide

/-- The index after `j` probe steps is `(h + j * h) mod 5003`, inside
`xlatbl`. -/
theorem probeAt_eq (pred suff : Nat) (hs : suff < 256) : ∀ j : Nat,
    0 ≤ probeAt pred suff j ∧ probeAt pred suff j < 5003 ∧
      (probeAt pred suff j).toNat = ((hash pred suff).1 + j * (hash pred suff).1) % 5003 := by
  obtain ⟨g1, g2, g3⟩ := hash_range pred suff hs
  intro j
  induction j with
  | zero =>
    refine ⟨by show (0 : Int) ≤ ((hash pred suff).1 : Int); omega,
      by show ((hash pred suff).1 : Int) < 5003; omega, ?_⟩
    show ((hash pred suff).1 : Int).toNat = _
    rw [Int.toNat_natCast, Nat.zero_mul, Nat.add_zero, Nat.mod_eq_of_lt (by omega)]
  | succ j ih =>
    obtain ⟨i0, i1, i2⟩ := ih
    have hstep := probeNext_range (probeAt pred suff j) (hash pred suff).1 i0 i1 g1 g2
    rw [← g3] at hstep
    obtain ⟨r0, r1, r2⟩ := hstep
    refine ⟨r0, r1, ?_⟩
    show (probeNext (probeAt pred suff j) (hash pred suff).2).toNat = _
    rw [r2, i2, Nat.mod_add_mod]
    congr 1
    ring

/-- Claim C25.  For every predecessor and every suffix byte, `hash` returns the
index `h = ((((pred >> 4) & 0xff) ^ suff) | ((pred & 0xf) << 8)) + 1` with
`1 ≤ h ≤ 4096` and the displacement `h - 5003`; a probe step of `figure` and
`entfil` moves from an index `p` of `xlatbl` to `(p + h) mod 5003`; every
index probed lies in `0..5002`; and the first 5003 indices probed are all
different, so that they are all the slots of `xlatbl`. -/
theorem hash_probe_exhaustive (pred suff : Nat) (hs : suff < 256) :
    (hash pred suff).1 =
        ((((pred >>> 4) &&& 0xff) ^^^ suff) ||| ((pred &&& 0xf) <<< 8)) + 1 ∧
      1 ≤ (hash pred suff).1 ∧ (hash pred suff).1 ≤ 4096 ∧
      (hash pred suff).2 = ((hash pred suff).1 : Int) - 5003 ∧
      (∀ p : Int, 0 ≤ p → p < 5003 →
        0 ≤ probeNext p (hash pred suff).2 ∧ probeNext p (hash pred suff).2 < 5003 ∧
          (probeNext p (hash pred suff).2).toNat = (p.toNat + (hash pred suff).1) % 5003) ∧
      (∀ j : Nat, 0 ≤ probeAt pred suff j ∧ probeAt pred suff j < 5003) ∧
      (∀ j k : Nat, j < 5003 → k < 5003 → probeAt pred suff j = probeAt pred suff k → j = k) ∧
      (∀ i : Nat, i < 5003 → ∃ j, j < 5003 ∧ (probeAt pred suff j).toNat = i) := by
  obtain ⟨g1, g2, g3⟩ := hash_range pred suff hs
  have hinj : ∀ j k : Nat, j < 5003 → k < 5003 →
      probeAt pred suff j = probeAt pred suff k → j = k := by
    intro j k hj hk e
    have ej := (probeAt_eq pred suff hs j).2.2
    have ek := (probeAt_eq pred suff hs k).2.2
    rw [e, ek] at ej
    exact probe_injective (hash pred suff).1 (hash pred suff).1 g1 g2 j k hj hk ej.symm
  refine ⟨rfl, g1, g2, g3, fun p hp0 hp1 => ?_,
    fun j => ⟨(probeAt_eq pred suff hs j).1, (probeAt_eq pred suff hs j).2.1⟩, hinj,
    fun i hi => ?_⟩
  · rw [g3]
    exact probeNext_range p (hash pred suff).1 hp0 hp1 g1 g2
  · have hsub : (Finset.range 5003).image (fun j => (probeAt pred suff j).toNat) ⊆
        Finset.range 5003 := by
      intro x hx
      obtain ⟨j, _, rfl⟩ := Finset.mem_image.mp hx
      have := probeAt_eq pred suff hs j
      simp only [Finset.mem_range]
      omega
    have hcard : ((Finset.range 5003).image (fun j => (probeAt pred suff j).toNat)).card =
        5003 := by
      rw [Finset.card_image_of_injOn, Finset.card_range]
      intro j hj k hk e
      simp only [Finset.coe_range, Set.mem_Iio] at hj hk
      have hj0 := (probeAt_eq pred suff hs j).1
      have hk0 := (probeAt_eq pred suff hs k).1
      apply hinj j k hj hk
      have e2 : (probeAt pred suff j).toNat = (probeAt pred suff k).toNat := e
      omega
    have heq := Finset.eq_of_subset_of_card_le hsub (by rw [hcard, Finset.card_range])
    have hmem : i ∈ (Finset.range 5003).image (fun j => (probeAt pred suff j).toNat) := by
      rw [heq]
      exact Finset.mem_range.mpr hi
    obtain ⟨j, hj, hji⟩ := Finset.mem_image.mp hmem
    exact ⟨j, Finset.mem_range.mp hj, hji⟩

/-- Claim C25 at the predecessor `NOPRED` and the suffix `A`. -/
theorem hash_probe_exhaustive_witness :
    0x41 < 256 ∧ 1 ≤ (hash NOPRED 0x41).1 ∧ (hash NOPRED 0x41).1 ≤ 4096 ∧
      ∀ i : Nat, i < 5003 → ∃ j, j < 5003 ∧ (probeAt NOPRED 0x41 j).toNat = i :=
  ⟨by decide, (hash_probe_exhaustive NOPRED 0x41 (by decide)).2.1,
    (hash_probe_exhaustive NOPRED 0x41 (by decide)).2.2.1,
    (hash_probe_exhaustive NOPRED 0x41 (by decide)).2.2.2.2.2.2.2⟩

/-- A code is the first member of the list of entries its chain passes,
followed by the atomic code at the end. -/
theorem chain_mem_self (tbl : Nat → entry) (e : Nat) (l : List Nat) (a : Nat)
    (h : Chain tbl e l a) : e ∈ l ++ [a] := by
  cases h with
  | atomic _ _ => simp
  | step _ _ _ _ _ => simp

/-- In a well-formed table every entry on the chain of a marked code carries
the mark, the atomic code at its end included. -/
theorem chain_all_referenced (tbl : Nat → entry) (n c : Nat) (ht : TableInv tbl n)
    (hn : n ≤ 4096) (hc : c < n) (hres : ¬(256 ≤ c ∧ c < 260)) (hself : referenced tbl c)
    (l : List Nat) (a : Nat) (hch : Chain tbl c l a) : ∀ i ∈ l ++ [a], referenced tbl i := by
  obtain ⟨l2, a2, h1, _, h3⟩ := tableInv_chain tbl n ht hn c hc hres
  obtain ⟨e1, e2⟩ := chain_unique _ _ _ _ hch l2 a2 h1
  subst e1 e2
  have ha := (chain_end _ _ _ _ h1).1
  intro i hi
  rcases List.mem_append.mp hi with hi | hi
  · rcases (h3 i hi).2.2 with h | h
    · rw [h]
      exact hself
    · exact h
  · simp only [List.mem_singleton] at hi
    rw [hi]
    exact tableInv_low_referenced tbl n ht a2 (by omega)

/-- The code 260 as the first code of a stream: `decode` walks from entry 260
over entry 4095 to the atomic entry 0, and entry 4095 carries no mark
afterwards. -/
theorem decode_leaves_visited_entry_unmarked :
    lzwStart.entry = 260 ∧
      decodeReads { lzwStart with lastpr := lzwStart.pred, pred := 260 } 260 =
        some ([260, 4095, 0], 261) ∧
      (decode { lzwStart with lastpr := lzwStart.pred, pred := 260 } 260).map
          (fun s => (s.lzw_table 4095).predecessor &&& REFERENCED) = some 0 :=
  ⟨by decide, by decide, by decide⟩

/-- Claim C21 (referenced marking), for a stream in which the code equal to
the next free entry comes only after a previous code.  In every state `s` of
such a stream and for the next ordinary code `c`, `decode (c)` returns, and in
the table it leaves every entry the walk has visited (`c` itself and each
predecessor down to the atomic entry) carries the mark `REFERENCED`. -/
theorem decode_chain_marked (s : Lzw) (c : Nat) (hs : Reach s) (hc : ValidCode s c)
    (hr : c ≠ RSTCOD) :
    ∃ sD reads e, decode { s with lastpr := s.pred, pred := c } c = some sD ∧
      decodeReads { s with lastpr := s.pred, pred := c } c = some (reads, e) ∧
      c ∈ reads ∧ ∀ i, i ∈ reads → referenced sD.lzw_table i := by
  obtain ⟨hw, hsl, ht, hl⟩ := reach_inv s hs
  obtain ⟨w1, w2, w3, w4⟩ := width_entry s hw
  rcases hc with hc | ⟨hc1, hc2, hc3⟩
  · exact absurd hc hr
  rcases hc3 with hc3 | ⟨hc3, hc4⟩
  · obtain ⟨l, a, sD, h1, _, _, hd, f1, _⟩ :=
      decode_below_state { s with lastpr := s.pred, pred := c } c ht w2 hc3 hc2
    have h1 : Chain s.lzw_table c l a := h1
    have f1 : sD.lzw_table = markTable s.lzw_table c := f1
    obtain ⟨l2, a2, g1, g2, _⟩ := tableInv_chain s.lzw_table s.entry ht w2 c hc3 hc2
    obtain ⟨e1, e2⟩ := chain_unique _ _ _ _ h1 l2 a2 g1
    subst e1 e2
    have hM : Chain (markTable s.lzw_table c) c l2 a2 :=
      chain_congr _ _ _ _ _ h1 (fun x _ => predOf_markTable _ _ _)
    have hwr := walkReads_chain _ _ _ _ hM TABLE_SIZE g2
    refine ⟨sD, l2 ++ [a2], s.entry, hd, ?_, chain_mem_self _ _ _ _ hM, ?_⟩
    · unfold decodeReads
      simp only
      rw [if_neg (by show ¬ c ≥ s.entry; omega)]
      simp only
      unfold markTable at hwr
      rw [hwr]
    · rw [f1]
      exact chain_all_referenced _ s.entry c (tableInv_mark _ _ _ ht) w2 hc3 hc2
        (referenced_markTable_self _ _) l2 a2 hM
  · subst hc3
    rcases hl with ⟨q1, _, _⟩ | ⟨p1, p2, p3, p4, l, p5⟩
    · exact absurd q1 hc4
    obtain ⟨sA, hA, k1, k2, k3, k4, hd⟩ := decode_kwkwk
      { s with lastpr := s.pred, pred := s.entry } l ht (slotsInv_congr s _ rfl rfl hsl) w1
      (by show s.entry ≤ 4095; omega) p1 p2 p3 p5
    obtain ⟨_, _, gE, _⟩ := enterx_some _ sA _ _ hA
    have gE : sA.entry = s.entry + 1 := gE
    have k3 : Chain (markTable sA.lzw_table s.entry) s.entry (s.entry :: l) s.finchar := k3
    have k4 : TableInv (markTable sA.lzw_table s.entry) (s.entry + 1) := k4
    have hwr := walkReads_chain _ _ _ _ k3 TABLE_SIZE
      (by simp only [List.length_cons]; omega)
    obtain ⟨f1, _⟩ := sendList_frame
      (s.finchar :: ((l.map (fun x => (s.lzw_table x).suffix)).reverse ++ [s.finchar]))
      { sA with lzw_table := markTable sA.lzw_table s.entry, finchar := s.finchar }
    refine ⟨_, (s.entry :: l) ++ [s.finchar], s.entry + 1, hd, ?_,
      chain_mem_self _ _ _ _ k3, ?_⟩
    · unfold decodeReads
      simp only
      rw [if_pos (by show s.entry ≥ s.entry; exact le_refl _)]
      rw [hA]
      simp only
      unfold markTable at hwr
      rw [hwr, gE]
    · rw [f1]
      exact chain_all_referenced _ (s.entry + 1) s.entry k4 (by omega) (by omega) (by omega)
        (referenced_markTable_self _ _) (s.entry :: l) s.finchar k3

/-- The amended claim C21 at the code 260 after the code of `A`. -/
theorem decode_chain_marked_witness :
    Reach lzwAfterA ∧ ValidCode lzwAfterA 260 ∧ 260 ≠ RSTCOD ∧
      ∃ sD reads e,
        decode { lzwAfterA with lastpr := lzwAfterA.pred, pred := 260 } 260 = some sD ∧
        decodeReads { lzwAfterA with lastpr := lzwAfterA.pred, pred := 260 } 260 =
          some (reads, e) ∧
        260 ∈ reads ∧ ∀ i, i ∈ reads → referenced sD.lzw_table i :=
  ⟨reach_afterA, valid_afterA_260, by decide,
    decode_chain_marked lzwAfterA 260 reach_afterA valid_afterA_260 (by decide)⟩

/-- A list of distinct indices of entries from 260 on has at most 3836
members. -/
theorem nodup_length_le_3836 (l : List Nat) (hn : l.Nodup)
    (hb : ∀ x ∈ l, 260 ≤ x ∧ x < 4096) : l.length ≤ 3836 := by
  have h1 : l.toFinset ⊆ Finset.Ico 260 4096 := by
    intro x hx
    simp only [List.mem_toFinset] at hx
    simp only [Finset.mem_Ico]
    exact hb x hx
  have h2 := Finset.card_le_card h1
  rw [List.toFinset_card_of_nodup hn, Nat.card_Ico] at h2
  exact h2

/-- The chain of a code of a well-formed table that is not a reserved code
passes no entry twice. -/
theorem tableInv_chain_nodup (tbl : Nat → entry) (n : Nat) (ht : TableInv tbl n)
    (hn : n ≤ 4096) (c : Nat) (hc : c < n) (hres : ¬(256 ≤ c ∧ c < 260)) :
    ∃ l a, Chain tbl c l a ∧ a < 256 ∧ l.Nodup ∧ l.length ≤ 3836 ∧
      ∀ x ∈ l, 260 ≤ x ∧ x < n := by
  obtain ⟨rank, hrank⟩ := ht.chain
  by_cases h : c < 256
  · exact ⟨[], c, Chain.atomic c (by omega), h, List.nodup_nil, by simp, by simp⟩
  · obtain ⟨l, a, c1, c2, c3⟩ := chain_exists tbl n rank hrank (rank c) c (le_refl _) (by omega) hc
    have ha := (chain_end _ _ _ _ c1).1
    refine ⟨l, a, c1, by omega, c2, nodup_length_le_3836 l c2 (fun x hx => ?_), fun x hx => ?_⟩
    · obtain ⟨g1, g2, _⟩ := c3 x hx
      exact ⟨g1, by omega⟩
    · obtain ⟨g1, g2, _⟩ := c3 x hx
      exact ⟨g1, g2⟩

/-- The walk of `decode` between two entries that name each other as
predecessor never ends: it overruns every stack. -/
theorem decodeWalk_cycle (tbl : Nat → entry) (a b : Nat) (ha : a > 255) (hb : b > 255)
    (hab : (tbl a).predecessor &&& 0xfff = b) (hba : (tbl b).predecessor &&& 0xfff = a) :
    ∀ (room : Nat) (stack : List Nat),
      decodeWalk tbl room a stack = none ∧ decodeWalk tbl room b stack = none := by
  intro room
  induction room with
  | zero =>
    intro stack
    simp [decodeWalk, ha, hb]
  | succ room ih =>
    intro stack
    simp only [decodeWalk, ha, hb, if_true, hab, hba]
    exact ⟨(ih _).2, (ih _).1⟩

/-- The atomic loop of `initb2` leaves the table entries from `entry + k` on
as they are. -/
theorem initb2Atomic_table : ∀ (k i : Nat) (s s1 : Lzw), initb2Atomic k i s = some s1 →
    ∀ j, s.entry + k ≤ j → s1.lzw_table j = s.lzw_table j := by
  intro k
  induction k with
  | zero =>
    intro i s s1 h j _
    simp only [initb2Atomic, Option.some.injEq] at h
    rw [← h]
  | succ k ih =>
    intro i s s1 h j hj
    simp only [initb2Atomic] at h
    cases hx : enterx s NOPRED i with
    | none => simp [hx] at h
    | some s2 =>
      simp only [hx] at h
      obtain ⟨_, e0, e1, _⟩ := enterx_some s s2 NOPRED i hx
      rw [ih (i + 1) s2 s1 h j (by omega), e0]
      have : j ≠ s.entry := by omega
      simp only [setAt, this, if_false]

/-- The reserved loop of `initb2` leaves the table entries from `entry + k`
on as they are. -/
theorem initb2Reserved_table : ∀ (k : Nat) (s s1 : Lzw), initb2Reserved k s = some s1 →
    ∀ j, s.entry + k ≤ j → s1.lzw_table j = s.lzw_table j := by
  intro k
  induction k with
  | zero =>
    intro s s1 h j _
    simp only [initb2Reserved, Option.some.injEq] at h
    rw [← h]
  | succ k ih =>
    intro s s1 h j hj
    simp only [initb2Reserved] at h
    cases hx : enterx s IMPRED 0 with
    | none => simp [hx] at h
    | some s2 =>
      simp only [hx] at h
      obtain ⟨_, e0, e1, _⟩ := enterx_some s s2 IMPRED 0 hx
      rw [ih s2 s1 h j (by omega), e0]
      have : j ≠ s.entry := by omega
      simp only [setAt, this, if_false]

/-- `initb2` started with `entry = 0` leaves the table entries from 260 on as
they are. -/
theorem initb2_table_high (a a1 : Lzw) (ha : a.entry = 0) (h : initb2 a = some a1) :
    ∀ j, 260 ≤ j → a1.lzw_table j = a.lzw_table j := by
  intro j hj
  unfold initb2 at h
  obtain ⟨a2, hx, h2⟩ := Option.bind_eq_some.mp h
  have hsl := slots_cleared a ha
  obtain ⟨f1, _, _, _, _, f6⟩ := initb2Atomic_frame 0x100 0 _ a2 hx (by omega) hsl
    (by simp only [ha]; omega)
  have f1 : a2.entry = a.entry + 0x100 := f1
  have t1 := initb2Atomic_table 0x100 0 _ a2 hx j (by show a.entry + 0x100 ≤ j; omega)
  have t2 := initb2Reserved_table 4 a2 a1 h2 j (by omega)
  rw [t2, t1]

/-- The reset code in a state with a byte in `finchar`: besides what
`reset_start` says, the table entries from 260 on and `finchar` stay as they
are. -/
theorem reset_detail (s : Lzw) :
    ∃ s1, uncrunchCode s RSTCOD = some s1 ∧ Agree s1 lzwStart ∧ s1.entry = 260 ∧
      s1.entflg = 1 ∧ s1.pred = NOPRED ∧ SlotsInv s1 ∧ s1.finchar = s.finchar ∧
      ∀ j, 260 ≤ j → s1.lzw_table j = s.lzw_table j := by
  obtain ⟨a1, h1, h2, h3, h4, h5, _, h7, h8⟩ := initb2_start
    { s with lastpr := s.pred, pred := NOPRED, entry := 0, fulflg := 0, codlen := 9,
             trgmsk := 0x1ff, entflg := 1 } rfl rfl rfl rfl
  have ht := initb2_table_high _ a1 rfl h1
  refine ⟨a1, ?_, h2, h3, h4, h7, h8, h5, ht⟩
  simp only [uncrunchCode, if_true]
  exact h1

/-- One pass of the main loop with a code below `entry`, after a previous code
and with room in the table: the pass adds the entry `entry` with the previous
code as predecessor. -/
theorem step_enters (s : Lzw) (c : Nat) (hi : LzwInv s) (hc : c < s.entry)
    (hres : ¬(256 ≤ c ∧ c < 260)) (hp : s.pred ≠ NOPRED) (hf : s.entry < 4096) :
    ∃ s1, uncrunchCode s c = some s1 ∧ LzwInv s1 ∧ s1.entry = s.entry + 1 ∧ s1.pred = c ∧
      (s1.lzw_table s.entry).predecessor &&& 0xfff = s.pred := by
  obtain ⟨s1, hu, hinv⟩ := step_below s c hi hc hres
  obtain ⟨hw, hsl, ht, hl⟩ := hi
  obtain ⟨w1, w2, w3, w4⟩ := width_entry s hw
  have hr : ¬ c = RSTCOD := by simp only [RSTCOD]; omega
  have hf2 : s.fulflg ≠ 2 := by
    intro h
    have := w4 h
    omega
  rcases hl with ⟨q1, _, _⟩ | ⟨p1, p2, p3, p4, lp, p5⟩
  · exact absurd q1 hp
  obtain ⟨l, a, sD, _, _, _, hd, f1, _, _, f4, f5, f6, f7, f8⟩ :=
    decode_below_state { s with lastpr := s.pred, pred := c } c ht w2 hc hres
  have f1 : sD.lzw_table = markTable s.lzw_table c := f1
  have f4 : sD.entry = s.entry := f4
  have f5 : sD.entflg = s.entflg := f5
  have f7 : sD.lastpr = s.pred := f7
  have f8 : sD.pred = c := f8
  have hu2 : uncrunchCode s c =
      (if s.fulflg ≠ 2 then
        (if sD.entflg = 0 then enterx sD sD.lastpr sD.finchar else some { sD with entflg := 0 })
      else entfil sD sD.lastpr sD.finchar) := by
    simp only [uncrunchCode, hr, if_false, hd]
  rw [if_pos hf2, if_pos (by rw [f5, p4])] at hu2
  rw [hu2] at hu
  obtain ⟨_, gT, gE, _, _, _, gP, _⟩ := enterx_some sD s1 _ _ hu
  refine ⟨s1, by rw [hu2]; exact hu, hinv, by rw [gE, f4], by rw [gP, f8], ?_⟩
  rw [gT, f4, f7]
  simp only [setAt, if_true]
  exact and_fff_of_lt s.pred (by omega)

/-- A run of `k` codes of `A` after a previous code, with room in the table
for `k` entries: every pass adds one entry. -/
theorem run_atomic (tail : List Nat) : ∀ (k : Nat) (s : Lzw), LzwInv s → s.pred ≠ NOPRED →
    s.entry + k ≤ 4096 →
    ∃ s1, uncrunchCodes (List.replicate k 0x41 ++ tail) s = uncrunchCodes tail s1 ∧
      LzwInv s1 ∧ s1.pred ≠ NOPRED ∧ s1.entry = s.entry + k := by
  intro k
  induction k with
  | zero =>
    intro s hi hp _
    exact ⟨s, rfl, hi, hp, rfl⟩
  | succ k ih =>
    intro s hi hp hk
    have h260 := (width_entry s hi.width).1
    obtain ⟨s2, hu, hi2, he2, hp2, _⟩ := step_enters s 0x41 hi (by omega) (by omega) hp (by omega)
    obtain ⟨s1, hr, hi1, hp1, he1⟩ := ih s2 hi2 (by rw [hp2]; decide) (by omega)
    refine ⟨s1, ?_, hi1, hp1, by omega⟩
    have hne : ¬ (0x41 : Nat) = EOFCOD := by decide
    rw [List.replicate_succ, List.cons_append, uncrunchCodes, if_neg hne, hu]
    exact hr

/-- A stream on which the walk of `decode` never ends.  3835 codes of `A`
bring `entry` to 4094; the code 260 and one more code of `A` define the
entries 4094 and 4095, the latter with the predecessor 260; a reset code
follows.  Every code of the stream is below the next free entry.  The next
code 260 equals the next free entry: `enterx` defines entry 260 with the
predecessor `NOPRED`, whose low twelve bits are 4095, and entry 4095 still
names 260 as its predecessor, so the walk runs between the two entries and
overruns every stack. -/
theorem decode_walk_cycles_after_reset :
    ∃ s sA, uncrunchCodes (List.replicate 3835 0x41 ++ [260, 0x41, RSTCOD]) lzwStart = some s ∧
      s.entry = 260 ∧
      enterx { s with lastpr := s.pred, pred := 260, entflg := 1 } s.pred s.finchar = some sA ∧
      (markTable sA.lzw_table 260 260).predecessor &&& 0xfff = 4095 ∧
      (markTable sA.lzw_table 260 4095).predecessor &&& 0xfff = 260 ∧
      (∀ room, decodeWalk (markTable sA.lzw_table 260) room 260 [] = none) ∧
      uncrunchCode s 260 = none := by
  have hA0 : LzwInv lzwAfterA := reach_inv _ reach_afterA
  have hA1 : lzwAfterA.pred ≠ NOPRED := by decide
  have hA2 : lzwAfterA.entry = 260 := by decide
  -- the run of codes of `A`
  obtain ⟨sb, hb, ib, pb, eb⟩ := run_atomic [260, 0x41, RSTCOD] 3834 lzwAfterA hA0 hA1
    (by rw [hA2]; decide)
  rw [hA2] at eb
  -- the code 260
  obtain ⟨sc, hc, ic, ec, pc, _⟩ := step_enters sb 260 ib (by omega) (by omega) pb (by omega)
  -- the code of `A` that defines entry 4095
  obtain ⟨sd, hd, id, ed, pd, td⟩ := step_enters sc 0x41 ic (by omega) (by omega)
    (by rw [pc]; decide) (by omega)
  rw [ec, eb] at td
  rw [pc] at td
  have hfin : sd.finchar < 256 := by
    rcases id.last with ⟨q1, _, _⟩ | ⟨_, _, _, _, l, p5⟩
    · rw [pd] at q1
      exact absurd q1 (by decide)
    · have := (chain_end _ _ _ _ p5).1
      omega
  -- the reset
  obtain ⟨se, he, hagree, ee, _, pe, sle, fe, te⟩ := reset_detail sd
  have hfe : se.fulflg = 0 := by
    rw [hagree.2.2.2.2.1]
    exact lzwStart_facts.2.2.2.1
  -- the stream as a whole
  have hstream : uncrunchCodes (List.replicate 3835 0x41 ++ [260, 0x41, RSTCOD]) lzwStart =
      some se := by
    have h1 : ¬ (0x41 : Nat) = EOFCOD := by decide
    have h2 : ¬ (260 : Nat) = EOFCOD := by decide
    have h3 : ¬ RSTCOD = EOFCOD := by decide
    rw [show (3835 : Nat) = 3834 + 1 from rfl, List.replicate_succ, List.cons_append,
      uncrunchCodes, if_neg h1, lzwAfterA_eq]
    simp only
    rw [hb, uncrunchCodes, if_neg h2, hc]
    simp only
    rw [uncrunchCodes, if_neg h1, hd]
    simp only
    rw [uncrunchCodes, if_neg h3, he]
    simp only
    rw [uncrunchCodes]
  -- the code 260 after the reset
  obtain ⟨sA, hA⟩ := enterx_exists { se with lastpr := se.pred, pred := 260, entflg := 1 }
    se.pred se.finchar (by rw [fe]; exact hfin) (slotsInv_congr se _ rfl rfl sle)
    (by show se.entry ≤ 4096; omega)
  obtain ⟨_, gT, _⟩ := enterx_some _ sA _ _ hA
  have gT : sA.lzw_table =
      setAt se.lzw_table se.entry { predecessor := se.pred, suffix := se.finchar % 256 } := gT
  have hp260 : (markTable sA.lzw_table 260 260).predecessor &&& 0xfff = 4095 := by
    have := predOf_markTable sA.lzw_table 260 260
    unfold predOf at this
    rw [this, gT, ee, pe]
    simp only [setAt, if_true]
    decide
  have hp4095 : (markTable sA.lzw_table 260 4095).predecessor &&& 0xfff = 260 := by
    have := predOf_markTable sA.lzw_table 260 4095
    unfold predOf at this
    rw [this, gT, ee]
    have hne : (4095 : Nat) ≠ 260 := by decide
    simp only [setAt, hne, if_false]
    rw [te 4095 (by omega)]
    exact td
  have hwalk : ∀ room, decodeWalk (markTable sA.lzw_table 260) room 260 [] = none :=
    fun room => (decodeWalk_cycle _ 260 4095 (by omega) (by omega) hp260 hp4095 room []).1
  refine ⟨se, sA, hstream, ee, hA, hp260, hp4095, hwalk, ?_⟩
  have hr : ¬ (260 : Nat) = RSTCOD := by decide
  have hdec : decode { se with lastpr := se.pred, pred := 260 } 260 = none := by
    unfold decode
    simp only
    rw [if_pos (by show (260 : Nat) ≥ se.entry; omega)]
    have hA2 : enterx { se with lastpr := se.pred, pred := 260, entflg := 1 } se.pred se.finchar =
        some sA := hA
    rw [hA2]
    simp only
    have hw := hwalk TABLE_SIZE
    unfold markTable at hw
    rw [hw]
  simp only [uncrunchCode, hr, if_false, hdec]
  split <;> rfl

/-- Claim C26 (the chain walk terminates), for a stream in which the code
equal to the next free entry comes only after a previous code.  In every
state of such a stream, states after reassignments by `entfil` included: the
chain of every atomic code and of every entry from 260 up to the next free
one ends at an atomic code and passes no entry twice; for the next ordinary
code `decode` returns, and its walk has pushed fewer than 4096 bytes; and
when the table is full the call of `entfil` that follows returns and changes
nothing or overwrites one entry, which lacks the mark `REFERENCED` and is
not one of the entries 0..259. -/
theorem chain_walk_terminates (s : Lzw) (hs : Reach s) :
    (∀ e, e < s.entry → ¬(256 ≤ e ∧ e < 260) →
      ∃ l a, Chain s.lzw_table e l a ∧ a < 256 ∧ l.Nodup ∧ l.length < TABLE_SIZE) ∧
      (∀ c, ValidCode s c → c ≠ RSTCOD →
        ∃ sD a stack, decode { s with lastpr := s.pred, pred := c } c = some sD ∧
          decodeWalk sD.lzw_table TABLE_SIZE c [] = some (a, stack) ∧ a < 256 ∧
          stack.length < TABLE_SIZE ∧
          (s.fulflg = 2 →
            ∃ s1, entfil sD sD.lastpr sD.finchar = some s1 ∧
              (s1 = sD ∨ ∃ ep, 260 ≤ ep ∧ ep < TABLE_SIZE ∧ ¬ referenced sD.lzw_table ep ∧
                s1 = { sD with
                  lzw_table := setAt sD.lzw_table ep
                    { predecessor := sD.lastpr, suffix := sD.finchar % 256 } }))) := by
  obtain ⟨hw, hsl, ht, hl⟩ := reach_inv s hs
  obtain ⟨w1, w2, w3, w4⟩ := width_entry s hw
  refine ⟨fun e he hres => ?_, fun c hc hr => ?_⟩
  · obtain ⟨l, a, c1, c2, c3, c4, _⟩ := tableInv_chain_nodup s.lzw_table s.entry ht w2 e he hres
    exact ⟨l, a, c1, c2, c3, by simp only [TABLE_SIZE]; omega⟩
  · rcases hc with hc | ⟨hc1, hc2, hc3⟩
    · exact absurd hc hr
    rcases hc3 with hc3 | ⟨hc3, hc4⟩
    · obtain ⟨l, a, sD, h1, _, _, hd, f1, f2, _, f4, _, f6, f7, _⟩ :=
        decode_below_state { s with lastpr := s.pred, pred := c } c ht w2 hc3 hc2
      have f1 : sD.lzw_table = markTable s.lzw_table c := f1
      have f2 : sD.xlatbl = s.xlatbl := f2
      have f4 : sD.entry = s.entry := f4
      have f7 : sD.lastpr = s.pred := f7
      have htM : TableInv sD.lzw_table s.entry := by
        rw [f1]
        exact tableInv_mark _ _ _ ht
      obtain ⟨l2, a2, d1, d2, _, d4, _⟩ :=
        tableInv_chain_nodup sD.lzw_table s.entry htM w2 c hc3 hc2
      have hwalk := decodeWalk_chain _ _ _ _ d1 TABLE_SIZE []
        (by simp only [TABLE_SIZE]; omega)
      refine ⟨sD, a2, _, hd, hwalk, d2, ?_, fun hfull => ?_⟩
      · simp only [List.append_nil, List.length_reverse, List.length_map, TABLE_SIZE]
        omega
      · have hslD : SlotsInv sD := slotsInv_congr s sD f2 f4 hsl
        have hfin : sD.finchar < 256 := by
          rw [f6]
          assumption
        obtain ⟨g1, g2, g3⟩ := hash_range sD.lastpr sD.finchar hfin
        obtain ⟨j, hj, hje⟩ := probe_exists sD.xlatbl (by rw [hslD.2, f4]; exact w2)
          (hash sD.lastpr sD.finchar).1 (hash sD.lastpr sD.finchar).1 g1 g2
        have hstart : ((hash sD.lastpr sD.finchar).1 : Int).toNat =
            (hash sD.lastpr sD.finchar).1 := Int.toNat_natCast _
        obtain ⟨s1, hs1, hcase⟩ := entfilLoop_some sD sD.lastpr sD.finchar
          (hash sD.lastpr sD.finchar).1 g1 g2 5003 ((hash sD.lastpr sD.finchar).1 : Int)
          (by omega) (by omega) ⟨j, hj, by rw [hstart]; exact hje⟩
        refine ⟨s1, ?_, ?_⟩
        · unfold entfil
          simp only
          rw [g3]
          exact hs1
        · rcases hcase with e | ⟨i, hi5, hne, hun, e⟩
          · exact Or.inl e
          · have hnr : ¬ referenced sD.lzw_table (sD.xlatbl i) := fun h => h hun
            have hlt : sD.xlatbl i < s.entry := by
              rcases hslD.1 i hi5 with h | h
              · exact absurd h hne
              · rw [f4] at h
                exact h
            refine Or.inr ⟨sD.xlatbl i, ?_, by simp only [TABLE_SIZE]; omega, hnr, e⟩
            by_contra hlow
            exact hnr (tableInv_low_referenced _ _ htM _ (by omega))
    · subst hc3
      rcases hl with ⟨q1, _, _⟩ | ⟨p1, p2, p3, p4, l, p5⟩
      · exact absurd q1 hc4
      obtain ⟨sA, hA, k1, k2, k3, k4, hd⟩ := decode_kwkwk
        { s with lastpr := s.pred, pred := s.entry } l ht (slotsInv_congr s _ rfl rfl hsl) w1
        (by show s.entry ≤ 4095; omega) p1 p2 p3 p5
      have k3 : Chain (markTable sA.lzw_table s.entry) s.entry (s.entry :: l) s.finchar := k3
      have hfin := (chain_end _ _ _ _ k3).1
      obtain ⟨f1, _⟩ := sendList_frame
        (s.finchar :: ((l.map (fun x => (s.lzw_table x).suffix)).reverse ++ [s.finchar]))
        { sA with lzw_table := markTable sA.lzw_table s.entry, finchar := s.finchar }
      have k4 : TableInv (markTable sA.lzw_table s.entry) (s.entry + 1) := k4
      obtain ⟨l3, a3, d1, _, _, d4, _⟩ := tableInv_chain_nodup _ _ k4 (by omega) s.entry
        (by omega) (by omega)
      obtain ⟨e3, _⟩ := chain_unique _ _ _ _ k3 l3 a3 d1
      subst e3
      simp only [List.length_cons] at d4
      have hwalk := decodeWalk_chain _ _ _ _ k3 TABLE_SIZE []
        (by simp only [List.length_cons, TABLE_SIZE]; omega)
      refine ⟨_, s.finchar, _, hd, by rw [f1]; exact hwalk, by omega, ?_, fun hfull => ?_⟩
      · simp only [List.append_nil, List.length_reverse, List.length_map, List.length_cons,
          TABLE_SIZE]
        omega
      · have := w4 hfull
        omega

/-- The amended claim C26 at the state after the code of `A`. -/
theorem chain_walk_terminates_witness :
    Reach lzwAfterA ∧
      ∀ c, ValidCode lzwAfterA c → c ≠ RSTCOD →
        ∃ sD a stack,
          decode { lzwAfterA with lastpr := lzwAfterA.pred, pred := c } c = some sD ∧
          decodeWalk sD.lzw_table TABLE_SIZE c [] = some (a, stack) ∧ a < 256 ∧
          stack.length < TABLE_SIZE ∧
          (lzwAfterA.fulflg = 2 →
            ∃ s1, entfil sD sD.lastpr sD.finchar = some s1 ∧
              (s1 = sD ∨ ∃ ep, 260 ≤ ep ∧ ep < TABLE_SIZE ∧ ¬ referenced sD.lzw_table ep ∧
                s1 = { sD with
                  lzw_table := setAt sD.lzw_table ep
                    { predecessor := sD.lastpr, suffix := sD.finchar % 256 } })) :=
  ⟨reach_afterA, (chain_walk_terminates lzwAfterA reach_afterA).2⟩

/-! ## Lemmas on the code reader -/

/-- The list `bitsMsb k n` has `k` members. -/
theorem bitsMsb_length : ∀ (k n : Nat), (bitsMsb k n).length = k := by
  intro k
  induction k with
  | zero => intro n; rfl
  | succ k ih => intro n; simp [bitsMsb, ih]

/-- The list `bitsMsb k n` depends on the `k` low bits of `n` only. -/
theorem bitsMsb_congr : ∀ (k n m : Nat), n % 2 ^ k = m % 2 ^ k → bitsMsb k n = bitsMsb k m := by
  intro k
  induction k with
  | zero => intro n m _; rfl
  | succ k ih =>
    intro n m h
    have hd : (2 : Nat) ^ k ∣ 2 ^ (k + 1) := pow_dvd_pow 2 (Nat.le_succ k)
    have h1 : n % 2 ^ k = m % 2 ^ k := by
      rw [← Nat.mod_mod_of_dvd n hd, ← Nat.mod_mod_of_dvd m hd, h]
    have h2 : n / 2 ^ k % 2 = m / 2 ^ k % 2 := by
      rw [← Nat.mod_mul_right_div_self, ← Nat.mod_mul_right_div_self, ← pow_succ, h]
    simp only [bitsMsb, h2, ih n m h1]

/-- The `j + k` low bits of a number are the `j` low bits of its quotient by
`2 ^ k` followed by its `k` low bits. -/
theorem bitsMsb_add : ∀ (j k n : Nat),
    bitsMsb (j + k) n = bitsMsb j (n / 2 ^ k) ++ bitsMsb k n := by
  intro j
  induction j with
  | zero => intro k n; simp [bitsMsb]
  | succ j ih =>
    intro k n
    have e : j + 1 + k = (j + k) + 1 := by omega
    rw [e]
    simp only [bitsMsb, List.cons_append]
    rw [ih k n, Nat.div_div_eq_div_mul, ← pow_add, Nat.add_comm k j]

/-- The value of the bits `bitsMsb k n` read after an accumulated value. -/
theorem foldl_bitsMsb : ∀ (k n acc : Nat),
    (bitsMsb k n).foldl (fun a b => 2 * a + b) acc = acc * 2 ^ k + n % 2 ^ k := by
  intro k
  induction k with
  | zero => intro n acc; simp [bitsMsb, Nat.mod_one]
  | succ k ih =>
    intro n acc
    simp only [bitsMsb, List.foldl_cons]
    rw [ih, Nat.mod_pow_succ]
    ring

/-- The field `bitsMsb k n` stands for the `k` low bits of `n`. -/
theorem fieldValue_bitsMsb (k n : Nat) : fieldValue (bitsMsb k n) = n % 2 ^ k := by
  unfold fieldValue
  rw [foldl_bitsMsb]
  simp

/-- A bitwise or of a multiple of `2 ^ n` and a number below `2 ^ n` is their
sum. -/
theorem or_eq_add (a b n : Nat) (ha : a % 2 ^ n = 0) (hb : b < 2 ^ n) : a ||| b = a + b := by
  have h := Nat.div_add_mod a (2 ^ n)
  rw [ha, Nat.add_zero] at h
  rw [← h]
  exact (Nat.mul_add_lt_is_or hb _).symm

/-- The first `or` of `getcodeRead` is a sum: the buffer shifted by the width
has no bit set where the byte goes. -/
theorem or_first (G b0 g w : Nat) (hg : g ≤ 8) (hgw : g ≤ w) (hG : G % 2 ^ (8 - g) = 0)
    (hb : b0 < 256) : (G <<< w) ||| (b0 <<< (w - g)) = G * 2 ^ w + b0 * 2 ^ (w - g) := by
  rw [Nat.shiftLeft_eq, Nat.shiftLeft_eq]
  apply or_eq_add _ _ (w - g + 8)
  · have hd : (2 : Nat) ^ (8 - g) ∣ G := Nat.dvd_of_mod_eq_zero hG
    have he : (2 : Nat) ^ (w - g + 8) = 2 ^ (8 - g) * 2 ^ w := by
      rw [← pow_add]
      congr 1
      omega
    rw [he]
    exact Nat.mod_eq_zero_of_dvd (Nat.mul_dvd_mul hd (dvd_refl _))
  · have hp : 0 < (2 : Nat) ^ (w - g) := by positivity
    rw [pow_add]
    nlinarith

/-- The second `or` of `getcodeRead` is a sum. -/
theorem or_second (L Y b1 h : Nat) (hL : h ≤ L) (h8 : 8 ≤ h) (hY : Y % 2 ^ h = 0)
    (hb : b1 < 256) :
    (Y % 2 ^ L) ||| (b1 <<< (h - 8)) = Y % 2 ^ L + b1 * 2 ^ (h - 8) := by
  rw [Nat.shiftLeft_eq]
  apply or_eq_add _ _ h
  · rw [Nat.mod_mod_of_dvd _ (pow_dvd_pow 2 hL)]
    exact hY
  · have he : (2 : Nat) ^ h = 2 ^ 8 * 2 ^ (h - 8) := by
      rw [← pow_add]
      congr 1
      omega
    have hp : 0 < (2 : Nat) ^ (h - 8) := by positivity
    rw [he]
    nlinarith

/-- The arithmetic of `getcodeRead` when one byte completes the field: the
field is made of the residual bits and the top bits of the byte, and the
other bits of the byte are the new residual bits. -/
theorem read_one_arith (L G G1 b0 g w : Nat) (hL : 32 ≤ L) (hg : g ≤ 7) (hw9 : 9 ≤ w)
    (hw12 : w ≤ 12) (hh : w - g ≤ 8) (hG : G % 2 ^ (8 - g) = 0)
    (hG1 : G1 = (G * 2 ^ w + b0 * 2 ^ (w - g)) % 2 ^ L) :
    G1 / 2 ^ 8 % 2 ^ w = (G / 2 ^ (8 - g) % 2 ^ g * 256 + b0) / 2 ^ (8 - (w - g)) % 2 ^ w ∧
      G1 % 2 ^ (w - g) = 0 ∧
      G1 / 2 ^ (w - g) % 2 ^ (8 - (w - g)) =
        (G / 2 ^ (8 - g) % 2 ^ g * 256 + b0) % 2 ^ (8 - (w - g)) := by
  have h20 : G1 % 2 ^ 20 = (G * 2 ^ w + b0 * 2 ^ (w - g)) % 2 ^ 20 := by
    rw [hG1, Nat.mod_mod_of_dvd _ (pow_dvd_pow 2 (by omega : 20 ≤ L))]
  clear hG1 hL
  interval_cases g <;> interval_cases w <;> omega

/-- The arithmetic of `getcodeRead` when two bytes complete the field. -/
theorem read_two_arith (L G G1 b0 b1 g w : Nat) (hL : 32 ≤ L) (hg : g ≤ 7) (hw9 : 9 ≤ w)
    (hw12 : w ≤ 12) (hh : 8 < w - g) (hG : G % 2 ^ (8 - g) = 0)
    (hG1 : G1 = ((G * 2 ^ w + b0 * 2 ^ (w - g)) % 2 ^ L + b1 * 2 ^ (w - g - 8)) % 2 ^ L) :
    G1 / 2 ^ 8 % 2 ^ w =
        (G / 2 ^ (8 - g) % 2 ^ g * 65536 + b0 * 256 + b1) / 2 ^ (16 - (w - g)) % 2 ^ w ∧
      G1 % 2 ^ (w - g - 8) = 0 ∧
      G1 / 2 ^ (w - g - 8) % 2 ^ (16 - (w - g)) =
        (G / 2 ^ (8 - g) % 2 ^ g * 65536 + b0 * 256 + b1) % 2 ^ (16 - (w - g)) := by
  have hd : (2 : Nat) ^ 20 ∣ 2 ^ L := pow_dvd_pow 2 (by omega : 20 ≤ L)
  have h20 : G1 % 2 ^ 20 = (G * 2 ^ w + b0 * 2 ^ (w - g) + b1 * 2 ^ (w - g - 8)) % 2 ^ 20 := by
    rw [hG1, Nat.mod_mod_of_dvd _ hd, Nat.add_mod, Nat.mod_mod_of_dvd _ hd, ← Nat.add_mod]
  clear hG1 hL hd
  interval_cases g <;> interval_cases w <;> omega

/-- The number of pending bits. -/
theorem pendingCodeBits_length (s : Lzw) :
    (pendingCodeBits s).length = s.getbit.toNat + 8 * s.infd.length := by
  have hf : ∀ l : List Nat, (streamBits l).length = 8 * l.length := by
    intro l
    induction l with
    | nil => rfl
    | cons c l ih =>
      have : streamBits (c :: l) = bitsMsb 8 c ++ streamBits l := by simp [streamBits]
      rw [this, List.length_append, bitsMsb_length, ih, List.length_cons]
      omega
  simp only [pendingCodeBits, List.length_append, bitsMsb_length, hf]

/-- The bits of a stream that starts with the byte `c`. -/
theorem streamBits_cons (c : Nat) (l : List Nat) :
    streamBits (c :: l) = bitsMsb 8 c ++ streamBits l := by
  simp [streamBits]

/-- The residual bits followed by the bits of a byte are the bits of one
number. -/
theorem bits_one (g H b0 : Nat) (hb : b0 < 256) :
    bitsMsb g H ++ bitsMsb 8 b0 = bitsMsb (g + 8) (H % 2 ^ g * 256 + b0) := by
  rw [bitsMsb_add g 8]
  have e1 : (H % 2 ^ g * 256 + b0) / 2 ^ 8 = H % 2 ^ g := by omega
  rw [e1, bitsMsb_congr g (H % 2 ^ g) H (Nat.mod_mod _ _),
    bitsMsb_congr 8 (H % 2 ^ g * 256 + b0) b0 (by omega)]

/-- The residual bits followed by the bits of two bytes are the bits of one
number. -/
theorem bits_two (g H b0 b1 : Nat) (hb0 : b0 < 256) (hb1 : b1 < 256) :
    bitsMsb g H ++ (bitsMsb 8 b0 ++ bitsMsb 8 b1) =
      bitsMsb (g + 16) (H % 2 ^ g * 65536 + b0 * 256 + b1) := by
  rw [bitsMsb_add g 16, show (16 : Nat) = 8 + 8 from rfl, bitsMsb_add 8 8]
  have e1 : (H % 2 ^ g * 65536 + b0 * 256 + b1) / 2 ^ (8 + 8) = H % 2 ^ g := by omega
  rw [e1, bitsMsb_congr g (H % 2 ^ g) H (Nat.mod_mod _ _),
    bitsMsb_congr 8 ((H % 2 ^ g * 65536 + b0 * 256 + b1) / 2 ^ 8) b0 (by omega),
    bitsMsb_congr 8 (H % 2 ^ g * 65536 + b0 * 256 + b1) b1 (by omega)]

/-- The value of `getcodeRead` when one byte completes the field. -/
theorem getcodeRead_one (L : Nat) (s : Lzw) (g : Nat) (hg : s.getbit = (g : Int))
    (hgw : g ≤ s.codlen) (hh : s.codlen - g ≤ 8) :
    getcodeRead L s = some ((getcLong L s.infd).2.2,
      { s with
        getbuf := ((s.getbuf <<< s.codlen) ||| ((getcLong L s.infd).1 <<< (s.codlen - g))) % 2 ^ L
        getbit := ((8 - (s.codlen - g) : Nat) : Int)
        infd := (getcLong L s.infd).2.1 }) := by
  have e1 : ((s.codlen : Int) - (g : Int)).toNat = s.codlen - g := by omega
  have e2 : (8 : Int) - ((s.codlen : Int) - (g : Int)) = ((8 - (s.codlen - g) : Nat) : Int) := by
    omega
  have e3 : ¬ ((s.codlen : Int) - (g : Int) < 0) := by omega
  have e4 : ¬ (((8 - (s.codlen - g) : Nat) : Int) < 0) := by omega
  simp only [getcodeRead, hg, e1, e2, e3, e4, if_false]

/-- The value of `getcodeRead` when the field needs two bytes. -/
theorem getcodeRead_two (L : Nat) (s : Lzw) (g : Nat) (hg : s.getbit = (g : Int))
    (hh : 8 < s.codlen - g) (hh2 : s.codlen - g ≤ 16) :
    getcodeRead L s = some
      ((getcLong L s.infd).2.2 || (getcLong L (getcLong L s.infd).2.1).2.2,
      { s with
        getbuf := ((((s.getbuf <<< s.codlen) |||
            ((getcLong L s.infd).1 <<< (s.codlen - g))) % 2 ^ L) |||
          ((getcLong L (getcLong L s.infd).2.1).1 <<< (s.codlen - g - 8))) % 2 ^ L
        getbit := ((16 - (s.codlen - g) : Nat) : Int)
        infd := (getcLong L (getcLong L s.infd).2.1).2.1 }) := by
  have e1 : ((s.codlen : Int) - (g : Int)).toNat = s.codlen - g := by omega
  have e2 : (8 : Int) - ((s.codlen : Int) - (g : Int)) + 8 =
      ((16 - (s.codlen - g) : Nat) : Int) := by omega
  have e3 : ¬ ((s.codlen : Int) - (g : Int) < 0) := by omega
  have e4 : (8 : Int) - ((s.codlen : Int) - (g : Int)) < 0 := by omega
  have e5 : ((s.codlen : Int) - (g : Int) - 8).toNat = s.codlen - g - 8 := by omega
  simp only [getcodeRead, hg, e1, e2, e3, e4, e5, if_false, if_true]

/-- The pending bits of a state with `g` residual bits. -/
theorem pendingCodeBits_eq (s : Lzw) (g : Nat) (hg : s.getbit = (g : Int)) :
    pendingCodeBits s = bitsMsb g (s.getbuf / 2 ^ (8 - g)) ++ streamBits s.infd := by
  simp only [pendingCodeBits, hg, Int.toNat_ofNat]

/-- A list of bits that starts with the `w + r` low digits of `acc`: its first
`w` bits and the bits after them. -/
theorem bits_split (w r acc : Nat) (tail : List Nat) :
    (bitsMsb (w + r) acc ++ tail).take w = bitsMsb w (acc / 2 ^ r) ∧
      (bitsMsb (w + r) acc ++ tail).drop w = bitsMsb r acc ++ tail := by
  rw [bitsMsb_add w r acc, List.append_assoc]
  have hl : (bitsMsb w (acc / 2 ^ r)).length = w := bitsMsb_length _ _
  exact ⟨List.take_left' hl, List.drop_left' hl⟩

/-- The mask and the shift of `getcode` select the `w` bits from bit 8 up. -/
theorem code_of_buffer (G w : Nat) : (G >>> 8) &&& (2 ^ w - 1) = G / 2 ^ 8 % 2 ^ w := by
  rw [Nat.shiftRight_eq_div_pow, Nat.and_pow_two_sub_one_eq_mod]

/-- What `getcodeRead` does to a reader state between two codes: it reads at
most two bytes; it reports the end of the file exactly when fewer bits than
the code width are pending; otherwise the bits from bit 8 of `getbuf` up are
the next field of pending bits, and the pending bits after the call are the
bits behind that field. -/
theorem getcodeRead_spec (L : Nat) (hL : 32 ≤ L) (s : Lzw) (hs : ReaderInv s)
    (h9 : 9 ≤ s.codlen) (h12 : s.codlen ≤ 12) (hm : s.trgmsk = 2 ^ s.codlen - 1)
    (hb : ∀ b, b ∈ s.infd → b < 256) :
    ∃ eof s2, getcodeRead L s = some (eof, s2) ∧ s2.codlen = s.codlen ∧
      s2.trgmsk = s.trgmsk ∧ 0 ≤ s2.getbit ∧ s2.getbit ≤ 7 ∧
      (∃ n, n ≤ 2 ∧ s2.infd = s.infd.drop n) ∧
      (eof = true → (pendingCodeBits s).length < s.codlen) ∧
      (eof = false → s.codlen ≤ (pendingCodeBits s).length ∧
        s2.infd.length < s.infd.length ∧
        (s2.getbuf >>> 8) &&& s2.trgmsk = fieldValue ((pendingCodeBits s).take s.codlen) ∧
        pendingCodeBits s2 = (pendingCodeBits s).drop s.codlen ∧ ReaderInv s2) := by
  obtain ⟨h0, h7, hG⟩ := hs
  obtain ⟨g, hg⟩ := Int.eq_ofNat_of_zero_le h0
  have hg7 : g ≤ 7 := by omega
  rw [hg, Int.toNat_ofNat] at hG
  have hlen := pendingCodeBits_length s
  rw [hg, Int.toNat_ofNat] at hlen
  have hpend := pendingCodeBits_eq s g hg
  by_cases hh : s.codlen - g ≤ 8
  · -- one byte completes the field
    rw [getcodeRead_one L s g hg (by omega) hh]
    cases hi : s.infd with
    | nil =>
      refine ⟨true, _, rfl, rfl, rfl, Int.ofNat_nonneg _,
        (by show ((8 - (s.codlen - g) : Nat) : Int) ≤ 7; omega), ⟨0, by omega, ?_⟩, ?_, ?_⟩
      · show (getcLong L []).2.1 = _
        rfl
      · intro _
        rw [hlen, hi, List.length_nil]
        omega
      · intro h
        exact absurd h (by decide)
    | cons b0 rest =>
      have hb0 : b0 < 256 := hb b0 (by rw [hi]; exact List.mem_cons_self _ _)
      have hor := or_first s.getbuf b0 g s.codlen (by omega) (by omega) hG hb0
      obtain ⟨a1, a2, a3⟩ := read_one_arith L s.getbuf _ b0 g s.codlen hL hg7 h9 h12 hh hG rfl
      have hp2 : pendingCodeBits s =
          bitsMsb (s.codlen + (8 - (s.codlen - g)))
            (s.getbuf / 2 ^ (8 - g) % 2 ^ g * 256 + b0) ++ streamBits rest := by
        rw [hpend, hi, streamBits_cons, ← List.append_assoc, bits_one _ _ _ hb0]
        congr 2
        omega
      obtain ⟨t1, t2⟩ := bits_split s.codlen (8 - (s.codlen - g))
        (s.getbuf / 2 ^ (8 - g) % 2 ^ g * 256 + b0) (streamBits rest)
      refine ⟨false, _, rfl, rfl, rfl, Int.ofNat_nonneg _,
        (by show ((8 - (s.codlen - g) : Nat) : Int) ≤ 7; omega), ⟨1, by omega, ?_⟩, ?_, ?_⟩
      · show (getcLong L (b0 :: rest)).2.1 = _
        rfl
      · intro h
        exact absurd h (by decide)
      · intro _
        refine ⟨?_, ?_, ?_, ?_, ?_, ?_, ?_⟩
        · rw [hlen, hi, List.length_cons]
          omega
        · show rest.length < (b0 :: rest).length
          rw [List.length_cons]
          omega
        · show ((((s.getbuf <<< s.codlen) ||| (b0 <<< (s.codlen - g))) % 2 ^ L) >>> 8) &&&
            s.trgmsk = _
          rw [hm, code_of_buffer, hor, hp2, t1, fieldValue_bitsMsb, a1]
        · rw [pendingCodeBits_eq _ (8 - (s.codlen - g)) rfl, hp2, t2]
          show bitsMsb (8 - (s.codlen - g))
            ((((s.getbuf <<< s.codlen) ||| (b0 <<< (s.codlen - g))) % 2 ^ L) /
              2 ^ (8 - (8 - (s.codlen - g)))) ++ streamBits rest = _
          rw [hor, show 8 - (8 - (s.codlen - g)) = s.codlen - g by omega]
          rw [bitsMsb_congr _ _ _ a3]
        · show (0 : Int) ≤ ((8 - (s.codlen - g) : Nat) : Int)
          omega
        · show ((8 - (s.codlen - g) : Nat) : Int) ≤ 7
          omega
        · show (((s.getbuf <<< s.codlen) ||| (b0 <<< (s.codlen - g))) % 2 ^ L) %
            2 ^ (8 - ((8 - (s.codlen - g) : Nat) : Int).toNat) = 0
          rw [Int.toNat_ofNat, hor, show 8 - (8 - (s.codlen - g)) = s.codlen - g by omega]
          exact a2
  · -- the field needs two bytes
    have hh8 : 8 < s.codlen - g := by omega
    rw [getcodeRead_two L s g hg hh8 (by omega)]
    cases hi : s.infd with
    | nil =>
      refine ⟨true, _, rfl, rfl, rfl, Int.ofNat_nonneg _,
        (by show ((16 - (s.codlen - g) : Nat) : Int) ≤ 7; omega), ⟨0, by omega, ?_⟩, ?_, ?_⟩
      · show (getcLong L (getcLong L []).2.1).2.1 = _
        rfl
      · intro _
        rw [hlen, hi, List.length_nil]
        omega
      · intro h
        exact absurd h (by decide)
    | cons b0 rest0 =>
      cases rest0 with
      | nil =>
        refine ⟨true, _, rfl, rfl, rfl, Int.ofNat_nonneg _,
        (by show ((16 - (s.codlen - g) : Nat) : Int) ≤ 7; omega), ⟨1, by omega, ?_⟩, ?_, ?_⟩
        · show (getcLong L (getcLong L [b0]).2.1).2.1 = _
          rfl
        · intro _
          rw [hlen, hi, List.length_cons, List.length_nil]
          omega
        · intro h
          exact absurd h (by decide)
      | cons b1 rest =>
        have hb0 : b0 < 256 := hb b0 (by rw [hi]; exact List.mem_cons_self _ _)
        have hb1 : b1 < 256 :=
          hb b1 (by rw [hi]; exact List.mem_cons_of_mem _ (List.mem_cons_self _ _))
        have hor := or_first s.getbuf b0 g s.codlen (by omega) (by omega) hG hb0
        have hY : (s.getbuf * 2 ^ s.codlen + b0 * 2 ^ (s.codlen - g)) % 2 ^ (s.codlen - g) = 0 := by
          have hd : (2 : Nat) ^ (s.codlen - g) ∣ 2 ^ s.codlen := pow_dvd_pow 2 (by omega)
          exact Nat.mod_eq_zero_of_dvd
            (Nat.dvd_add (Dvd.dvd.mul_left hd _) (Nat.dvd_mul_left _ _))
        have hor2 := or_second L (s.getbuf * 2 ^ s.codlen + b0 * 2 ^ (s.codlen - g)) b1
          (s.codlen - g) (by omega) (by omega) hY hb1
        obtain ⟨a1, a2, a3⟩ := read_two_arith L s.getbuf _ b0 b1 g s.codlen hL hg7 h9 h12 hh8 hG rfl
        have hp2 : pendingCodeBits s =
            bitsMsb (s.codlen + (16 - (s.codlen - g)))
              (s.getbuf / 2 ^ (8 - g) % 2 ^ g * 65536 + b0 * 256 + b1) ++ streamBits rest := by
          rw [hpend, hi, streamBits_cons, streamBits_cons, ← List.append_assoc,
            ← List.append_assoc, List.append_assoc (bitsMsb g _), bits_two _ _ _ _ hb0 hb1]
          congr 2
          omega
        obtain ⟨t1, t2⟩ := bits_split s.codlen (16 - (s.codlen - g))
          (s.getbuf / 2 ^ (8 - g) % 2 ^ g * 65536 + b0 * 256 + b1) (streamBits rest)
        refine ⟨false, _, rfl, rfl, rfl, Int.ofNat_nonneg _,
        (by show ((16 - (s.codlen - g) : Nat) : Int) ≤ 7; omega), ⟨2, by omega, ?_⟩, ?_, ?_⟩
        · show (getcLong L (getcLong L (b0 :: b1 :: rest)).2.1).2.1 = _
          rfl
        · intro h
          exact absurd h (by decide)
        · intro _
          refine ⟨?_, ?_, ?_, ?_, ?_, ?_, ?_⟩
          · rw [hlen, hi, List.length_cons, List.length_cons]
            omega
          · show rest.length < (b0 :: b1 :: rest).length
            rw [List.length_cons, List.length_cons]
            omega
          · show ((((((s.getbuf <<< s.codlen) ||| (b0 <<< (s.codlen - g))) % 2 ^ L) |||
              (b1 <<< (s.codlen - g - 8))) % 2 ^ L) >>> 8) &&& s.trgmsk = _
            rw [hm, code_of_buffer, hor, hor2, hp2, t1, fieldValue_bitsMsb, a1]
          · rw [pendingCodeBits_eq _ (16 - (s.codlen - g)) rfl, hp2, t2]
            show bitsMsb (16 - (s.codlen - g))
              ((((((s.getbuf <<< s.codlen) ||| (b0 <<< (s.codlen - g))) % 2 ^ L) |||
                (b1 <<< (s.codlen - g - 8))) % 2 ^ L) /
                2 ^ (8 - (16 - (s.codlen - g)))) ++ streamBits rest = _
            rw [hor, hor2, show 8 - (16 - (s.codlen - g)) = s.codlen - g - 8 by omega]
            rw [bitsMsb_congr _ _ _ a3]
          · show (0 : Int) ≤ ((16 - (s.codlen - g) : Nat) : Int)
            omega
          · show ((16 - (s.codlen - g) : Nat) : Int) ≤ 7
            omega
          · show ((((s.getbuf <<< s.codlen) ||| (b0 <<< (s.codlen - g))) % 2 ^ L) |||
                (b1 <<< (s.codlen - g - 8))) % 2 ^ L %
              2 ^ (8 - ((16 - (s.codlen - g) : Nat) : Int).toNat) = 0
            rw [Int.toNat_ofNat, hor, hor2,
              show 8 - (16 - (s.codlen - g)) = s.codlen - g - 8 by omega]
            exact a2

/-- The reference reader does not depend on its bound once the bound exceeds
the number of bits. -/
theorem nextField_fuel (w : Nat) (hw : 0 < w) : ∀ (f1 f2 : Nat) (bits : List Nat),
    bits.length < f1 → bits.length < f2 → nextField w f1 bits = nextField w f2 bits := by
  intro f1
  induction f1 with
  | zero =>
    intro f2 bits h1 _
    omega
  | succ f1 ih =>
    intro f2 bits h1 h2
    cases f2 with
    | zero => omega
    | succ f2 =>
      rw [nextField, nextField]
      by_cases hl : bits.length < w
      · rw [if_pos hl, if_pos hl]
      · rw [if_neg hl, if_neg hl]
        have hd : (bits.drop w).length = bits.length - w := List.length_drop _ _
        rw [ih f2 (bits.drop w) (by omega) (by omega)]

/-- The reference reader after a dropped field. -/
theorem codeField_skip (w : Nat) (hw : 0 < w) (bits : List Nat) (hl : w ≤ bits.length)
    (hv : fieldValue (bits.take w) = NULCOD ∨ fieldValue (bits.take w) = SPRCOD) :
    codeField w bits = codeField w (bits.drop w) := by
  rw [codeField, nextField, if_neg (by omega), if_pos hv]
  have hd : (bits.drop w).length = bits.length - w := List.length_drop _ _
  exact nextField_fuel w hw _ _ _ (by omega) (by omega)

/-- The reference reader at a field that is kept. -/
theorem codeField_keep (w : Nat) (bits : List Nat) (hl : w ≤ bits.length)
    (hv : ¬ (fieldValue (bits.take w) = NULCOD ∨ fieldValue (bits.take w) = SPRCOD)) :
    codeField w bits = some (fieldValue (bits.take w), bits.drop w) := by
  rw [codeField, nextField, if_neg (by omega), if_neg hv]

/-- The reference reader when fewer bits than a field are left. -/
theorem codeField_short (w : Nat) (bits : List Nat) (hl : bits.length < w) :
    codeField w bits = none := by
  rw [codeField, nextField, if_pos hl]

/-- The function `getcode` against the reference reader, for every bound above the
number of unread bytes: it returns, with `EOFCOD` when the reference finds no
field, and otherwise with the field of the reference, leaving the bits behind
that field pending. -/
theorem getcodeFuel_spec (L : Nat) (hL : 32 ≤ L) : ∀ (fuel : Nat) (s : Lzw),
    s.infd.length < fuel → ReaderInv s → 9 ≤ s.codlen → s.codlen ≤ 12 →
    s.trgmsk = 2 ^ s.codlen - 1 → (∀ b, b ∈ s.infd → b < 256) →
    ∃ code s1, getcodeFuel L fuel s = some (code, s1) ∧ s1.codlen = s.codlen ∧
      s1.trgmsk = s.trgmsk ∧ 0 ≤ s1.getbit ∧ s1.getbit ≤ 7 ∧
      (∃ n, s1.infd = s.infd.drop n) ∧
      ((codeField s.codlen (pendingCodeBits s) = none ∧ code = EOFCOD) ∨
        (codeField s.codlen (pendingCodeBits s) = some (code, pendingCodeBits s1) ∧
          ReaderInv s1)) := by
  intro fuel
  induction fuel with
  | zero =>
    intro s h
    omega
  | succ fuel ih =>
    intro s hf hs h9 h12 hm hb
    obtain ⟨eof, s2, hr, hc2, hm2, hg0, hg7, ⟨n, _, hi2⟩, he1, he2⟩ :=
      getcodeRead_spec L hL s hs h9 h12 hm hb
    rw [getcodeFuel, hr]
    cases eof with
    | true =>
      have hshort := he1 rfl
      exact ⟨EOFCOD, s2, rfl, hc2, hm2, hg0, hg7, ⟨n, hi2⟩,
        Or.inl ⟨codeField_short _ _ hshort, rfl⟩⟩
    | false =>
      obtain ⟨hl, hlt, hcode, hpend, hinv⟩ := he2 rfl
      have hb2 : ∀ b, b ∈ s2.infd → b < 256 := by
        intro b hbm
        rw [hi2] at hbm
        exact hb b (List.mem_of_mem_drop hbm)
      by_cases hv : (s2.getbuf >>> 8) &&& s2.trgmsk = NULCOD ∨
          (s2.getbuf >>> 8) &&& s2.trgmsk = SPRCOD
      · obtain ⟨code, s1, hr1, hc1, hm1, g0, g7, ⟨n1, hn1⟩, hres⟩ :=
          ih s2 (by omega) hinv (by omega) (by omega) (by rw [hm2, hc2]; exact hm) hb2
        have hskip := codeField_skip s.codlen (by omega) (pendingCodeBits s) hl
          (by rw [← hcode]; exact hv)
        refine ⟨code, s1, ?_, by omega, by rw [hm1, hm2], g0, g7, ⟨n + n1, ?_⟩, ?_⟩
        · simp only [Bool.false_eq_true, if_false, hv, if_true]
          exact hr1
        · rw [hn1, hi2, List.drop_drop]
        · rw [hskip, ← hpend, ← hc2]
          exact hres
      · refine ⟨(s2.getbuf >>> 8) &&& s2.trgmsk, s2, ?_, hc2, hm2, hinv.1, hinv.2.1,
          ⟨n, hi2⟩, Or.inr ⟨?_, hinv⟩⟩
        · simp only [Bool.false_eq_true, if_false, hv]
        · rw [codeField_keep s.codlen (pendingCodeBits s) hl (by rw [← hcode]; exact hv),
            hcode, hpend]

/-! ## The claim on the code reader -/

/-- Successive calls of `getcode` against the reference, from any state
between two codes. -/
theorem getcodeWidths_spec (L : Nat) (hL : 32 ≤ L) : ∀ (ws : List Nat) (s : Lzw),
    (∀ w, w ∈ ws → 9 ≤ w ∧ w ≤ 12) → ReaderInv s → (∀ b, b ∈ s.infd → b < 256) →
    ∀ (codes rest : List Nat), codeFields ws (pendingCodeBits s) = some (codes, rest) →
    ∃ s1, getcodeWidths L ws s = some (codes, s1) ∧ pendingCodeBits s1 = rest ∧
      ReaderInv s1 ∧ (∀ b, b ∈ s1.infd → b < 256) := by
  intro ws
  induction ws with
  | nil =>
    intro s _ hs hb codes rest h
    rw [codeFields] at h
    cases h
    exact ⟨s, rfl, rfl, hs, hb⟩
  | cons w ws ih =>
    intro s hws hs hb codes rest h
    obtain ⟨h9, h12⟩ := hws w (List.mem_cons_self _ _)
    obtain ⟨code, s1, hr, _, _, _, _, ⟨n, hn⟩, hres⟩ :=
      getcodeFuel_spec L hL (s.infd.length + 1) { s with codlen := w, trgmsk := 2 ^ w - 1 }
        (Nat.lt_succ_self _) hs h9 h12 rfl hb
    have hp : pendingCodeBits { s with codlen := w, trgmsk := 2 ^ w - 1 } =
        pendingCodeBits s := rfl
    rw [hp] at hres
    have hr2 : getcode L { s with codlen := w, trgmsk := 2 ^ w - 1 } = some (code, s1) := hr
    rw [codeFields] at h
    rcases hres with ⟨hnone, _⟩ | ⟨hsome, hinv⟩
    · rw [hnone] at h
      cases h
    · rw [hsome] at h
      have hb1 : ∀ b, b ∈ s1.infd → b < 256 := by
        intro b hbm
        rw [hn] at hbm
        exact hb b (List.mem_of_mem_drop hbm)
      cases hf : codeFields ws (pendingCodeBits s1) with
      | none =>
        simp [hf] at h
      | some p =>
        obtain ⟨vs, rest2⟩ := p
        simp only [hf, Option.some.injEq, Prod.mk.injEq] at h
        obtain ⟨h1, h2⟩ := h
        subst h1
        subst h2
        obtain ⟨s2, hw2, hp2, hinv2, hb2⟩ :=
          ih s1 (fun x hx => hws x (List.mem_cons_of_mem _ hx)) hinv hb1 vs rest2 hf
        refine ⟨s2, ?_, hp2, hinv2, hb2⟩
        rw [getcodeWidths, hr2]
        simp only [hw2]

/-- Claim C24.  The reader starts with an empty bit buffer (`getbit = 0`,
`getbuf = 0`) on a stream of bytes, the `long` has at least 32 bits, and the
calls of `getcode` are made with the code widths `ws`, each from 9 to 12.
Whenever the reference, which takes the bits of the stream from the most
significant bit of each byte, cuts them into fields of the current width and
drops the fields `0x102` and `0x103`, yields the codes `codes` and leaves the
bits `rest`, the calls of `getcode` return these codes, the bits not yet
delivered are `rest`, and the residual bit count is between 0 and 7.  In the
state reached, a further call at any width from 9 to 12 returns: the next
field of the reference, or `EOFCOD` when the reference finds fewer bits than a
field (the residual count again between 0 and 7); and the reading part of a
call takes at most two bytes from the input. -/
theorem getcode_cuts_fields (L : Nat) (hL : 32 ≤ L) (ws : List Nat)
    (hws : ∀ w, w ∈ ws → 9 ≤ w ∧ w ≤ 12) (s : Lzw) (hbit : s.getbit = 0)
    (hbuf : s.getbuf = 0) (hb : ∀ b, b ∈ s.infd → b < 256) (codes rest : List Nat)
    (h : codeFields ws (streamBits s.infd) = some (codes, rest)) :
    ∃ s1, getcodeWidths L ws s = some (codes, s1) ∧ pendingCodeBits s1 = rest ∧
      0 ≤ s1.getbit ∧ s1.getbit ≤ 7 ∧
      (∀ w, 9 ≤ w → w ≤ 12 →
        ∃ code s2, getcode L { s1 with codlen := w, trgmsk := 2 ^ w - 1 } = some (code, s2) ∧
          0 ≤ s2.getbit ∧ s2.getbit ≤ 7 ∧
          ((codeField w rest = none ∧ code = EOFCOD) ∨
            codeField w rest = some (code, pendingCodeBits s2))) ∧
      (∀ w, 9 ≤ w → w ≤ 12 →
        ∃ eof s2 n, getcodeRead L { s1 with codlen := w, trgmsk := 2 ^ w - 1 } =
            some (eof, s2) ∧ n ≤ 2 ∧ s2.infd = s1.infd.drop n) := by
  have hs : ReaderInv s := by
    refine ⟨by rw [hbit], by rw [hbit]; decide, ?_⟩
    rw [hbuf]
    exact Nat.zero_mod _
  have hp : pendingCodeBits s = streamBits s.infd := by
    rw [pendingCodeBits_eq s 0 hbit]
    rfl
  rw [← hp] at h
  obtain ⟨s1, hw1, hp1, hinv1, hb1⟩ := getcodeWidths_spec L hL ws s hws hs hb codes rest h
  refine ⟨s1, hw1, hp1, hinv1.1, hinv1.2.1, ?_, ?_⟩
  · intro w h9 h12
    obtain ⟨code, s2, hr, _, _, g0, g7, _, hres⟩ :=
      getcodeFuel_spec L hL (s1.infd.length + 1) { s1 with codlen := w, trgmsk := 2 ^ w - 1 }
        (Nat.lt_succ_self _) hinv1 h9 h12 rfl hb1
    have hq : pendingCodeBits { s1 with codlen := w, trgmsk := 2 ^ w - 1 } = rest := hp1
    rw [hq] at hres
    refine ⟨code, s2, hr, g0, g7, ?_⟩
    rcases hres with hnone | ⟨hsome, _⟩
    · exact Or.inl hnone
    · exact Or.inr hsome
  · intro w h9 h12
    obtain ⟨eof, s2, hr, _, _, _, _, ⟨n, hn, hi⟩, _, _⟩ :=
      getcodeRead_spec L hL { s1 with codlen := w, trgmsk := 2 ^ w - 1 } hinv1 h9 h12 rfl hb1
    exact ⟨eof, s2, n, hr, hn, hi⟩

/-- Claim C24 at the stream `0x20, 0xa0, 0x4a, 0x10` with a `long` of 32 bits:
the first code, 9 bits wide, is `0x41`; at the width 10 the field `0x102` is
dropped and the code `0x142` is returned; three bits are left. -/
theorem getcode_cuts_fields_witness :
    codeFields [9, 10] (streamBits (readerStart [0x20, 0xa0, 0x4a, 0x10]).infd) =
        some ([0x41, 0x142], [0, 0, 0]) ∧
      ∃ s1, getcodeWidths 32 [9, 10] (readerStart [0x20, 0xa0, 0x4a, 0x10]) =
          some ([0x41, 0x142], s1) ∧ pendingCodeBits s1 = [0, 0, 0] :=
  ⟨by decide,
    (getcode_cuts_fields 32 (by decide) [9, 10] (by decide)
      (readerStart [0x20, 0xa0, 0x4a, 0x10]) rfl rfl (by decide) [0x41, 0x142] [0, 0, 0]
      (by decide)).imp (fun _ hx => ⟨hx.1, hx.2.1⟩)⟩

end Lar
